import Mathlib

/-!
# Segmented command-queue pool of the nine state tracker (`nine_queue.c`)

A shallow embedding of `src/gallium/state_trackers/nine/nine_queue.c`.

* `unsigned` fields are natural numbers; every C addition on them is reduced
  modulo `2 ^ 32` (`UINT_RANGE`).
* `void *mem_pool` is the address returned by `MALLOC`, a natural number; a
  returned pointer `queue->mem_pool + queue->head` is the sum of the two.
* `pool[NINE_QUEUES]` is a list of segments, read with `slot` and written with
  `store`.
* The condition variables and mutexes carry no data.  A thread that would sit in
  a `while (...) pipe_condvar_wait(...)` loop is reported as a `wait_*` outcome
  holding the pool state at that point; the thread can leave the loop only when
  the other side has changed the flag it is waiting for.
-/

namespace NineQueue

/-! ## Constants -/

/-- Number of segments: `#define NINE_QUEUES (32)`. -/
def NINE_QUEUES : Nat := 32

/-- Cursor mask: `#define NINE_QUEUES_MASK (NINE_QUEUES - 1)`. -/
def NINE_QUEUES_MASK : Nat := NINE_QUEUES - 1

/-- Segment capacity in bytes: `#define NINE_QUEUE_SIZE (4352)`. -/
def NINE_QUEUE_SIZE : Nat := 4352

/-- Number of values of the C type `unsigned` (32 bits). -/
def UINT_RANGE : Nat := 2 ^ 32

/-! ## Data model -/

/-- One segment, `struct nine_queue`. -/
structure nine_queue where
  head : Nat
  tail : Nat
  mem_pool : Nat
  full : Bool
deriving DecidableEq

/-- The pool, `struct nine_queue_pool`: the ring of segments and the two cursors
(`head` is the producer cursor, `tail` the consumer cursor). -/
structure nine_queue_pool where
  pool : List nine_queue
  head : Nat
  tail : Nat
deriving DecidableEq

/-- Read of `ctx->pool[i]`. -/
def nine_queue_pool.slot (ctx : nine_queue_pool) (i : Nat) : nine_queue :=
  ctx.pool.getD i ⟨0, 0, 0, false⟩

/-- Write of `ctx->pool[i]`. -/
def nine_queue_pool.store (ctx : nine_queue_pool) (i : Nat) (q : nine_queue) :
    nine_queue_pool :=
  { ctx with pool := ctx.pool.set i q }

/-! ## Consumer functions -/

/-- Function `nine_queue_free`: `ctx->head = ctx->tail = ctx->full = 0`. -/
def nine_queue_free (q : nine_queue) : nine_queue :=
  { q with head := 0, tail := 0, full := false }

/-- Outcome of `nine_queue_get`. -/
inductive get_result where
  /-- The thread is in `while (!queue->full) pipe_condvar_wait(...)`. -/
  | wait (ctx : nine_queue_pool)
  /-- The call returned pointer `p`. -/
  | ret (ctx : nine_queue_pool) (p : Nat)
deriving DecidableEq

/-- Function `nine_queue_get`: wait until the segment at the consumer cursor is
full, then return `queue->mem_pool + queue->tail`. -/
def nine_queue_get (ctx : nine_queue_pool) : get_result :=
  let queue := ctx.slot ctx.tail
  if !queue.full then .wait ctx
  else .ret ctx (queue.mem_pool + queue.tail)

/-- Function `nine_queue_pop`: `queue->tail += space`, and when
`queue->tail == queue->head` free the segment and advance the consumer cursor. -/
def nine_queue_pop (ctx : nine_queue_pool) (space : Nat) : nine_queue_pool :=
  let queue := ctx.slot ctx.tail
  let queue := { queue with tail := (queue.tail + space) % UINT_RANGE }
  if queue.tail = queue.head then
    let ctx := ctx.store ctx.tail (nine_queue_free queue)
    { ctx with tail := ((ctx.tail + 1) % UINT_RANGE) &&& NINE_QUEUES_MASK }
  else
    ctx.store ctx.tail queue

/-! ## Producer functions -/

/-- Function `nine_queue_submit`: `queue->full = 1` and advance the producer
cursor. -/
def nine_queue_submit (ctx : nine_queue_pool) : nine_queue_pool :=
  let queue := ctx.slot ctx.head
  let ctx := ctx.store ctx.head { queue with full := true }
  { ctx with head := ((ctx.head + 1) % UINT_RANGE) &&& NINE_QUEUES_MASK }

/-- Outcome of `nine_queue_alloc`. -/
inductive alloc_result where
  /-- The call returned `NULL`. -/
  | null (ctx : nine_queue_pool)
  /-- The thread is in the first `while (queue->full)` loop. -/
  | wait_first (ctx : nine_queue_pool)
  /-- The thread is in the second `while (queue->full)` loop, after the
  implicit submit. -/
  | wait_second (ctx : nine_queue_pool)
  /-- The call returned pointer `p`. -/
  | ret (ctx : nine_queue_pool) (p : Nat)
deriving DecidableEq

/-- The end of `nine_queue_alloc`, from `queue = &ctx->pool[ctx->head]` after
the implicit submit: the second wait loop and the return.  A thread parked in
that loop continues from here. -/
def nine_queue_alloc_next (ctx : nine_queue_pool) : alloc_result :=
  let queue := ctx.slot ctx.head
  if queue.full then .wait_second ctx
  else .ret ctx (queue.mem_pool + queue.head)

/-- The body of `nine_queue_alloc` from the first wait loop on (the size test
has passed).  A thread parked in the first loop continues from here. -/
def nine_queue_alloc_wait (ctx : nine_queue_pool) (space : Nat) : alloc_result :=
  let queue := ctx.slot ctx.head
  if queue.full then .wait_first ctx
  else if (queue.head + space) % UINT_RANGE > NINE_QUEUE_SIZE then
    nine_queue_alloc_next (nine_queue_submit ctx)
  else .ret ctx (queue.mem_pool + queue.head)

/-- Function `nine_queue_alloc`: `NULL` on `space > NINE_QUEUE_SIZE`, otherwise the
body that starts at the first wait loop. -/
def nine_queue_alloc (ctx : nine_queue_pool) (space : Nat) : alloc_result :=
  if space > NINE_QUEUE_SIZE then .null ctx
  else nine_queue_alloc_wait ctx space

/-- Function `nine_queue_push`: `queue->head += space`, then submit when `flush`. -/
def nine_queue_push (ctx : nine_queue_pool) (space : Nat) (flush : Bool) :
    nine_queue_pool :=
  let queue := ctx.slot ctx.head
  let ctx := ctx.store ctx.head { queue with head := (queue.head + space) % UINT_RANGE }
  if flush then nine_queue_submit ctx else ctx

/-- The pool built by a successful `nine_queue_create`: `CALLOC_STRUCT` zeroes
the cursors and every segment, then segment `i` gets `mem_pool = MALLOC(...)`;
`malloc i` is the address returned by the `i`-th `MALLOC` call. -/
def fresh_pool (malloc : Nat → Nat) : nine_queue_pool :=
  { pool := (List.range NINE_QUEUES).map fun i => ⟨0, 0, malloc i, false⟩
    head := 0
    tail := 0 }

/-- Function `nine_queue_create`: `calloc_ok` tells whether `CALLOC_STRUCT` succeeded and
`malloc i` is the result of the `i`-th `MALLOC` (`0` for `NULL`); any failure
returns `NULL`. -/
def nine_queue_create (calloc_ok : Bool) (malloc : Nat → Nat) : Option nine_queue_pool :=
  if !calloc_ok then none
  else if (List.range NINE_QUEUES).any (fun i => malloc i == 0) then none
  else some (fresh_pool malloc)

/-- A sample layout of the 32 buffers, used for concrete instances: buffer `i`
starts at `4096 + 4352 * i`. -/
def demo_malloc (i : Nat) : Nat := 4096 + NINE_QUEUE_SIZE * i

/-! ## The caller protocol

The queue is driven by one producer (`nine_queue_alloc`, `nine_queue_push`) and
one consumer (`nine_queue_get`, `nine_queue_pop`).  `sys` pairs the pool with
what each caller is allowed to do next. -/

/-- Where the producer thread stands. -/
inductive prod_state where
  /-- No reservation outstanding. -/
  | idle
  /-- The last `nine_queue_alloc(n)` returned a pointer and has not been
  committed yet. -/
  | reserved (n : Nat)
  /-- Inside `nine_queue_alloc(space)`, in the first wait loop. -/
  | parked_first (space : Nat)
  /-- Inside `nine_queue_alloc(space)`, in the second wait loop. -/
  | parked_second (space : Nat)
deriving DecidableEq

/-- Pool state together with the protocol state of both callers. -/
structure sys where
  ctx : nine_queue_pool
  prod : prod_state
  /-- The last consumer call was a `nine_queue_get` that returned. -/
  acquired : Bool
deriving DecidableEq

/-- One action of a caller. -/
inductive op where
  /-- Producer calls `nine_queue_alloc(space)`. -/
  | alloc (space : Nat)
  /-- Producer, parked in a wait loop of `nine_queue_alloc`, tests the loop
  condition again. -/
  | resume
  /-- Producer calls `nine_queue_push(space, flush)`. -/
  | push (space : Nat) (flush : Bool)
  /-- Consumer calls `nine_queue_get`. -/
  | get
  /-- Consumer calls `nine_queue_pop(space)`. -/
  | pop (space : Nat)
deriving DecidableEq

/-- What the producer thread runs when it is scheduled with request `space`:
the whole call when it is outside `nine_queue_alloc`, the rest of the call when
it is parked in one of the two loops of a call with that same `space`. -/
def sys.alloc (s : sys) (space : Nat) : Option alloc_result :=
  match s.prod with
  | .parked_first sp => if space = sp then some (nine_queue_alloc_wait s.ctx sp) else none
  | .parked_second sp => if space = sp then some (nine_queue_alloc_next s.ctx) else none
  | _ => some (nine_queue_alloc s.ctx space)

/-- Producer state after an outcome of `nine_queue_alloc(space)`. -/
def after_alloc (s : sys) (space : Nat) : alloc_result → sys
  | .null c => { s with ctx := c }
  | .wait_first c => { s with ctx := c, prod := .parked_first space }
  | .wait_second c => { s with ctx := c, prod := .parked_second space }
  | .ret c _ => { s with ctx := c, prod := .reserved space }

/-- One protocol step; `none` when the action breaks the caller protocol:
a push must follow an alloc that returned and commit at most the size reserved,
a pop must follow a get that returned and release at most `head - tail`. -/
def step (s : sys) : op → Option sys
  | .alloc space =>
    match s.prod with
    | .parked_first _ => none
    | .parked_second _ => none
    | _ => (s.alloc space).map (after_alloc s space)
  | .resume =>
    match s.prod with
    | .parked_first sp => (s.alloc sp).map (after_alloc s sp)
    | .parked_second sp => (s.alloc sp).map (after_alloc s sp)
    | _ => none
  | .push space flush =>
    match s.prod with
    | .reserved n =>
      if space ≤ n then
        some { s with ctx := nine_queue_push s.ctx space flush, prod := .idle }
      else none
    | _ => none
  | .get =>
    match nine_queue_get s.ctx with
    | .wait c => some { s with ctx := c }
    | .ret c _ => some { s with ctx := c, acquired := true }
  | .pop space =>
    if s.acquired ∧ space ≤ (s.ctx.slot s.ctx.tail).head - (s.ctx.slot s.ctx.tail).tail then
      some { s with ctx := nine_queue_pop s.ctx space, acquired := false }
    else none

/-- Run a list of actions. -/
def run (s : sys) : List op → Option sys
  | [] => some s
  | o :: os => (step s o).bind fun s1 => run s1 os

/-- System state right after a successful `nine_queue_create`. -/
def init (malloc : Nat → Nat) : sys :=
  { ctx := fresh_pool malloc, prod := .idle, acquired := false }

/-- States reachable from a fresh pool under the caller protocol. -/
def reachable (malloc : Nat → Nat) (s : sys) : Prop :=
  ∃ ops, run (init malloc) ops = some s

/-! ## Recorder and replayer

The queue carries opaque bytes.  Memory is a map from addresses to byte values;
the recorder copies each record to the pointer it was given, the replayer reads
from the pointer it was given. -/

/-- Memory: address to byte value. -/
abbrev heap := Nat → Nat

/-- Copy `bytes` to address `p`. -/
def write_bytes (m : heap) (p : Nat) : List Nat → heap
  | [] => m
  | b :: bs => write_bytes (Function.update m p b) (p + 1) bs

/-- Read `n` bytes at address `p`. -/
def read_bytes (m : heap) (p : Nat) : Nat → List Nat
  | 0 => []
  | n + 1 => m p :: read_bytes m (p + 1) n

/-- The recorder, with no consumer running: for each record
`nine_queue_alloc(len)`, copy the record to the returned pointer,
`nine_queue_push(len, flush)`.  The result is `none` as soon as an alloc does
not return a pointer (it would wait, or the record is oversize). -/
def produce (ctx : nine_queue_pool) (m : heap) :
    List (List Nat × Bool) → Option (nine_queue_pool × heap)
  | [] => some (ctx, m)
  | (bytes, flush) :: rest =>
    match nine_queue_alloc ctx bytes.length with
    | .ret c p => produce (nine_queue_push c bytes.length flush) (write_bytes m p bytes) rest
    | _ => none

/-- The replayer, with no producer running: for each length `nine_queue_get`,
read that many bytes at the returned pointer, `nine_queue_pop(len)`.  The result
is `none` as soon as a get would wait; otherwise the final pool and the records
read, in order. -/
def consume (ctx : nine_queue_pool) (m : heap) :
    List Nat → Option (nine_queue_pool × List (List Nat))
  | [] => some (ctx, [])
  | len :: rest =>
    match nine_queue_get ctx with
    | .wait _ => none
    | .ret c p =>
      match consume (nine_queue_pop c len) m rest with
      | none => none
      | some (c1, out) => some (c1, read_bytes m p len :: out)

/-! ## Invariant of the protocol -/

/-- What holds of segment `i` with contents `q` when the producer cursor is
`cursor`: its buffer is the `i`-th allocation, `tail ≤ head ≤ 4352`, and a
segment that is not marked full has tail 0 and, unless it is the producer's
current segment, head 0. -/
def seg_inv (malloc : Nat → Nat) (cursor i : Nat) (q : nine_queue) : Prop :=
  q.mem_pool = malloc i ∧ q.tail ≤ q.head ∧ q.head ≤ NINE_QUEUE_SIZE ∧
  (q.full = false → q.tail = 0 ∧ (i ≠ cursor → q.head = 0))

/-- What the producer's protocol state says about its current segment. -/
def prod_inv (ctx : nine_queue_pool) : prod_state → Prop
  | .idle => True
  | .reserved n =>
    (ctx.slot ctx.head).full = false ∧ (ctx.slot ctx.head).head + n ≤ NINE_QUEUE_SIZE
  | .parked_first sp =>
    sp ≤ NINE_QUEUE_SIZE ∧ ((ctx.slot ctx.head).full = false → (ctx.slot ctx.head).head = 0)
  | .parked_second sp =>
    sp ≤ NINE_QUEUE_SIZE ∧ ((ctx.slot ctx.head).full = false → (ctx.slot ctx.head).head = 0)

/-- Invariant of the states reachable under the caller protocol. -/
structure inv (malloc : Nat → Nat) (s : sys) : Prop where
  len : s.ctx.pool.length = NINE_QUEUES
  hd : s.ctx.head < NINE_QUEUES
  tl : s.ctx.tail < NINE_QUEUES
  seg : ∀ i, i < NINE_QUEUES → seg_inv malloc s.ctx.head i (s.ctx.slot i)
  prod : prod_inv s.ctx s.prod
  cons : s.acquired = true → (s.ctx.slot s.ctx.tail).full = true

/-- A pool in which all 32 segments have been submitted with 10 bytes each. -/
def demo_full_pool : nine_queue_pool :=
  (List.range NINE_QUEUES).foldl (fun c _ => nine_queue_push c 10 true) (fresh_pool demo_malloc)

/-- The state after `nine_queue_alloc(4000)`, `nine_queue_push(4000, false)` on a
fresh pool: segment 0 is open with 4000 bytes committed. -/
def demo_sys : sys :=
  { ctx := nine_queue_push (fresh_pool demo_malloc) 4000 false, prod := .idle, acquired := false }

/-! ## What the recorder leaves in the pool -/

/-- The 32 buffers returned by `MALLOC` do not overlap. -/
def disjoint_buffers (malloc : Nat → Nat) : Prop :=
  ∀ i j, i < NINE_QUEUES → j < NINE_QUEUES → i ≠ j →
    malloc i + NINE_QUEUE_SIZE ≤ malloc j ∨ malloc j + NINE_QUEUE_SIZE ≤ malloc i

/-- Segment `i` holds the records `part` back to back from the start of its
buffer, none of them released yet. -/
def seg_holds (malloc : Nat → Nat) (ctx : nine_queue_pool) (m : heap) (i : Nat)
    (full : Bool) (part : List (List Nat)) : Prop :=
  ctx.slot i = ⟨part.flatten.length, 0, malloc i, full⟩ ∧
  part.flatten.length ≤ NINE_QUEUE_SIZE ∧
  read_bytes m (malloc i) part.flatten.length = part.flatten

/-- State of pool and memory while only the recorder has run: segments
`0 .. parts.length - 1` were submitted holding the records `parts`, the
producer's current segment holds the records `cur`, later segments are
untouched. -/
structure rec_state (malloc : Nat → Nat) (ctx : nine_queue_pool) (m : heap)
    (parts : List (List (List Nat))) (cur : List (List Nat)) : Prop where
  len : ctx.pool.length = NINE_QUEUES
  tl : ctx.tail = 0
  hk : parts.length ≤ NINE_QUEUES
  hd : ctx.head = parts.length % NINE_QUEUES
  done : ∀ j part, parts[j]? = some part → seg_holds malloc ctx m j true part
  cur_open : parts.length < NINE_QUEUES → seg_holds malloc ctx m parts.length false cur
  rest : ∀ j, parts.length < j → j < NINE_QUEUES → ctx.slot j = ⟨0, 0, malloc j, false⟩
  closed : parts.length = NINE_QUEUES → cur = []

/-- Pool state carried by an outcome of `nine_queue_alloc`. -/
def alloc_result.pool : alloc_result → nine_queue_pool
  | .null c => c
  | .wait_first c => c
  | .wait_second c => c
  | .ret c _ => c

/-- Pool state carried by an outcome of `nine_queue_get`. -/
def get_result.pool : get_result → nine_queue_pool
  | .wait c => c
  | .ret c _ => c

/-! ## Submitted and freed segments along a run -/

/-- Index of the segment that `nine_queue_alloc_wait ctx space` submits: the
producer cursor, when the first wait loop is passed and the room test calls
`nine_queue_submit`; nothing otherwise. -/
def alloc_wait_submits (ctx : nine_queue_pool) (space : Nat) : List Nat :=
  if (ctx.slot ctx.head).full then []
  else if ((ctx.slot ctx.head).head + space) % UINT_RANGE > NINE_QUEUE_SIZE then [ctx.head]
  else []

/-- Index of the segment on which a protocol step runs `nine_queue_submit`
(the producer cursor before the step), if it does. -/
def step_submits (s : sys) : op → List Nat
  | .alloc space =>
    match s.prod with
    | .parked_first _ => []
    | .parked_second _ => []
    | _ => if space > NINE_QUEUE_SIZE then [] else alloc_wait_submits s.ctx space
  | .resume =>
    match s.prod with
    | .parked_first sp => alloc_wait_submits s.ctx sp
    | _ => []
  | .push _ flush => if flush then [s.ctx.head] else []
  | .get => []
  | .pop _ => []

/-- Index of the segment on which a protocol step runs `nine_queue_free`
(the consumer cursor before the step), if it does.  This is the segment the
preceding `nine_queue_get` returned a pointer into. -/
def step_frees (s : sys) : op → List Nat
  | .pop space =>
    if ((s.ctx.slot s.ctx.tail).tail + space) % UINT_RANGE = (s.ctx.slot s.ctx.tail).head then
      [s.ctx.tail]
    else []
  | _ => []

/-- Run a list of actions and log, in order, the segments submitted and the
segments freed. -/
def trace (s : sys) (sub fr : List Nat) : List op → Option (sys × List Nat × List Nat)
  | [] => some (s, sub, fr)
  | o :: os =>
    match step s o with
    | none => none
    | some s1 => trace s1 (sub ++ step_submits s o) (fr ++ step_frees s o) os

/-- Ring shape of the pool after `a` submits and `b` frees: the producer is
`a - b ≤ 32` segments ahead, the cursors are the two counts modulo 32, and the
segments marked full are the `a - b` ones from the consumer cursor on. -/
def ring_inv (ctx : nine_queue_pool) (a b : Nat) : Prop :=
  b ≤ a ∧ a ≤ b + NINE_QUEUES ∧ ctx.head = a % NINE_QUEUES ∧ ctx.tail = b % NINE_QUEUES ∧
  ∀ i, i < NINE_QUEUES →
    ((ctx.slot i).full = true ↔ (i + NINE_QUEUES - b % NINE_QUEUES) % NINE_QUEUES < a - b)

/-- The segment indices `0, 1, ..., 31, 0, ...` in cursor order, `n` of them. -/
def cursor_order (n : Nat) : List Nat :=
  (List.range n).map fun k => k % NINE_QUEUES

/-- Rounds of `nine_queue_alloc(sz)` / `nine_queue_push(sz, true)` with no
consumer running; `none` as soon as an alloc does not return a pointer. -/
def flush_rounds (ctx : nine_queue_pool) : List Nat → Option nine_queue_pool
  | [] => some ctx
  | sz :: rest =>
    match nine_queue_alloc ctx sz with
    | .ret c _ => flush_rounds (nine_queue_push c sz true) rest
    | _ => none

/-- Successive calls `nine_queue_pop(n)` for the sizes of a list. -/
def pops (ctx : nine_queue_pool) : List Nat → nine_queue_pool
  | [] => ctx
  | n :: ns => pops (nine_queue_pop ctx n) ns

/-- Size argument of the `i`-th `MALLOC` call of `nine_queue_create`:
`MALLOC(NINE_QUEUE_SIZE)`. -/
def malloc_request (_i : Nat) : Nat := NINE_QUEUE_SIZE

/-- The state after submitting 10 bytes in segment 0, releasing them, and
submitting 5 bytes in segment 1. -/
def demo_two_submits : sys :=
  { ctx := nine_queue_push (nine_queue_pop (nine_queue_push (fresh_pool demo_malloc) 10 true) 10)
      5 true,
    prod := .idle, acquired := false }

/-- The protocol actions of rounds `nine_queue_alloc(sz)` /
`nine_queue_push(sz, true)`. -/
def rounds_ops : List Nat → List op
  | [] => []
  | sz :: rest => .alloc sz :: .push sz true :: rounds_ops rest

/-- The pool after flushed rounds of the sizes `done` with no consumer running:
segment `i` was submitted holding `done[i]` bytes, the others are untouched. -/
def flushed (malloc : Nat → Nat) (ctx : nine_queue_pool) (done : List Nat) : Prop :=
  ctx.pool.length = NINE_QUEUES ∧ ctx.tail = 0 ∧ ctx.head = done.length % NINE_QUEUES ∧
  (∀ i sz, done[i]? = some sz → ctx.slot i = ⟨sz, 0, malloc i, true⟩) ∧
  (∀ i, done.length ≤ i → i < NINE_QUEUES → ctx.slot i = ⟨0, 0, malloc i, false⟩)

/-- The cursor update `(cursor + 1) & NINE_QUEUES_MASK` of `nine_queue_submit`
and `nine_queue_pop`, on the C type `unsigned`. -/
def cursor_step (c : Nat) : Nat :=
  ((c + 1) % UINT_RANGE) &&& NINE_QUEUES_MASK

end NineQueue

namespace LowerLocalsToRegs

/-! ## Variable dereference chains (`nir_lower_locals_to_regs.c`)

The declarations of `nir.h` are modelled by the fields this file reads.
Pointers to variables, GLSL types and sources are addresses (`Nat`). -/

/-- Number of values of the C types `uint32_t` and `unsigned`. -/
def UINT32_RANGE : Nat := 2 ^ 32

/-- The enumeration `nir_deref_type`. -/
inductive nir_deref_type where
  | nir_deref_type_var
  | nir_deref_type_array
  | nir_deref_type_struct
deriving DecidableEq

/-- The enumeration `nir_deref_array_type`. -/
inductive nir_deref_array_type where
  | nir_deref_array_type_direct
  | nir_deref_array_type_indirect
  | nir_deref_array_type_wildcard
deriving DecidableEq

/-- One link of a dereference chain without its `child` pointer: a
`nir_deref_var` (field `var`), a `nir_deref_array` (fields `deref_array_type`,
`base_offset`, `indirect`) or a `nir_deref_struct` (field `index`), each with the
field `type` of its embedded `nir_deref`. -/
inductive deref_node where
  | nir_deref_var (type : Nat) (var : Nat)
  | nir_deref_array (type : Nat) (deref_array_type : nir_deref_array_type)
      (base_offset : Nat) (indirect : Nat)
  | nir_deref_struct (type : Nat) (index : Nat)
deriving DecidableEq

/-- Field `deref_type` of a link. -/
def deref_node.deref_type : deref_node → nir_deref_type
  | .nir_deref_var .. => .nir_deref_type_var
  | .nir_deref_array .. => .nir_deref_type_array
  | .nir_deref_struct .. => .nir_deref_type_struct

/-- Field `type` of a link. -/
def deref_node.type : deref_node → Nat
  | .nir_deref_var t _ => t
  | .nir_deref_array t _ _ _ => t
  | .nir_deref_struct t _ => t

/-- A non-null `nir_deref *`: a link whose `child` is `NULL` (`last`) or points
to the rest of the chain (`link`). -/
inductive nir_deref where
  | last (node : deref_node)
  | link (node : deref_node) (child : nir_deref)
deriving DecidableEq

/-- The link a `nir_deref *` points to. -/
def nir_deref.node : nir_deref → deref_node
  | .last n => n
  | .link n _ => n

/-- Number of links of a chain. -/
def nir_deref.length : nir_deref → Nat
  | .last _ => 1
  | .link _ child => child.length + 1

/-- The end of `hash_deref`, from the `switch` on: mix the link into `hash` and
multiply by the FNV prime, in `uint32_t`.  `_mesa_hash_pointer` is the pointer
hash of the hash-table library. -/
def hash_deref_node (_mesa_hash_pointer : Nat → Nat) (hash : Nat) : deref_node → Nat
  | .nir_deref_var _ var =>
    (((hash ^^^ _mesa_hash_pointer var) % UINT32_RANGE) * 0x01000193) % UINT32_RANGE
  | .nir_deref_array .. =>
    (((hash ^^^ 268435183) % UINT32_RANGE) * 0x01000193) % UINT32_RANGE
  | .nir_deref_struct _ index =>
    (((hash ^^^ index) % UINT32_RANGE) * 0x01000193) % UINT32_RANGE

/-- Function `hash_deref`: the hash of the child, or the FNV offset basis
`2166136261` when there is none, mixed with this link. -/
def hash_deref (_mesa_hash_pointer : Nat → Nat) : nir_deref → Nat
  | .last n => hash_deref_node _mesa_hash_pointer 2166136261 n
  | .link n child =>
    hash_deref_node _mesa_hash_pointer (hash_deref _mesa_hash_pointer child) n

/-- The start of `derefs_equal`, up to the assertion: `false` when the two links
have different `deref_type`, different variables, or different field indices;
`true` when the function goes on to the children. -/
def derefs_equal_node (a b : deref_node) : Bool :=
  if a.deref_type ≠ b.deref_type then false
  else
    match a, b with
    | .nir_deref_var _ va, .nir_deref_var _ vb => if va ≠ vb then false else true
    | .nir_deref_struct _ ia, .nir_deref_struct _ ib => if ia ≠ ib then false else true
    | _, _ => true

/-- Function `derefs_equal`.  The result is `none` when
`assert((a->child == NULL) == (b->child == NULL))` fails. -/
def derefs_equal : nir_deref → nir_deref → Option Bool
  | .last a, .last b => if derefs_equal_node a b then some true else some false
  | .last a, .link b _ => if derefs_equal_node a b then none else some false
  | .link a _, .last b => if derefs_equal_node a b then none else some false
  | .link a ca, .link b cb =>
    if derefs_equal_node a b then derefs_equal ca cb else some false

/-- What the hash and the equality read of a link: the variable of a
`nir_deref_var`, the field index of a `nir_deref_struct`, and of a
`nir_deref_array` only that it is one. -/
inductive deref_key where
  | var (var : Nat)
  | array
  | field (index : Nat)
deriving DecidableEq

/-- Key of one link. -/
def deref_node.key : deref_node → deref_key
  | .nir_deref_var _ var => .var var
  | .nir_deref_array .. => .array
  | .nir_deref_struct _ index => .field index

/-- Keys of the links of a chain, root first. -/
def nir_deref.keys : nir_deref → List deref_key
  | .last n => [n.key]
  | .link n child => n.key :: child.keys

/-- A chain `v[3].f1` with a direct array index. -/
def demo_direct : nir_deref :=
  .link (.nir_deref_var 100 7)
    (.link (.nir_deref_array 101 .nir_deref_array_type_direct 3 0)
      (.last (.nir_deref_struct 102 1)))

/-- The chain `v[7 + i].f1` on the same variable, with an indirect array index. -/
def demo_indirect : nir_deref :=
  .link (.nir_deref_var 100 7)
    (.link (.nir_deref_array 101 .nir_deref_array_type_indirect 7 9)
      (.last (.nir_deref_struct 102 1)))

/-- A sample pointer hash. -/
def demo_hash_pointer (p : Nat) : Nat := (p * 2654435761) % UINT32_RANGE

/-! ## Registers for local variables -/

/-- The functions of the GLSL type interface that the pass calls, on type
pointers. -/
structure glsl_types where
  glsl_type_is_matrix : Nat → Bool
  glsl_get_matrix_columns : Nat → Nat
  glsl_get_length : Nat → Nat
  glsl_type_is_vector : Nat → Bool
  glsl_type_is_scalar : Nat → Bool
  glsl_get_vector_elements : Nat → Nat

/-- The fields of `nir_register` that `get_reg_for_deref` sets. -/
structure nir_register where
  num_components : Nat
  num_array_elems : Nat
deriving DecidableEq

/-- One entry of `regs_table`: the hash, the key and the register. -/
structure hash_entry where
  hash : Nat
  key : nir_deref
  data : nir_register
deriving DecidableEq

/-- The state `struct locals_to_regs_state`: the table that maps derefs to
registers, as the list of its entries. -/
structure locals_to_regs_state where
  regs_table : List hash_entry
deriving DecidableEq

/-- The loop of `get_reg_for_deref` that computes `array_size`, an `unsigned`:
for every link whose child is an array deref, multiply by the matrix columns or
the length of the link's type.  The result is the size and the last link of the
chain, or `none` when `assert(glsl_get_length(tail->type) > 0)` fails. -/
def get_reg_for_deref_array_size (G : glsl_types) :
    nir_deref → Nat → Option (Nat × deref_node)
  | .last n, array_size => some (array_size, n)
  | .link n child, array_size =>
    if child.node.deref_type = .nir_deref_type_array then
      if G.glsl_type_is_matrix n.type then
        get_reg_for_deref_array_size G child
          ((array_size * G.glsl_get_matrix_columns n.type) % UINT32_RANGE)
      else if G.glsl_get_length n.type > 0 then
        get_reg_for_deref_array_size G child
          ((array_size * G.glsl_get_length n.type) % UINT32_RANGE)
      else none
    else get_reg_for_deref_array_size G child array_size

/-- Function `get_reg_for_deref`.  `search` is `_mesa_hash_table_search_pre_hashed`
of the hash-table library, giving the data of the entry found.  On a miss the
register is created with `num_components` from the last link's type and
`num_array_elems = array_size > 1 ? array_size : 0`, and inserted in the table.
The result is `none` when an assertion fails. -/
def get_reg_for_deref (G : glsl_types) (_mesa_hash_pointer : Nat → Nat)
    (search : List hash_entry → Nat → nir_deref → Option nir_register)
    (deref : nir_deref) (state : locals_to_regs_state) :
    Option (nir_register × locals_to_regs_state) :=
  let hash := hash_deref _mesa_hash_pointer deref
  match search state.regs_table hash deref with
  | some data => some (data, state)
  | none =>
    match get_reg_for_deref_array_size G deref 1 with
    | none => none
    | some (array_size, tail) =>
      if G.glsl_type_is_vector tail.type || G.glsl_type_is_scalar tail.type then
        let reg : nir_register :=
          { num_components := G.glsl_get_vector_elements tail.type
            num_array_elems := if array_size > 1 then array_size else 0 }
        some (reg, { state with regs_table := ⟨hash, deref, reg⟩ :: state.regs_table })
      else none

/-- Value of the indirect source built by `get_deref_reg_src`: a copy of the
`indirect` source of an array deref, or the result of the `imul` by a constant
or of the `iadd` that the function inserts before the instruction. -/
inductive indirect_src where
  | copy (indirect : Nat)
  | imul (src0 : indirect_src) (load_const : Nat)
  | iadd (src0 : indirect_src) (indirect : Nat)
deriving DecidableEq

/-- The register source `src.reg` of a `nir_src` with `is_ssa = false`. -/
structure nir_reg_src where
  reg : nir_register
  base_offset : Nat
  indirect : Option indirect_src
deriving DecidableEq

/-- The loop of `get_deref_reg_src` over the links below `tail`: at every array
deref `base_offset = base_offset * length(parent type) + deref->base_offset` in
`unsigned`, a running indirect source is multiplied by the length, and an
indirect deref sets or adds its source. -/
def get_deref_reg_src_walk (G : glsl_types) :
    nir_deref → Nat → Option indirect_src → Nat × Option indirect_src
  | .last _, base_offset, indirect => (base_offset, indirect)
  | .link n child, base_offset, indirect =>
    match child.node with
    | .nir_deref_array _ deref_array_type deref_base_offset deref_indirect =>
      let base_offset := (base_offset * G.glsl_get_length n.type) % UINT32_RANGE
      let base_offset := (base_offset + deref_base_offset) % UINT32_RANGE
      let indirect := indirect.map fun src =>
        indirect_src.imul src (G.glsl_get_length n.type % UINT32_RANGE)
      let indirect :=
        if deref_array_type = .nir_deref_array_type_indirect then
          match indirect with
          | none => some (.copy deref_indirect)
          | some src => some (.iadd src deref_indirect)
        else indirect
      get_deref_reg_src_walk G child base_offset indirect
    | _ => get_deref_reg_src_walk G child base_offset indirect

/-- Function `get_deref_reg_src`: the register of the chain with the flattened
offset and the indirect source. -/
def get_deref_reg_src (G : glsl_types) (_mesa_hash_pointer : Nat → Nat)
    (search : List hash_entry → Nat → nir_deref → Option nir_register)
    (deref : nir_deref) (state : locals_to_regs_state) :
    Option (nir_reg_src × locals_to_regs_state) :=
  match get_reg_for_deref G _mesa_hash_pointer search deref state with
  | none => none
  | some (reg, state) =>
    let walk := get_deref_reg_src_walk G deref 0 none
    some ({ reg := reg, base_offset := walk.1, indirect := walk.2 }, state)

/-- Lengths of the types indexed by the array derefs of a chain, outermost
first. -/
def nir_deref.dims (G : glsl_types) : nir_deref → List Nat
  | .last _ => []
  | .link n child =>
    if child.node.deref_type = .nir_deref_type_array then
      G.glsl_get_length n.type :: child.dims G
    else child.dims G

/-- The `base_offset` fields of the array derefs of a chain, outermost first. -/
def nir_deref.indices : nir_deref → List Nat
  | .last _ => []
  | .link _ child =>
    match child.node with
    | .nir_deref_array _ _ base_offset _ => base_offset :: child.indices
    | _ => child.indices

/-- Whether every array deref of the chain is direct and indexes a type that is
not a matrix. -/
def nir_deref.direct_arrays (G : glsl_types) : nir_deref → Bool
  | .last _ => true
  | .link n child =>
    (match child.node with
      | .nir_deref_array _ deref_array_type _ _ =>
        decide (deref_array_type = .nir_deref_array_type_direct) &&
          !G.glsl_type_is_matrix n.type
      | _ => true) && child.direct_arrays G

/-- Whether an index tuple is inside the dimensions `ds`: as many entries, each
index below its dimension. -/
def in_bounds : List Nat → List Nat → Bool
  | [], [] => true
  | i :: rest, d :: ds => decide (i < d) && in_bounds rest ds
  | _, _ => false

/-- The last link of a chain. -/
def nir_deref.tail : nir_deref → deref_node
  | .last n => n
  | .link _ child => child.tail

/-- Row-major position of an index tuple in an array of dimensions `ds`, from
the running offset `off`, over the integers. -/
def flat_offset (off : Nat) : List Nat → List Nat → Nat
  | i :: rest, d :: ds => flat_offset (off * d + i) rest ds
  | _, _ => off

/-- Sample type interface: type 203 has length 2, every other type length 65536;
no type is a matrix, every type counts as a scalar. -/
def demo_glsl : glsl_types :=
  { glsl_type_is_matrix := fun _ => false
    glsl_get_matrix_columns := fun _ => 0
    glsl_get_length := fun t => if t = 203 then 2 else 65536
    glsl_type_is_vector := fun _ => false
    glsl_type_is_scalar := fun _ => true
    glsl_get_vector_elements := fun _ => 1 }

/-- Sample table search on an empty table: nothing is found. -/
def demo_search (_table : List hash_entry) (_hash : Nat) (_key : nir_deref) :
    Option nir_register := none

/-- The chain `v[i][j]` with direct indices, `v` of a type of length 65536
whose elements have length 65536. -/
def demo_square (i j : Nat) : nir_deref :=
  .link (.nir_deref_var 201 7)
    (.link (.nir_deref_array 202 .nir_deref_array_type_direct i 0)
      (.last (.nir_deref_array 204 .nir_deref_array_type_direct j 0)))

/-- The chain `w[i][j][k]` with direct indices, of dimensions 65536, 65536, 2. -/
def demo_cube (i j k : Nat) : nir_deref :=
  .link (.nir_deref_var 201 8)
    (.link (.nir_deref_array 202 .nir_deref_array_type_direct i 0)
      (.link (.nir_deref_array 203 .nir_deref_array_type_direct j 0)
        (.last (.nir_deref_array 204 .nir_deref_array_type_direct k 0))))

/-- Sample type interface of a local `float a[4][3]`: type 301 has length 4,
type 302 length 3. -/
def demo_small_glsl : glsl_types :=
  { glsl_type_is_matrix := fun _ => false
    glsl_get_matrix_columns := fun _ => 0
    glsl_get_length := fun t => if t = 301 then 4 else if t = 302 then 3 else 0
    glsl_type_is_vector := fun _ => false
    glsl_type_is_scalar := fun t => t == 303
    glsl_get_vector_elements := fun _ => 1 }

/-- The chain `a[i][j]` on `float a[4][3]`. -/
def demo_small (i j : Nat) : nir_deref :=
  .link (.nir_deref_var 301 9)
    (.link (.nir_deref_array 302 .nir_deref_array_type_direct i 0)
      (.last (.nir_deref_array 303 .nir_deref_array_type_direct j 0)))

end LowerLocalsToRegs

namespace SwapChain9

/-! ## The swap chain (`swapchain9.c`)

Values of type `HRESULT`, `UINT` and the enumerations are 32-bit patterns
(`Nat`).  Objects of other modules are addresses (`Nat`).  An array allocated
with `n` entries is a list of length `n`; a read or write past its end, or
through a `NULL` pointer, is undefined behaviour and makes the outcome `none`. -/

/-- Number of values of `UINT`. -/
def UINT_VALUES : Nat := 2 ^ 32

/-- Value of `D3D_OK` in the Direct3D 9 headers. -/
def D3D_OK : Nat := 0

/-- Value of `E_POINTER` in the Windows headers. -/
def E_POINTER : Nat := 0x80004003

/-- Value of `E_OUTOFMEMORY` in the Windows headers. -/
def E_OUTOFMEMORY : Nat := 0x8007000E

/-- Value of `D3DERR_INVALIDCALL` in the Direct3D 9 headers, `MAKE_D3DHRESULT(2156)`. -/
def D3DERR_INVALIDCALL : Nat := 0x8876086C

/-- Value of `D3DERR_OUTOFVIDEOMEMORY` in the Direct3D 9 headers, `MAKE_D3DHRESULT(380)`. -/
def D3DERR_OUTOFVIDEOMEMORY : Nat := 0x8876017C

/-- Value of `D3DERR_WASSTILLDRAWING` in the Direct3D 9 headers, `MAKE_D3DHRESULT(540)`. -/
def D3DERR_WASSTILLDRAWING : Nat := 0x8876021C

/-- The macro `FAILED(hr)`: the `HRESULT` is negative, its sign bit is set. -/
def FAILED (hr : Nat) : Bool := decide (hr % UINT_VALUES ≥ 0x80000000)

/-- Value of `D3DSWAPEFFECT_DISCARD` in the enumeration `D3DSWAPEFFECT`. -/
def D3DSWAPEFFECT_DISCARD : Nat := 1

/-- Value of `D3DSWAPEFFECT_FLIP`. -/
def D3DSWAPEFFECT_FLIP : Nat := 2

/-- Value of `D3DSWAPEFFECT_COPY`. -/
def D3DSWAPEFFECT_COPY : Nat := 3

/-- Value of `D3DFMT_UNKNOWN` in the enumeration `D3DFORMAT`. -/
def D3DFMT_UNKNOWN : Nat := 0

/-- The fields of `D3DPRESENT_PARAMETERS` that `NineSwapChain9_Resize` reads or
writes. -/
structure D3DPRESENT_PARAMETERS where
  BackBufferWidth : Nat
  BackBufferHeight : Nat
  BackBufferFormat : Nat
  BackBufferCount : Nat
  SwapEffect : Nat
  Windowed : Bool
  EnableAutoDepthStencil : Bool
  AutoDepthStencilFormat : Nat
deriving DecidableEq

/-- A surface object, `struct NineSurface9`: its address, the resource it
wraps (`base.resource`) and its reference count. -/
structure NineSurface9 where
  self : Nat
  resource : Nat
  refs : Nat
deriving DecidableEq

/-- The fields of `struct NineSwapChain9` used by the functions below:
`buffers` and `present_handles` are the two allocated arrays,
`present_buffers` tells whether that pointer is not `NULL`, and
`linear_framebuffer` is `actx->linear_framebuffer`.  The entries of
`present_buffers` are left out; an access through that pointer while it is
`NULL` is undefined behaviour like any other. -/
structure NineSwapChain9 where
  params : D3DPRESENT_PARAMETERS
  buffers : List (Option NineSurface9)
  present_handles : List (Option Nat)
  present_buffers : Bool
  zsbuf : Option NineSurface9
  rendering_done : Bool
  linear_framebuffer : Bool
deriving DecidableEq

/-- What the calls of `NineSwapChain9_Resize` into other modules answer:
the window size (`none` when `ID3DPresent_GetWindowSize` fails), the pipe
formats, whether `REALLOC` of `buffers` succeeds, and for back buffer `i` the
resource created (`none` for `NULL`), the `HRESULT` and object of
`NineSurface9_new`, the resource of the present buffer and the handle that
`ID3DPresent_NewBuffer` stores; the same for the depth buffer. -/
structure resize_calls where
  GetWindowSize : Option (Nat × Nat)
  d3d9_to_pipe_format : Nat → Nat
  PIPE_FORMAT_B8G8R8X8_UNORM : Nat
  PIPE_FORMAT_B8G8R8A8_UNORM : Nat
  REALLOC_buffers : Bool
  resource_create : Nat → Option Nat
  NineSurface9_new : Nat → Nat → Nat × NineSurface9
  present_resource_create : Nat → Option Nat
  NewBuffer : Nat → Option Nat
  zs_resource_create : Option Nat
  zs_NineSurface9_new : Nat → Nat × NineSurface9

/-- Write of `a[i]`. -/
def array_set {α : Type} (a : List α) (i : Nat) (v : α) : Option (List α) :=
  if i < a.length then some (a.set i v) else none

/-- The block returned by `REALLOC(a, old, n * sizeof(a[0]))`: `n` entries, the
first ones copied from `a`, the others `NULL`. -/
def REALLOC {α : Type} (a : List (Option α)) (n : Nat) : List (Option α) :=
  a.take n ++ List.replicate (n - a.length) none

/-- Function `NineSurface9_SetResourceResize`: the surface wraps the new resource. -/
def NineSurface9_SetResourceResize (This : NineSurface9) (resource : Nat) : NineSurface9 :=
  { This with resource := resource }

/-- The defaults `NineSwapChain9_Resize` writes into `*pParams` first: an
unknown format is replaced by the current one and a back buffer count of 0
by 1. -/
def resize_defaults (This : NineSwapChain9) (pParams : D3DPRESENT_PARAMETERS) :
    D3DPRESENT_PARAMETERS :=
  let p := if pParams.BackBufferFormat = D3DFMT_UNKNOWN then
      { pParams with BackBufferFormat := This.params.BackBufferFormat } else pParams
  let p := if p.EnableAutoDepthStencil ∧ This.params.EnableAutoDepthStencil ∧
        p.AutoDepthStencilFormat = D3DFMT_UNKNOWN then
      { p with AutoDepthStencilFormat := This.params.AutoDepthStencilFormat } else p
  if p.BackBufferCount = 0 then { p with BackBufferCount := 1 } else p

/-- The value `oldBufferCount` of `NineSwapChain9_Resize`. -/
def oldBufferCount (This : NineSwapChain9) : Nat :=
  if This.params.BackBufferCount ≠ 0 then
    (This.params.BackBufferCount +
      (if This.params.SwapEffect ≠ D3DSWAPEFFECT_COPY then 1 else 0)) % UINT_VALUES
  else 0

/-- The value `newBufferCount` of `NineSwapChain9_Resize`:
`pParams->BackBufferCount + (This->params.SwapEffect != D3DSWAPEFFECT_COPY)`. -/
def newBufferCount (This : NineSwapChain9) (pParams : D3DPRESENT_PARAMETERS) : Nat :=
  (pParams.BackBufferCount +
    (if This.params.SwapEffect ≠ D3DSWAPEFFECT_COPY then 1 else 0)) % UINT_VALUES

/-- The value `has_present_buffers` of `NineSwapChain9_Resize`. -/
def has_present_buffers (E : resize_calls) (This : NineSwapChain9)
    (pParams : D3DPRESENT_PARAMETERS) : Bool :=
  This.linear_framebuffer ||
  (E.d3d9_to_pipe_format pParams.BackBufferFormat != E.PIPE_FORMAT_B8G8R8X8_UNORM &&
    E.d3d9_to_pipe_format pParams.BackBufferFormat != E.PIPE_FORMAT_B8G8R8A8_UNORM) ||
  pParams.SwapEffect != D3DSWAPEFFECT_DISCARD

/-- The first loop of `NineSwapChain9_Resize`, from index `i` for `n` more
rounds: destroy the window buffer `present_handles[i]` and clear the entry. -/
def resize_destroy (handles : List (Option Nat)) (i : Nat) : Nat → Option (List (Option Nat))
  | 0 => some handles
  | n + 1 =>
    match array_set handles i none with
    | none => none
    | some handles => resize_destroy handles (i + 1) n

/-- The loop `for (i = newBufferCount; i < oldBufferCount; ++i)` that detaches
the surfaces dropped by the resize: it reads `buffers[i]`. -/
def resize_detach (buffers : List (Option NineSurface9)) (i : Nat) : Nat → Option Unit
  | 0 => some ()
  | n + 1 =>
    match buffers[i]? with
    | none => none
    | some _ => resize_detach buffers (i + 1) n

/-- The loop `for (i = oldBufferCount; i < newBufferCount; ++i)` that clears
the new entries of both arrays. -/
def resize_clear (This : NineSwapChain9) (i : Nat) : Nat → Option NineSwapChain9
  | 0 => some This
  | n + 1 =>
    match array_set This.buffers i none, array_set This.present_handles i none with
    | some buffers, some handles =>
      resize_clear { This with buffers := buffers, present_handles := handles } (i + 1) n
    | _, _ => none

/-- The loop `for (i = 0; i < newBufferCount; ++i)` of `NineSwapChain9_Resize`,
from index `i` for `n` more rounds.  The outcome is the swap chain and, when
the function returns from inside the loop, the `HRESULT` returned.  With
`has_present_buffers` set the round stores the present resource through
`present_buffers`, which must not be `NULL`, and reads `resource->width0` of
that resource, which must not be `NULL` either. -/
def resize_create (E : resize_calls) (hpb : Bool) (This : NineSwapChain9) (i : Nat) :
    Nat → Option (NineSwapChain9 × Option Nat)
  | 0 => some (This, none)
  | n + 1 =>
    match E.resource_create i with
    | none => some (This, some D3DERR_OUTOFVIDEOMEMORY)
    | some resource =>
      match This.buffers[i]? with
      | none => none
      | some entry =>
        let made : Option NineSurface9 :=
          match entry with
          | some surface => some (NineSurface9_SetResourceResize surface resource)
          | none =>
            if FAILED (E.NineSurface9_new i resource).1 then none
            else some (E.NineSurface9_new i resource).2
        match made with
        | none => some (This, some (E.NineSurface9_new i resource).1)
        | some surface =>
          let This := { This with buffers := This.buffers.set i (some surface) }
          if hpb ∧ (This.present_buffers = false ∨ E.present_resource_create i = none) then none
          else
            match array_set This.present_handles i (E.NewBuffer i) with
            | none => none
            | some handles =>
              resize_create E hpb { This with present_handles := handles } (i + 1) n

/-- The end of `NineSwapChain9_Resize`: the depth buffer, when
`EnableAutoDepthStencil` is set. -/
def resize_depth (E : resize_calls) (This : NineSwapChain9)
    (pParams : D3DPRESENT_PARAMETERS) : NineSwapChain9 × Option Nat :=
  if pParams.EnableAutoDepthStencil then
    match E.zs_resource_create with
    | none => (This, some D3DERR_OUTOFVIDEOMEMORY)
    | some resource =>
      match This.zsbuf with
      | some zsbuf =>
        ({ This with zsbuf := some (NineSurface9_SetResourceResize zsbuf resource) }, none)
      | none =>
        if FAILED (E.zs_NineSurface9_new resource).1 then
          (This, some (E.zs_NineSurface9_new resource).1)
        else ({ This with zsbuf := some (E.zs_NineSurface9_new resource).2 }, none)
  else (This, none)

/-- The part of `NineSwapChain9_Resize` that reallocates the two arrays when
`newBufferCount != oldBufferCount`.  The outcome carries `E_OUTOFMEMORY` when
`REALLOC` of `buffers` fails. -/
def resize_realloc (E : resize_calls) (hpb : Bool) (This : NineSwapChain9)
    (old new : Nat) : Option (NineSwapChain9 × Option Nat) :=
  if new ≠ old then
    match resize_detach This.buffers new (old - new) with
    | none => none
    | some _ =>
      if !E.REALLOC_buffers then some (This, some E_OUTOFMEMORY)
      else
        let This := { This with
          buffers := REALLOC This.buffers new
          present_buffers := if hpb then true else This.present_buffers
          present_handles := REALLOC This.present_handles new }
        match resize_clear This old (new - old) with
        | none => none
        | some This => some (This, none)
  else some (This, none)

/-- Function `NineSwapChain9_Resize`, with `E` the answers of the other modules.
The outcome is the `HRESULT`, the swap chain and `*pParams` after the call. -/
def NineSwapChain9_Resize (E : resize_calls) (This : NineSwapChain9)
    (pParams : Option D3DPRESENT_PARAMETERS) :
    Option (Nat × NineSwapChain9 × Option D3DPRESENT_PARAMETERS) :=
  match pParams with
  | none => some (E_POINTER, This, none)
  | some pParams =>
    let pParams := resize_defaults This pParams
    let old := oldBufferCount This
    let new := newBufferCount This pParams
    if (pParams.BackBufferWidth = 0 ∨ pParams.BackBufferHeight = 0) ∧ !pParams.Windowed then
      some (D3DERR_INVALIDCALL, This, some pParams)
    else
      let size := match E.GetWindowSize with
        | some size => size
        | none => (This.params.BackBufferWidth, This.params.BackBufferHeight)
      let pParams :=
        if pParams.BackBufferWidth = 0 ∨ pParams.BackBufferHeight = 0 then
          { pParams with
            BackBufferWidth :=
              if pParams.BackBufferWidth = 0 then size.1 else pParams.BackBufferWidth
            BackBufferHeight :=
              if pParams.BackBufferHeight = 0 then size.2 else pParams.BackBufferHeight }
        else pParams
      let hpb := has_present_buffers E This pParams
      match resize_destroy This.present_handles 0 old with
      | none => none
      | some handles =>
        let This := { This with
          present_handles := handles
          present_buffers := if !hpb then false else This.present_buffers }
        match resize_realloc E hpb This old new with
        | none => none
        | some (This, some hr) => some (hr, This, some pParams)
        | some (This, none) =>
          match resize_create E hpb This 0 new with
          | none => none
          | some (This, some hr) => some (hr, This, some pParams)
          | some (This, none) =>
            match resize_depth E This pParams with
            | (This, some hr) => some (hr, This, some pParams)
            | (This, none) => some (D3D_OK, { This with params := pParams }, some pParams)

/-- The swap chain object before its constructor runs: the allocation is
zeroed, `actx` is set by the constructor. -/
def zeroed (linear_framebuffer : Bool) : NineSwapChain9 :=
  { params := ⟨0, 0, 0, 0, 0, false, false, 0⟩
    buffers := []
    present_handles := []
    present_buffers := false
    zsbuf := none
    rendering_done := false
    linear_framebuffer := linear_framebuffer }

/-- Function `NineSwapChain9_ctor`, after `NineUnknown_ctor` succeeded:
`params` is what `ID3DPresent_GetPresentParameters` stored (`none` when it
failed, with its `HRESULT`), then `rendering_done = FALSE` and the first
`NineSwapChain9_Resize`. -/
def NineSwapChain9_ctor (E : resize_calls) (This : NineSwapChain9)
    (GetPresentParameters : Nat × D3DPRESENT_PARAMETERS) :
    Option (Nat × NineSwapChain9) :=
  if FAILED GetPresentParameters.1 then some (GetPresentParameters.1, This)
  else
    match NineSwapChain9_Resize E { This with rendering_done := false }
        (some GetPresentParameters.2) with
    | none => none
    | some (hr, This, _) => some (hr, This)

/-- Function `present`: render unless `rendering_done`, then hand
`present_handles[0]` to `ID3DPresent_PresentBuffer`, whose `HRESULT` is
`PresentBuffer`. -/
def present (This : NineSwapChain9) (PresentBuffer : Nat) : Option (Nat × NineSwapChain9) :=
  let rendered : Option NineSwapChain9 :=
    if This.rendering_done then some This
    else
      match This.buffers[0]? with
      | some (some _) => some { This with rendering_done := true }
      | _ => none
  match rendered with
  | none => none
  | some This =>
    match This.present_handles[0]? with
    | none => none
    | some _ =>
      if FAILED PresentBuffer then some (PresentBuffer, This)
      else some (D3D_OK, { This with rendering_done := false })

/-- The loop `for (i = 1; i <= BackBufferCount; i++)` of `NineSwapChain9_Present`
over `present_handles`, from index `i` for `n` more rounds:
`present_handles[i-1] = present_handles[i]`. -/
def rotate_handles (handles : List (Option Nat)) (i : Nat) : Nat → Option (List (Option Nat))
  | 0 => some handles
  | n + 1 =>
    match handles[i]? with
    | none => none
    | some h =>
      match array_set handles (i - 1) h with
      | none => none
      | some handles => rotate_handles handles (i + 1) n

/-- The loop `for (i = 1; i <= BackBufferCount; i++)` of `NineSwapChain9_Present`
over `buffers`, from index `i` for `n` more rounds:
`NineSurface9_SetResourceResize(buffers[i - 1], buffers[i]->base.resource)`. -/
def rotate_buffers (buffers : List (Option NineSurface9)) (i : Nat) :
    Nat → Option (List (Option NineSurface9))
  | 0 => some buffers
  | n + 1 =>
    match buffers[i]?, buffers[i - 1]? with
    | some (some src), some (some dst) =>
      rotate_buffers
        (buffers.set (i - 1) (some (NineSurface9_SetResourceResize dst src.resource)))
        (i + 1) n
    | _, _ => none

/-- The case `D3DSWAPEFFECT_DISCARD` / `D3DSWAPEFFECT_FLIP` of
`NineSwapChain9_Present`: rotate the resources of `buffers` and the entries of
`present_handles` over the indices `0 .. BackBufferCount`. -/
def rotate_queue (This : NineSwapChain9) : Option NineSwapChain9 :=
  match This.buffers[0]? with
  | some (some first) =>
    match rotate_buffers This.buffers 1 This.params.BackBufferCount with
    | none => none
    | some buffers =>
      match buffers[This.params.BackBufferCount]? with
      | some (some last) =>
        let buffers := buffers.set This.params.BackBufferCount
          (some (NineSurface9_SetResourceResize last first.resource))
        match This.present_handles[0]? with
        | none => none
        | some handle_temp =>
          match rotate_handles This.present_handles 1 This.params.BackBufferCount with
          | none => none
          | some handles =>
            match array_set handles This.params.BackBufferCount handle_temp with
            | none => none
            | some handles => some { This with buffers := buffers, present_handles := handles }
      | _ => none
  | _ => none

/-- Function `NineSwapChain9_Present`, with `PresentBuffer` the `HRESULT` of
`ID3DPresent_PresentBuffer`. -/
def NineSwapChain9_Present (This : NineSwapChain9) (PresentBuffer : Nat) :
    Option (Nat × NineSwapChain9) :=
  match present This PresentBuffer with
  | none => none
  | some (hr, This) =>
    if hr = D3DERR_WASSTILLDRAWING then some (hr, This)
    else if This.params.SwapEffect = D3DSWAPEFFECT_DISCARD ∨
        This.params.SwapEffect = D3DSWAPEFFECT_FLIP then
      match rotate_queue This with
      | none => none
      | some This => some (hr, This)
    else some (hr, This)

/-- Whether the two arrays of the swap chain have the `BackBufferCount + 1`
entries that the queue rotation indexes, every entry of `buffers` a surface. -/
def rotatable (This : NineSwapChain9) : Bool :=
  decide (This.buffers.length = This.params.BackBufferCount + 1) &&
  decide (This.present_handles.length = This.params.BackBufferCount + 1) &&
  This.buffers.all Option.isSome

/-- Sample answers of the other modules: every call succeeds; back buffer `i`
gets resource `1000 + i`, surface object `2000 + i` and window buffer
`4000 + i`. -/
def demo_calls : resize_calls :=
  { GetWindowSize := some (640, 480)
    d3d9_to_pipe_format := fun f => f
    PIPE_FORMAT_B8G8R8X8_UNORM := 22
    PIPE_FORMAT_B8G8R8A8_UNORM := 21
    REALLOC_buffers := true
    resource_create := fun i => some (1000 + i)
    NineSurface9_new := fun i resource => (D3D_OK, ⟨2000 + i, resource, 0⟩)
    present_resource_create := fun i => some (3000 + i)
    NewBuffer := fun i => some (4000 + i)
    zs_resource_create := some 5000
    zs_NineSurface9_new := fun resource => (D3D_OK, ⟨6000, resource, 0⟩) }

/-- A swap chain constructed with swap effect `COPY` and one back buffer. -/
def demo_copy_chain : Option (Nat × NineSwapChain9) :=
  NineSwapChain9_ctor demo_calls (zeroed false)
    (D3D_OK, ⟨640, 480, 22, 1, D3DSWAPEFFECT_COPY, true, false, 0⟩)

/-- The swap chain of `demo_copy_chain` after a `NineSwapChain9_Resize` to swap
effect `DISCARD` with two back buffers. -/
def demo_copy_resized :
    Option (Nat × NineSwapChain9 × Option D3DPRESENT_PARAMETERS) :=
  demo_copy_chain.bind fun r =>
    NineSwapChain9_Resize demo_calls r.2
      (some ⟨640, 480, 22, 2, D3DSWAPEFFECT_DISCARD, true, false, 0⟩)

/-- A swap chain constructed with swap effect `DISCARD` and one back buffer of
a format that needs no present buffers: `present_buffers` stays `NULL`. -/
def demo_discard_chain : Option (Nat × NineSwapChain9) :=
  NineSwapChain9_ctor demo_calls (zeroed false)
    (D3D_OK, ⟨640, 480, 22, 1, D3DSWAPEFFECT_DISCARD, true, false, 0⟩)

end SwapChain9

namespace NineQueue

/-! ## The protocol with the sizes left free -/

/-- One step when the callers keep only the order of the calls: a push must
follow an alloc that returned, with no other push in between, whatever the
sizes; and, when `pop_after_get` is set, a pop must follow a get that
returned, with no other pop in between, whatever the size.  With
`pop_after_get` clear the consumer may call `nine_queue_pop` at any time. -/
def handoff_step (pop_after_get : Bool) (s : sys) : op → Option sys
  | .alloc space => step s (.alloc space)
  | .resume => step s .resume
  | .push space flush =>
    match s.prod with
    | .reserved _ => some { s with ctx := nine_queue_push s.ctx space flush, prod := .idle }
    | _ => none
  | .get => step s .get
  | .pop space =>
    if pop_after_get ∧ s.acquired = false then none
    else some { s with ctx := nine_queue_pop s.ctx space, acquired := false }

/-- Run a list of actions under `handoff_step` and log, in order, the segments
submitted and the segments freed. -/
def handoff_trace (pop_after_get : Bool) (s : sys) (sub fr : List Nat) :
    List op → Option (sys × List Nat × List Nat)
  | [] => some (s, sub, fr)
  | o :: os =>
    match handoff_step pop_after_get s o with
    | none => none
    | some s1 =>
      handoff_trace pop_after_get s1 (sub ++ step_submits s o) (fr ++ step_frees s o) os

/-- What the order of the calls alone maintains: the pool has 32 segments, the
cursors are in range, a returned alloc that was not committed yet stands on a
segment that is not full, and a returned get that was not released yet stands
on a full segment. -/
structure handoff_inv (s : sys) : Prop where
  len : s.ctx.pool.length = NINE_QUEUES
  hd : s.ctx.head < NINE_QUEUES
  tl : s.ctx.tail < NINE_QUEUES
  prod : ∀ n, s.prod = .reserved n → (s.ctx.slot s.ctx.head).full = false
  cons : s.acquired = true → (s.ctx.slot s.ctx.tail).full = true

/-- The state after submitting 20 bytes in segment 0, releasing them, and
submitting 5 bytes in segment 1. -/
def demo_over_commit : sys :=
  { ctx := nine_queue_push
      (nine_queue_pop (nine_queue_push (fresh_pool demo_malloc) 20 true) 20) 5 true,
    prod := .idle, acquired := false }

/-! ## Basic facts about `slot` and `store` -/

theorem slot_store_same (ctx : nine_queue_pool) (i : Nat) (q : nine_queue)
    (h : i < ctx.pool.length) : (ctx.store i q).slot i = q := by
  simp [nine_queue_pool.slot, nine_queue_pool.store, List.getD_eq_getElem?_getD, h]

theorem slot_store_other (ctx : nine_queue_pool) (i j : Nat) (q : nine_queue)
    (h : i ≠ j) : (ctx.store i q).slot j = ctx.slot j := by
  simp [nine_queue_pool.slot, nine_queue_pool.store, List.getD_eq_getElem?_getD,
    List.getElem?_set_ne h]

@[simp] theorem store_head (ctx : nine_queue_pool) (i : Nat) (q : nine_queue) :
    (ctx.store i q).head = ctx.head := rfl

@[simp] theorem store_tail (ctx : nine_queue_pool) (i : Nat) (q : nine_queue) :
    (ctx.store i q).tail = ctx.tail := rfl

@[simp] theorem store_length (ctx : nine_queue_pool) (i : Nat) (q : nine_queue) :
    (ctx.store i q).pool.length = ctx.pool.length := by
  simp [nine_queue_pool.store]

/-- The masked increment of a cursor below 32 is the increment modulo 32. -/
theorem cursor_next (c : Nat) (h : c < 32) :
    ((c + 1) % UINT_RANGE) &&& NINE_QUEUES_MASK = (c + 1) % 32 := by
  have h1 : (c + 1) % UINT_RANGE = c + 1 := by
    apply Nat.mod_eq_of_lt; unfold UINT_RANGE; omega
  rw [h1]
  exact Nat.and_pow_two_sub_one_eq_mod (c + 1) 5

/-! ## Effect of each function on the pool -/

theorem submit_head (ctx : nine_queue_pool) (h : ctx.head < 32) :
    (nine_queue_submit ctx).head = (ctx.head + 1) % 32 := by
  simp [nine_queue_submit, cursor_next ctx.head h]

@[simp] theorem submit_tail (ctx : nine_queue_pool) :
    (nine_queue_submit ctx).tail = ctx.tail := rfl

@[simp] theorem submit_length (ctx : nine_queue_pool) :
    (nine_queue_submit ctx).pool.length = ctx.pool.length := by
  simp [nine_queue_submit, nine_queue_pool.store]

theorem submit_slot_same (ctx : nine_queue_pool) (h : ctx.head < ctx.pool.length) :
    (nine_queue_submit ctx).slot ctx.head = { ctx.slot ctx.head with full := true } := by
  have := slot_store_same ctx ctx.head { ctx.slot ctx.head with full := true } h
  simpa [nine_queue_submit, nine_queue_pool.slot, nine_queue_pool.store] using this

theorem submit_slot_other (ctx : nine_queue_pool) (i : Nat) (h : i ≠ ctx.head) :
    (nine_queue_submit ctx).slot i = ctx.slot i := by
  have := slot_store_other ctx ctx.head i { ctx.slot ctx.head with full := true } (Ne.symm h)
  simpa [nine_queue_submit, nine_queue_pool.slot, nine_queue_pool.store] using this

theorem alloc_next_eq (ctx : nine_queue_pool) :
    nine_queue_alloc_next ctx =
      if (ctx.slot ctx.head).full then .wait_second ctx
      else .ret ctx ((ctx.slot ctx.head).mem_pool + (ctx.slot ctx.head).head) := rfl

theorem alloc_wait_eq (ctx : nine_queue_pool) (space : Nat) :
    nine_queue_alloc_wait ctx space =
      if (ctx.slot ctx.head).full then .wait_first ctx
      else if ((ctx.slot ctx.head).head + space) % UINT_RANGE > NINE_QUEUE_SIZE then
        nine_queue_alloc_next (nine_queue_submit ctx)
      else .ret ctx ((ctx.slot ctx.head).mem_pool + (ctx.slot ctx.head).head) := rfl

theorem alloc_next_ne_null (ctx c : nine_queue_pool) :
    nine_queue_alloc_next ctx ≠ .null c := by
  rw [alloc_next_eq]
  split <;> simp

theorem alloc_wait_ne_null (ctx c : nine_queue_pool) (space : Nat) :
    nine_queue_alloc_wait ctx space ≠ .null c := by
  rw [alloc_wait_eq]
  split
  · simp
  · split
    · exact alloc_next_ne_null _ _
    · simp

/-- What `nine_queue_alloc_next` can return. -/
theorem alloc_next_ret (ctx c : nine_queue_pool) (p : Nat)
    (h : nine_queue_alloc_next ctx = .ret c p) :
    c = ctx ∧ (ctx.slot ctx.head).full = false ∧
      p = (ctx.slot ctx.head).mem_pool + (ctx.slot ctx.head).head := by
  rw [alloc_next_eq] at h
  split at h
  · simp at h
  · rename_i hf
    simp only [alloc_result.ret.injEq] at h
    exact ⟨h.1.symm, by simpa using hf, h.2.symm⟩

/-- What `nine_queue_alloc_wait` can return: either the current segment had
room and nothing changed, or the current segment was submitted. -/
theorem alloc_wait_ret (ctx c : nine_queue_pool) (space p : Nat)
    (h : nine_queue_alloc_wait ctx space = .ret c p) :
    (ctx.slot ctx.head).full = false ∧ (c.slot c.head).full = false ∧
      p = (c.slot c.head).mem_pool + (c.slot c.head).head ∧
      ((((ctx.slot ctx.head).head + space) % UINT_RANGE ≤ NINE_QUEUE_SIZE ∧ c = ctx) ∨
       (NINE_QUEUE_SIZE < ((ctx.slot ctx.head).head + space) % UINT_RANGE ∧
          c = nine_queue_submit ctx)) := by
  rw [alloc_wait_eq] at h
  split at h
  · simp at h
  · rename_i hf
    have hf1 : (ctx.slot ctx.head).full = false := by simpa using hf
    split at h
    · rename_i hov
      obtain ⟨hc, hnf, hp⟩ := alloc_next_ret _ _ _ h
      subst hc
      exact ⟨hf1, hnf, hp, Or.inr ⟨hov, rfl⟩⟩
    · rename_i hov
      simp only [alloc_result.ret.injEq] at h
      obtain ⟨hc, hp⟩ := h
      subst hc
      exact ⟨hf1, hf1, hp.symm, Or.inl ⟨by omega, rfl⟩⟩

theorem push_eq (ctx : nine_queue_pool) (space : Nat) (flush : Bool) :
    nine_queue_push ctx space flush =
      if flush then
        nine_queue_submit (ctx.store ctx.head
          { ctx.slot ctx.head with head := ((ctx.slot ctx.head).head + space) % UINT_RANGE })
      else
        ctx.store ctx.head
          { ctx.slot ctx.head with head := ((ctx.slot ctx.head).head + space) % UINT_RANGE } := rfl

theorem pop_eq (ctx : nine_queue_pool) (space : Nat) :
    nine_queue_pop ctx space =
      if ((ctx.slot ctx.tail).tail + space) % UINT_RANGE = (ctx.slot ctx.tail).head then
        { ctx.store ctx.tail ⟨0, 0, (ctx.slot ctx.tail).mem_pool, false⟩ with
          tail := ((ctx.tail + 1) % UINT_RANGE) &&& NINE_QUEUES_MASK }
      else
        ctx.store ctx.tail
          { ctx.slot ctx.tail with tail := ((ctx.slot ctx.tail).tail + space) % UINT_RANGE } := rfl

theorem get_eq (ctx : nine_queue_pool) :
    nine_queue_get ctx =
      if (ctx.slot ctx.tail).full then
        .ret ctx ((ctx.slot ctx.tail).mem_pool + (ctx.slot ctx.tail).tail)
      else .wait ctx := by
  simp only [nine_queue_get]
  by_cases h : (ctx.slot ctx.tail).full = true <;> simp [h]

/-! ## Oversize rejection -/

/-- C2: in every pool state `nine_queue_alloc(space)` returns `NULL` exactly when
`space > 4352`; the `NULL` outcome is not a wait and carries the unchanged pool.
`nine_queue_alloc(4352)` is never `NULL` and `nine_queue_alloc(4353)` always is.
A pointer returned into a segment with a non-`NULL` buffer is not `NULL`. -/
theorem alloc_null_iff_oversize (ctx : nine_queue_pool) (space : Nat) :
    (∀ c, nine_queue_alloc ctx space = .null c ↔ (NINE_QUEUE_SIZE < space ∧ c = ctx)) ∧
    (NINE_QUEUE_SIZE < space ↔ nine_queue_alloc ctx space = .null ctx) ∧
    (∀ c, nine_queue_alloc ctx 4352 ≠ .null c) ∧
    nine_queue_alloc ctx 4353 = .null ctx ∧
    (∀ c p, nine_queue_alloc ctx space = .ret c p → (c.slot c.head).mem_pool ≠ 0 → p ≠ 0) := by
  have key : ∀ sp c, nine_queue_alloc ctx sp = .null c ↔ (NINE_QUEUE_SIZE < sp ∧ c = ctx) := by
    intro sp c
    unfold nine_queue_alloc
    by_cases h : sp > NINE_QUEUE_SIZE
    · rw [if_pos h]
      constructor
      · intro e; exact ⟨h, (alloc_result.null.inj e).symm⟩
      · intro e; rw [e.2]
    · rw [if_neg h]
      constructor
      · intro e; exact absurd e (alloc_wait_ne_null _ _ _)
      · intro e; exact absurd e.1 h
  refine ⟨key space, ?_, ?_, ?_, ?_⟩
  · constructor
    · intro h; exact (key space ctx).2 ⟨h, rfl⟩
    · intro h; exact ((key space ctx).1 h).1
  · intro c h
    have := ((key 4352 c).1 h).1
    simp [NINE_QUEUE_SIZE] at this
  · exact (key 4353 ctx).2 ⟨by simp [NINE_QUEUE_SIZE], rfl⟩
  · intro c p h hm
    unfold nine_queue_alloc at h
    split at h
    · cases h
    · have hp := (alloc_wait_ret _ _ _ _ h).2.2.1
      omega

/-! ## Submit, commit -/

/-- C7: `nine_queue_submit` sets the full flag of the segment at the producer
cursor and moves the producer cursor one position forward modulo 32; that
segment's head, tail and buffer, every other segment, the consumer cursor and
the number of segments are unchanged. -/
theorem submit_marks_and_advances (ctx : nine_queue_pool)
    (hlen : ctx.pool.length = NINE_QUEUES) (hhd : ctx.head < NINE_QUEUES) :
    ((nine_queue_submit ctx).slot ctx.head).full = true ∧
    (nine_queue_submit ctx).head = (ctx.head + 1) % NINE_QUEUES ∧
    ((nine_queue_submit ctx).slot ctx.head).head = (ctx.slot ctx.head).head ∧
    ((nine_queue_submit ctx).slot ctx.head).tail = (ctx.slot ctx.head).tail ∧
    ((nine_queue_submit ctx).slot ctx.head).mem_pool = (ctx.slot ctx.head).mem_pool ∧
    (∀ i, i ≠ ctx.head → (nine_queue_submit ctx).slot i = ctx.slot i) ∧
    (nine_queue_submit ctx).tail = ctx.tail ∧
    (nine_queue_submit ctx).pool.length = NINE_QUEUES := by
  have hin : ctx.head < ctx.pool.length := by rw [hlen]; exact hhd
  have hs := submit_slot_same ctx hin
  refine ⟨by rw [hs], submit_head ctx hhd, by rw [hs], by rw [hs], by rw [hs],
    fun i hi => submit_slot_other ctx i hi, rfl, by rw [submit_length, hlen]⟩

/-- C7 at a pool whose producer cursor is 31: the cursor wraps to 0. -/
theorem submit_marks_and_advances_witness :
    ({ fresh_pool demo_malloc with head := 31 } : nine_queue_pool).pool.length = NINE_QUEUES ∧
    ({ fresh_pool demo_malloc with head := 31 } : nine_queue_pool).head < NINE_QUEUES ∧
    ((nine_queue_submit { fresh_pool demo_malloc with head := 31 }).slot 31).full = true ∧
    (nine_queue_submit { fresh_pool demo_malloc with head := 31 }).head = 0 :=
  ⟨by decide, by decide,
    (submit_marks_and_advances { fresh_pool demo_malloc with head := 31 }
      (by decide) (by decide)).1,
    (submit_marks_and_advances { fresh_pool demo_malloc with head := 31 }
      (by decide) (by decide)).2.1⟩

/-- C6: `nine_queue_push(space, flush)` adds `space` to the head of the segment
at the producer cursor (the 32-bit sum, which is the exact sum whenever it fits
in an `unsigned`) and leaves that segment's tail and buffer, every other
segment's head, tail and buffer, and the consumer cursor unchanged.  With
`flush = false` no full flag changes and the producer cursor stays.  With
`flush = true` the segment is also submitted: it is marked full and the producer
cursor moves one position forward, whatever `space` and the head are. -/
theorem push_commits (ctx : nine_queue_pool) (space : Nat) (flush : Bool)
    (hlen : ctx.pool.length = NINE_QUEUES) (hhd : ctx.head < NINE_QUEUES) :
    ((nine_queue_push ctx space flush).slot ctx.head).head
        = ((ctx.slot ctx.head).head + space) % UINT_RANGE ∧
    ((ctx.slot ctx.head).head + space < UINT_RANGE →
      ((nine_queue_push ctx space flush).slot ctx.head).head
        = (ctx.slot ctx.head).head + space) ∧
    ((nine_queue_push ctx space flush).slot ctx.head).tail = (ctx.slot ctx.head).tail ∧
    ((nine_queue_push ctx space flush).slot ctx.head).mem_pool
        = (ctx.slot ctx.head).mem_pool ∧
    (∀ i, i ≠ ctx.head → (nine_queue_push ctx space flush).slot i = ctx.slot i) ∧
    (nine_queue_push ctx space flush).tail = ctx.tail ∧
    (nine_queue_push ctx space flush).pool.length = NINE_QUEUES ∧
    (flush = false →
      ((nine_queue_push ctx space flush).slot ctx.head).full = (ctx.slot ctx.head).full ∧
      (nine_queue_push ctx space flush).head = ctx.head) ∧
    (flush = true →
      ((nine_queue_push ctx space flush).slot ctx.head).full = true ∧
      (nine_queue_push ctx space flush).head = (ctx.head + 1) % NINE_QUEUES ∧
      nine_queue_push ctx space flush = nine_queue_submit (nine_queue_push ctx space false)) := by
  have hin : ctx.head < ctx.pool.length := by rw [hlen]; exact hhd
  have hfalse : nine_queue_push ctx space false = ctx.store ctx.head
      { ctx.slot ctx.head with head := ((ctx.slot ctx.head).head + space) % UINT_RANGE } := rfl
  have hs0 := slot_store_same ctx ctx.head
      { ctx.slot ctx.head with head := ((ctx.slot ctx.head).head + space) % UINT_RANGE } hin
  have ho0 : ∀ i, i ≠ ctx.head → (nine_queue_push ctx space false).slot i = ctx.slot i := by
    intro i hi
    rw [hfalse]
    exact slot_store_other ctx ctx.head i _ (Ne.symm hi)
  cases flush with
  | false =>
    rw [hfalse, hs0]
    refine ⟨rfl, fun h => Nat.mod_eq_of_lt h, rfl, rfl, ?_, rfl, ?_, fun _ => ⟨rfl, rfl⟩, ?_⟩
    · intro i hi
      exact slot_store_other ctx ctx.head i _ (Ne.symm hi)
    · rw [store_length, hlen]
    · intro h; cases h
  | true =>
    have htrue : nine_queue_push ctx space true
        = nine_queue_submit (nine_queue_push ctx space false) := rfl
    have hh : (nine_queue_push ctx space false).head = ctx.head := rfl
    have hin1 : (nine_queue_push ctx space false).head
        < (nine_queue_push ctx space false).pool.length := by
      rw [hfalse, store_length, store_head]; exact hin
    have hs1 := submit_slot_same (nine_queue_push ctx space false) hin1
    rw [hh] at hs1
    rw [htrue, hs1]
    rw [hfalse, hs0]
    refine ⟨rfl, fun h => Nat.mod_eq_of_lt h, rfl, rfl, ?_, rfl, ?_, ?_, fun _ => ⟨rfl, ?_, rfl⟩⟩
    · intro i hi
      rw [← hfalse, submit_slot_other _ i (by rw [hh]; exact hi)]
      exact ho0 i hi
    · rw [submit_length, store_length, hlen]
    · intro h; cases h
    · exact submit_head _ hhd

/-- C6 on the fresh pool: a commit of 0 bytes with flush submits the empty
segment 0, and a commit of 4352 bytes without flush leaves it open. -/
theorem push_commits_witness :
    (fresh_pool demo_malloc).pool.length = NINE_QUEUES ∧
    (fresh_pool demo_malloc).head < NINE_QUEUES ∧
    (((nine_queue_push (fresh_pool demo_malloc) 0 true).slot 0).full = true ∧
      (nine_queue_push (fresh_pool demo_malloc) 0 true).head = 1 % NINE_QUEUES ∧
      nine_queue_push (fresh_pool demo_malloc) 0 true
        = nine_queue_submit (nine_queue_push (fresh_pool demo_malloc) 0 false)) ∧
    (((nine_queue_push (fresh_pool demo_malloc) 4352 false).slot 0).full = false ∧
      (nine_queue_push (fresh_pool demo_malloc) 4352 false).head = 0) :=
  ⟨by decide, by decide,
    (push_commits (fresh_pool demo_malloc) 0 true (by decide) (by decide)).2.2.2.2.2.2.2.2 rfl,
    (push_commits (fresh_pool demo_malloc) 4352 false (by decide) (by decide)).2.2.2.2.2.2.2.1 rfl⟩

/-! ## Acquire, release -/

/-- C8: `nine_queue_get` returns only when the segment at the consumer cursor is
marked full, and then returns `mem_pool + tail` of that segment; otherwise it
waits.  In both cases the pool is unchanged, so a second call gives the same
pointer. -/
theorem get_returns_tail (ctx : nine_queue_pool) :
    (∀ c p, nine_queue_get ctx = .ret c p ↔
      ((ctx.slot ctx.tail).full = true ∧ c = ctx ∧
        p = (ctx.slot ctx.tail).mem_pool + (ctx.slot ctx.tail).tail)) ∧
    (∀ c, nine_queue_get ctx = .wait c ↔ ((ctx.slot ctx.tail).full = false ∧ c = ctx)) ∧
    (∀ c p, nine_queue_get ctx = .ret c p → nine_queue_get c = .ret c p) := by
  have h1 : ∀ c p, nine_queue_get ctx = .ret c p ↔
      ((ctx.slot ctx.tail).full = true ∧ c = ctx ∧
        p = (ctx.slot ctx.tail).mem_pool + (ctx.slot ctx.tail).tail) := by
    intro c p
    rw [get_eq]
    by_cases hf : (ctx.slot ctx.tail).full = true
    · rw [if_pos hf]
      constructor
      · intro e
        simp only [get_result.ret.injEq] at e
        exact ⟨hf, e.1.symm, e.2.symm⟩
      · rintro ⟨_, hc, hp⟩
        rw [hc, hp]
    · rw [if_neg hf]
      constructor
      · intro e; simp at e
      · intro e; exact absurd e.1 hf
  refine ⟨h1, ?_, ?_⟩
  · intro c
    rw [get_eq]
    by_cases hf : (ctx.slot ctx.tail).full = true
    · rw [if_pos hf]
      constructor
      · intro e; simp at e
      · intro e; rw [hf] at e; simp at e
    · rw [if_neg hf]
      constructor
      · intro e
        simp only [get_result.wait.injEq] at e
        exact ⟨by simpa using hf, e.symm⟩
      · intro e; rw [e.2]
  · intro c p e
    obtain ⟨_, hc, _⟩ := (h1 c p).1 e
    rw [hc]; rw [hc] at e; exact e

/-- C8 on a pool whose segment 0 was submitted with 10 bytes. -/
theorem get_returns_tail_witness :
    ((nine_queue_push (fresh_pool demo_malloc) 10 true).slot
      (nine_queue_push (fresh_pool demo_malloc) 10 true).tail).full = true ∧
    nine_queue_get (nine_queue_push (fresh_pool demo_malloc) 10 true)
      = .ret (nine_queue_push (fresh_pool demo_malloc) 10 true) 4096 :=
  ⟨by decide,
    ((get_returns_tail (nine_queue_push (fresh_pool demo_malloc) 10 true)).1 _ _).2
      ⟨by decide, rfl, by decide⟩⟩

/-- C9: when `tail + space = head` for the segment at the consumer cursor,
`nine_queue_pop(space)` resets that segment to head 0, tail 0, not full (its
buffer stays) and moves the consumer cursor one position forward modulo 32;
the producer cursor and all other segments are unchanged. -/
theorem pop_drains (ctx : nine_queue_pool) (space : Nat)
    (hlen : ctx.pool.length = NINE_QUEUES) (htl : ctx.tail < NINE_QUEUES)
    (hfull : (ctx.slot ctx.tail).full = true)
    (hty : (ctx.slot ctx.tail).head < UINT_RANGE)
    (hsum : (ctx.slot ctx.tail).tail + space = (ctx.slot ctx.tail).head) :
    (nine_queue_pop ctx space).slot ctx.tail = ⟨0, 0, (ctx.slot ctx.tail).mem_pool, false⟩ ∧
    (nine_queue_pop ctx space).tail = (ctx.tail + 1) % NINE_QUEUES ∧
    (nine_queue_pop ctx space).head = ctx.head ∧
    (∀ i, i ≠ ctx.tail → (nine_queue_pop ctx space).slot i = ctx.slot i) ∧
    (nine_queue_pop ctx space).pool.length = NINE_QUEUES := by
  have _ := hfull
  have hin : ctx.tail < ctx.pool.length := by rw [hlen]; exact htl
  have hmod : ((ctx.slot ctx.tail).tail + space) % UINT_RANGE = (ctx.slot ctx.tail).head := by
    rw [hsum]; exact Nat.mod_eq_of_lt hty
  rw [pop_eq, if_pos hmod]
  refine ⟨?_, ?_, rfl, ?_, ?_⟩
  · exact slot_store_same ctx ctx.tail _ hin
  · exact cursor_next ctx.tail htl
  · intro i hi
    exact slot_store_other ctx ctx.tail i _ (Ne.symm hi)
  · show (ctx.store ctx.tail _).pool.length = NINE_QUEUES
    rw [store_length, hlen]

/-- C9 on a pool whose segment 0 was submitted with 10 bytes: releasing 10. -/
theorem pop_drains_witness :
    (nine_queue_push (fresh_pool demo_malloc) 10 true).pool.length = NINE_QUEUES ∧
    (nine_queue_push (fresh_pool demo_malloc) 10 true).tail < NINE_QUEUES ∧
    ((nine_queue_push (fresh_pool demo_malloc) 10 true).slot 0).full = true ∧
    ((nine_queue_push (fresh_pool demo_malloc) 10 true).slot 0).head < UINT_RANGE ∧
    ((nine_queue_push (fresh_pool demo_malloc) 10 true).slot 0).tail + 10
      = ((nine_queue_push (fresh_pool demo_malloc) 10 true).slot 0).head ∧
    (nine_queue_pop (nine_queue_push (fresh_pool demo_malloc) 10 true) 10).slot 0
      = ⟨0, 0, 4096, false⟩ ∧
    (nine_queue_pop (nine_queue_push (fresh_pool demo_malloc) 10 true) 10).tail = 1 :=
  ⟨by decide, by decide, by decide, by decide, by decide,
    (pop_drains (nine_queue_push (fresh_pool demo_malloc) 10 true) 10
      (by decide) (by decide) (by decide) (by decide) (by decide)).1,
    (pop_drains (nine_queue_push (fresh_pool demo_malloc) 10 true) 10
      (by decide) (by decide) (by decide) (by decide) (by decide)).2.1⟩

/-- C10: for a full segment at the consumer cursor and `tail + space < head`,
`nine_queue_pop(space)` only replaces that segment's tail by `tail + space`: the
segment stays full, its head and buffer, both cursors and all other segments are
unchanged.  Hence a `nine_queue_alloc` that is waiting on this segment (producer
cursor equal to consumer cursor), at its entry or in either loop, still waits,
and the next `nine_queue_get` returns `mem_pool + tail + space`. -/
theorem pop_keeps_segment_full (ctx : nine_queue_pool) (space : Nat)
    (hlen : ctx.pool.length = NINE_QUEUES) (htl : ctx.tail < NINE_QUEUES)
    (hfull : (ctx.slot ctx.tail).full = true)
    (hty : (ctx.slot ctx.tail).head < UINT_RANGE)
    (hlt : (ctx.slot ctx.tail).tail + space < (ctx.slot ctx.tail).head) :
    (nine_queue_pop ctx space).slot ctx.tail
      = { ctx.slot ctx.tail with tail := (ctx.slot ctx.tail).tail + space } ∧
    ((nine_queue_pop ctx space).slot ctx.tail).full = true ∧
    ((nine_queue_pop ctx space).slot ctx.tail).head = (ctx.slot ctx.tail).head ∧
    (nine_queue_pop ctx space).tail = ctx.tail ∧
    (nine_queue_pop ctx space).head = ctx.head ∧
    (∀ i, i ≠ ctx.tail → (nine_queue_pop ctx space).slot i = ctx.slot i) ∧
    (nine_queue_pop ctx space).pool.length = NINE_QUEUES ∧
    (ctx.head = ctx.tail → ∀ sp, sp ≤ NINE_QUEUE_SIZE →
      nine_queue_alloc (nine_queue_pop ctx space) sp
          = .wait_first (nine_queue_pop ctx space) ∧
      nine_queue_alloc_wait (nine_queue_pop ctx space) sp
          = .wait_first (nine_queue_pop ctx space) ∧
      nine_queue_alloc_next (nine_queue_pop ctx space)
          = .wait_second (nine_queue_pop ctx space)) ∧
    nine_queue_get (nine_queue_pop ctx space)
      = .ret (nine_queue_pop ctx space)
          ((ctx.slot ctx.tail).mem_pool + ((ctx.slot ctx.tail).tail + space)) := by
  have hin : ctx.tail < ctx.pool.length := by rw [hlen]; exact htl
  have hmod : ((ctx.slot ctx.tail).tail + space) % UINT_RANGE
      = (ctx.slot ctx.tail).tail + space := Nat.mod_eq_of_lt (by omega)
  have hne : ¬ ((ctx.slot ctx.tail).tail + space) % UINT_RANGE = (ctx.slot ctx.tail).head := by
    rw [hmod]; omega
  have hpop : nine_queue_pop ctx space = ctx.store ctx.tail
      { ctx.slot ctx.tail with tail := (ctx.slot ctx.tail).tail + space } := by
    rw [pop_eq, if_neg hne, hmod]
  have hslot := slot_store_same ctx ctx.tail
      { ctx.slot ctx.tail with tail := (ctx.slot ctx.tail).tail + space } hin
  have hs : (nine_queue_pop ctx space).slot ctx.tail
      = { ctx.slot ctx.tail with tail := (ctx.slot ctx.tail).tail + space } := by
    rw [hpop]; exact hslot
  have htail : (nine_queue_pop ctx space).tail = ctx.tail := by rw [hpop]; rfl
  have hhead : (nine_queue_pop ctx space).head = ctx.head := by rw [hpop]; rfl
  have hfull1 : ((nine_queue_pop ctx space).slot ctx.tail).full = true := by
    rw [hs]; exact hfull
  refine ⟨hs, hfull1, by rw [hs], htail, hhead, ?_, ?_, ?_, ?_⟩
  · intro i hi
    rw [hpop]
    exact slot_store_other ctx ctx.tail i _ (Ne.symm hi)
  · rw [hpop, store_length, hlen]
  · intro hcur sp hsp
    have hf2 : ((nine_queue_pop ctx space).slot (nine_queue_pop ctx space).head).full = true := by
      rw [hhead, hcur]; exact hfull1
    have hw : nine_queue_alloc_wait (nine_queue_pop ctx space) sp
        = .wait_first (nine_queue_pop ctx space) := by
      rw [alloc_wait_eq, if_pos hf2]
    refine ⟨?_, hw, ?_⟩
    · unfold nine_queue_alloc
      rw [if_neg (by omega), hw]
    · rw [alloc_next_eq, if_pos hf2]
  · have hf3 : ((nine_queue_pop ctx space).slot (nine_queue_pop ctx space).tail).full = true := by
      rw [htail]; exact hfull1
    rw [get_eq, if_pos hf3, htail, hs]

/-- C10 on a pool whose segment 0 was submitted with 10 bytes: releasing 4
leaves the segment full with tail 4. -/
theorem pop_keeps_segment_full_witness :
    (nine_queue_push (fresh_pool demo_malloc) 10 true).pool.length = NINE_QUEUES ∧
    (nine_queue_push (fresh_pool demo_malloc) 10 true).tail < NINE_QUEUES ∧
    ((nine_queue_push (fresh_pool demo_malloc) 10 true).slot 0).full = true ∧
    ((nine_queue_push (fresh_pool demo_malloc) 10 true).slot 0).head < UINT_RANGE ∧
    ((nine_queue_push (fresh_pool demo_malloc) 10 true).slot 0).tail + 4
      < ((nine_queue_push (fresh_pool demo_malloc) 10 true).slot 0).head ∧
    (nine_queue_pop (nine_queue_push (fresh_pool demo_malloc) 10 true) 4).slot 0
      = ⟨10, 4, 4096, true⟩ ∧
    nine_queue_get (nine_queue_pop (nine_queue_push (fresh_pool demo_malloc) 10 true) 4)
      = .ret (nine_queue_pop (nine_queue_push (fresh_pool demo_malloc) 10 true) 4) 4100 :=
  ⟨by decide, by decide, by decide, by decide, by decide,
    (pop_keeps_segment_full (nine_queue_push (fresh_pool demo_malloc) 10 true) 4
      (by decide) (by decide) (by decide) (by decide) (by decide)).1,
    (pop_keeps_segment_full (nine_queue_push (fresh_pool demo_malloc) 10 true) 4
      (by decide) (by decide) (by decide) (by decide) (by decide)).2.2.2.2.2.2.2.2⟩

/-! ## Backpressure -/

/-- C5: whenever `nine_queue_alloc` returns a pointer, the segment at the
producer cursor of the resulting pool is not marked full and the pointer is
`mem_pool + head` of that segment.  While the segment at the producer cursor is
marked full the call (or a thread parked in its first loop) waits, and after an
implicit submit it waits as long as the next segment is marked full; a thread in
the second loop returns only into a segment that is not marked full. -/
theorem alloc_waits_while_full (ctx : nine_queue_pool) (space : Nat) :
    (∀ c p, nine_queue_alloc ctx space = .ret c p →
      (c.slot c.head).full = false ∧
      p = (c.slot c.head).mem_pool + (c.slot c.head).head) ∧
    (∀ c p, nine_queue_alloc_next ctx = .ret c p →
      (c.slot c.head).full = false ∧
      p = (c.slot c.head).mem_pool + (c.slot c.head).head) ∧
    (space ≤ NINE_QUEUE_SIZE → (ctx.slot ctx.head).full = true →
      nine_queue_alloc ctx space = .wait_first ctx ∧
      nine_queue_alloc_wait ctx space = .wait_first ctx) ∧
    (space ≤ NINE_QUEUE_SIZE → (ctx.slot ctx.head).full = false →
      NINE_QUEUE_SIZE < ((ctx.slot ctx.head).head + space) % UINT_RANGE →
      ((nine_queue_submit ctx).slot (nine_queue_submit ctx).head).full = true →
      nine_queue_alloc ctx space = .wait_second (nine_queue_submit ctx)) ∧
    ((ctx.slot ctx.head).full = true → nine_queue_alloc_next ctx = .wait_second ctx) := by
  refine ⟨?_, ?_, ?_, ?_, ?_⟩
  · intro c p h
    unfold nine_queue_alloc at h
    split at h
    · simp at h
    · obtain ⟨_, h2, h3, _⟩ := alloc_wait_ret _ _ _ _ h
      exact ⟨h2, h3⟩
  · intro c p h
    obtain ⟨hc, h2, h3⟩ := alloc_next_ret _ _ _ h
    subst hc
    exact ⟨h2, h3⟩
  · intro hsp hf
    have hw : nine_queue_alloc_wait ctx space = .wait_first ctx := by
      rw [alloc_wait_eq, if_pos hf]
    refine ⟨?_, hw⟩
    unfold nine_queue_alloc
    rw [if_neg (by omega), hw]
  · intro hsp hf hov hnext
    unfold nine_queue_alloc
    rw [if_neg (by omega), alloc_wait_eq, if_neg (by simp [hf]), if_pos hov, alloc_next_eq,
      if_pos hnext]
  · intro hf
    rw [alloc_next_eq, if_pos hf]

/-- C5 on a pool with all 32 segments submitted: the producer waits. -/
theorem alloc_waits_while_full_witness :
    10 ≤ NINE_QUEUE_SIZE ∧ (demo_full_pool.slot demo_full_pool.head).full = true ∧
    nine_queue_alloc demo_full_pool 10 = .wait_first demo_full_pool :=
  ⟨by decide, by decide,
    ((alloc_waits_while_full demo_full_pool 10).2.2.1 (by decide) (by decide)).1⟩

/-! ## The invariant is preserved by every protocol step -/

theorem uint_small (n : Nat) (h : n ≤ 2 * NINE_QUEUE_SIZE) : n % UINT_RANGE = n := by
  apply Nat.mod_eq_of_lt
  unfold NINE_QUEUE_SIZE at h
  unfold UINT_RANGE
  omega

theorem submit_facts (malloc : Nat → Nat) (ctx : nine_queue_pool)
    (hlen : ctx.pool.length = NINE_QUEUES) (hhd : ctx.head < NINE_QUEUES)
    (hseg : ∀ i, i < NINE_QUEUES → seg_inv malloc ctx.head i (ctx.slot i)) :
    (nine_queue_submit ctx).pool.length = NINE_QUEUES ∧
    (nine_queue_submit ctx).head < NINE_QUEUES ∧
    (∀ i, i < NINE_QUEUES →
      seg_inv malloc (nine_queue_submit ctx).head i ((nine_queue_submit ctx).slot i)) ∧
    (((nine_queue_submit ctx).slot (nine_queue_submit ctx).head).full = false →
      ((nine_queue_submit ctx).slot (nine_queue_submit ctx).head).head = 0) ∧
    (∀ i, (ctx.slot i).full = true → ((nine_queue_submit ctx).slot i).full = true) := by
  have hin : ctx.head < ctx.pool.length := by rw [hlen]; exact hhd
  have hnew : (nine_queue_submit ctx).head = (ctx.head + 1) % 32 := submit_head ctx hhd
  have hne : (ctx.head + 1) % 32 ≠ ctx.head := by
    unfold NINE_QUEUES at hhd; omega
  have hlt : (ctx.head + 1) % 32 < NINE_QUEUES := by
    unfold NINE_QUEUES; omega
  refine ⟨by rw [submit_length, hlen], by rw [hnew]; exact hlt, ?_, ?_, ?_⟩
  · intro i hi
    have hold := hseg i hi
    unfold seg_inv at hold ⊢
    obtain ⟨h1, h2, h3, h4⟩ := hold
    by_cases hih : i = ctx.head
    · rw [hih, submit_slot_same ctx hin]
      rw [hih] at h1 h2 h3
      exact ⟨h1, h2, h3, fun hf => by simp at hf⟩
    · rw [submit_slot_other ctx i hih]
      exact ⟨h1, h2, h3, fun hf => ⟨(h4 hf).1, fun _ => (h4 hf).2 hih⟩⟩
  · rw [hnew, submit_slot_other ctx _ hne]
    intro hf
    have hold := hseg _ hlt
    unfold seg_inv at hold
    exact (hold.2.2.2 hf).2 hne
  · intro i hf
    by_cases hih : i = ctx.head
    · rw [hih, submit_slot_same ctx hin]
    · rw [submit_slot_other ctx i hih]; exact hf

theorem inv_after_alloc_next (malloc : Nat → Nat) (s : sys) (sp : Nat)
    (h : inv malloc s) (hsp : sp ≤ NINE_QUEUE_SIZE)
    (hfree : (s.ctx.slot s.ctx.head).full = false → (s.ctx.slot s.ctx.head).head = 0) :
    inv malloc (after_alloc s sp (nine_queue_alloc_next s.ctx)) := by
  rw [alloc_next_eq]
  by_cases hf : (s.ctx.slot s.ctx.head).full = true
  · rw [if_pos hf]
    exact ⟨h.len, h.hd, h.tl, h.seg, ⟨hsp, hfree⟩, h.cons⟩
  · rw [if_neg hf]
    have hf1 : (s.ctx.slot s.ctx.head).full = false := by simpa using hf
    refine ⟨h.len, h.hd, h.tl, h.seg, ⟨hf1, ?_⟩, h.cons⟩
    show (s.ctx.slot s.ctx.head).head + sp ≤ NINE_QUEUE_SIZE
    rw [hfree hf1]; omega

theorem inv_after_alloc_wait (malloc : Nat → Nat) (s : sys) (sp : Nat)
    (h : inv malloc s) (hsp : sp ≤ NINE_QUEUE_SIZE) :
    inv malloc (after_alloc s sp (nine_queue_alloc_wait s.ctx sp)) := by
  rw [alloc_wait_eq]
  by_cases hf : (s.ctx.slot s.ctx.head).full = true
  · rw [if_pos hf]
    refine ⟨h.len, h.hd, h.tl, h.seg, ⟨hsp, ?_⟩, h.cons⟩
    intro hn
    have hn1 : (s.ctx.slot s.ctx.head).full = false := hn
    rw [hf] at hn1; cases hn1
  · rw [if_neg hf]
    have hf1 : (s.ctx.slot s.ctx.head).full = false := by simpa using hf
    have hb := (h.seg s.ctx.head h.hd).2.2.1
    have hsmall : ((s.ctx.slot s.ctx.head).head + sp) % UINT_RANGE
        = (s.ctx.slot s.ctx.head).head + sp := uint_small _ (by omega)
    by_cases hov : ((s.ctx.slot s.ctx.head).head + sp) % UINT_RANGE > NINE_QUEUE_SIZE
    · rw [if_pos hov]
      obtain ⟨hl, hh, hs, hz, hmono⟩ := submit_facts malloc s.ctx h.len h.hd h.seg
      rw [alloc_next_eq]
      by_cases hf2 : ((nine_queue_submit s.ctx).slot (nine_queue_submit s.ctx).head).full = true
      · rw [if_pos hf2]
        exact ⟨hl, hh, h.tl, hs, ⟨hsp, hz⟩, fun ha => hmono _ (h.cons ha)⟩
      · rw [if_neg hf2]
        have hf3 : ((nine_queue_submit s.ctx).slot (nine_queue_submit s.ctx).head).full = false := by
          simpa using hf2
        refine ⟨hl, hh, h.tl, hs, ⟨hf3, ?_⟩, fun ha => hmono _ (h.cons ha)⟩
        show ((nine_queue_submit s.ctx).slot (nine_queue_submit s.ctx).head).head + sp
          ≤ NINE_QUEUE_SIZE
        rw [hz hf3]; omega
    · rw [if_neg hov]
      refine ⟨h.len, h.hd, h.tl, h.seg, ⟨hf1, ?_⟩, h.cons⟩
      show (s.ctx.slot s.ctx.head).head + sp ≤ NINE_QUEUE_SIZE
      omega

theorem prod_inv_congr (c c1 : nine_queue_pool) (st : prod_state)
    (hfull : (c1.slot c1.head).full = (c.slot c.head).full)
    (hhead : (c1.slot c1.head).head = (c.slot c.head).head)
    (h : prod_inv c st) : prod_inv c1 st := by
  cases st <;> simp only [prod_inv] at h ⊢ <;> rw [hfull, hhead] <;> exact h

theorem commit_facts (malloc : Nat → Nat) (ctx : nine_queue_pool) (space : Nat)
    (hlen : ctx.pool.length = NINE_QUEUES) (hhd : ctx.head < NINE_QUEUES)
    (hseg : ∀ i, i < NINE_QUEUES → seg_inv malloc ctx.head i (ctx.slot i))
    (hnf : (ctx.slot ctx.head).full = false)
    (hroom : (ctx.slot ctx.head).head + space ≤ NINE_QUEUE_SIZE) :
    (nine_queue_push ctx space false).pool.length = NINE_QUEUES ∧
    (nine_queue_push ctx space false).head = ctx.head ∧
    (nine_queue_push ctx space false).tail = ctx.tail ∧
    (∀ i, i < NINE_QUEUES →
      seg_inv malloc (nine_queue_push ctx space false).head i
        ((nine_queue_push ctx space false).slot i)) ∧
    (∀ i, ((nine_queue_push ctx space false).slot i).full = (ctx.slot i).full) := by
  have hin : ctx.head < ctx.pool.length := by rw [hlen]; exact hhd
  obtain ⟨hm, hth, _, hfree⟩ := hseg ctx.head hhd
  have hsmall : ((ctx.slot ctx.head).head + space) % UINT_RANGE
      = (ctx.slot ctx.head).head + space := uint_small _ (by omega)
  have hpush : nine_queue_push ctx space false = ctx.store ctx.head
      { ctx.slot ctx.head with head := (ctx.slot ctx.head).head + space } := by
    rw [push_eq, if_neg (by simp), hsmall]
  have hsame := slot_store_same ctx ctx.head
    { ctx.slot ctx.head with head := (ctx.slot ctx.head).head + space } hin
  have hother := fun i (hi : i ≠ ctx.head) => slot_store_other ctx ctx.head i
    { ctx.slot ctx.head with head := (ctx.slot ctx.head).head + space } (Ne.symm hi)
  rw [hpush]
  refine ⟨by rw [store_length]; exact hlen, rfl, rfl, ?_, ?_⟩
  · intro i hi
    rw [store_head]
    by_cases hih : i = ctx.head
    · rw [hih, hsame]
      refine ⟨hm, ?_, hroom, fun _ => ⟨(hfree hnf).1, fun hc => absurd rfl hc⟩⟩
      show (ctx.slot ctx.head).tail ≤ (ctx.slot ctx.head).head + space
      omega
    · rw [hother i hih]; exact hseg i hi
  · intro i
    by_cases hih : i = ctx.head
    · rw [hih, hsame]
    · rw [hother i hih]

theorem inv_push (malloc : Nat → Nat) (s : sys) (n space : Nat) (flush : Bool)
    (h : inv malloc s) (hres : s.prod = .reserved n) (hle : space ≤ n) :
    inv malloc { s with ctx := nine_queue_push s.ctx space flush, prod := .idle } := by
  have hp := h.prod
  rw [hres] at hp
  obtain ⟨hnf, hroom⟩ := hp
  obtain ⟨hl1, hh1, ht1, hs1, hf1⟩ :=
    commit_facts malloc s.ctx space h.len h.hd h.seg hnf (by omega)
  cases flush with
  | false =>
    refine ⟨hl1, ?_, ?_, hs1, trivial, fun ha => ?_⟩
    · show (nine_queue_push s.ctx space false).head < NINE_QUEUES
      rw [hh1]; exact h.hd
    · show (nine_queue_push s.ctx space false).tail < NINE_QUEUES
      rw [ht1]; exact h.tl
    · show ((nine_queue_push s.ctx space false).slot (nine_queue_push s.ctx space false).tail).full
        = true
      rw [hf1, ht1]; exact h.cons ha
  | true =>
    have htrue : nine_queue_push s.ctx space true
        = nine_queue_submit (nine_queue_push s.ctx space false) := rfl
    rw [htrue]
    obtain ⟨hl, hh, hs, _, hmono⟩ :=
      submit_facts malloc (nine_queue_push s.ctx space false) hl1 (by rw [hh1]; exact h.hd) hs1
    refine ⟨hl, hh, ?_, hs, trivial, fun ha => ?_⟩
    · show (nine_queue_push s.ctx space false).tail < NINE_QUEUES
      rw [ht1]; exact h.tl
    · show ((nine_queue_submit (nine_queue_push s.ctx space false)).slot
        (nine_queue_push s.ctx space false).tail).full = true
      apply hmono
      rw [hf1, ht1]; exact h.cons ha

theorem inv_pop (malloc : Nat → Nat) (s : sys) (space : Nat)
    (h : inv malloc s) (hacq : s.acquired = true)
    (hle : space ≤ (s.ctx.slot s.ctx.tail).head - (s.ctx.slot s.ctx.tail).tail) :
    inv malloc { s with ctx := nine_queue_pop s.ctx space, acquired := false } := by
  have hfull := h.cons hacq
  have hin : s.ctx.tail < s.ctx.pool.length := by rw [h.len]; exact h.tl
  obtain ⟨hm, hth, hhs, _⟩ := h.seg s.ctx.tail h.tl
  have hsmall : ((s.ctx.slot s.ctx.tail).tail + space) % UINT_RANGE
      = (s.ctx.slot s.ctx.tail).tail + space := uint_small _ (by omega)
  rw [pop_eq]
  by_cases hd : ((s.ctx.slot s.ctx.tail).tail + space) % UINT_RANGE = (s.ctx.slot s.ctx.tail).head
  · rw [if_pos hd]
    have hsame := slot_store_same s.ctx s.ctx.tail ⟨0, 0, (s.ctx.slot s.ctx.tail).mem_pool, false⟩ hin
    have hother := fun i (hi : i ≠ s.ctx.tail) => slot_store_other s.ctx s.ctx.tail i
      ⟨0, 0, (s.ctx.slot s.ctx.tail).mem_pool, false⟩ (Ne.symm hi)
    refine ⟨by show (s.ctx.store _ _).pool.length = _; rw [store_length]; exact h.len, h.hd, ?_,
      ?_, ?_, fun ha => by cases ha⟩
    · show ((s.ctx.tail + 1) % UINT_RANGE) &&& NINE_QUEUES_MASK < NINE_QUEUES
      rw [cursor_next _ h.tl]; unfold NINE_QUEUES; omega
    · intro i hi
      show seg_inv malloc s.ctx.head i ((s.ctx.store s.ctx.tail _).slot i)
      by_cases hit : i = s.ctx.tail
      · rw [hit, hsame]
        exact ⟨hm, le_refl _, Nat.zero_le _, fun _ => ⟨rfl, fun _ => rfl⟩⟩
      · rw [hother i hit]; exact h.seg i hi
    · have hp := h.prod
      show prod_inv { s.ctx.store s.ctx.tail _ with tail := _ } s.prod
      by_cases hht : s.ctx.head = s.ctx.tail
      · cases hst : s.prod with
        | idle => trivial
        | reserved n =>
          rw [hst] at hp
          have := hp.1
          rw [hht, hfull] at this; cases this
        | parked_first sp =>
          rw [hst] at hp
          refine ⟨hp.1, fun _ => ?_⟩
          show ((s.ctx.store s.ctx.tail _).slot s.ctx.head).head = 0
          rw [hht, hsame]
        | parked_second sp =>
          rw [hst] at hp
          refine ⟨hp.1, fun _ => ?_⟩
          show ((s.ctx.store s.ctx.tail _).slot s.ctx.head).head = 0
          rw [hht, hsame]
      · apply prod_inv_congr s.ctx _ s.prod _ _ hp
        · show ((s.ctx.store s.ctx.tail _).slot s.ctx.head).full = _
          rw [hother _ hht]
        · show ((s.ctx.store s.ctx.tail _).slot s.ctx.head).head = _
          rw [hother _ hht]
  · rw [if_neg hd]
    have hsame := slot_store_same s.ctx s.ctx.tail
      { s.ctx.slot s.ctx.tail with tail := ((s.ctx.slot s.ctx.tail).tail + space) % UINT_RANGE } hin
    have hother := fun i (hi : i ≠ s.ctx.tail) => slot_store_other s.ctx s.ctx.tail i
      { s.ctx.slot s.ctx.tail with tail := ((s.ctx.slot s.ctx.tail).tail + space) % UINT_RANGE }
      (Ne.symm hi)
    refine ⟨by show (s.ctx.store _ _).pool.length = _; rw [store_length]; exact h.len, h.hd, h.tl,
      ?_, ?_, fun ha => by cases ha⟩
    · intro i hi
      show seg_inv malloc s.ctx.head i ((s.ctx.store s.ctx.tail _).slot i)
      by_cases hit : i = s.ctx.tail
      · rw [hit, hsame, hsmall]
        refine ⟨hm, ?_, hhs, fun hf => ?_⟩
        · show (s.ctx.slot s.ctx.tail).tail + space ≤ (s.ctx.slot s.ctx.tail).head
          omega
        · have hf1 : (s.ctx.slot s.ctx.tail).full = false := hf
          rw [hfull] at hf1; cases hf1
      · rw [hother i hit]; exact h.seg i hi
    · apply prod_inv_congr s.ctx _ s.prod _ _ h.prod
      · show ((s.ctx.store s.ctx.tail _).slot s.ctx.head).full = _
        by_cases hht : s.ctx.head = s.ctx.tail
        · rw [hht, hsame]
        · rw [hother _ hht]
      · show ((s.ctx.store s.ctx.tail _).slot s.ctx.head).head = _
        by_cases hht : s.ctx.head = s.ctx.tail
        · rw [hht, hsame]
        · rw [hother _ hht]

theorem inv_after_alloc (malloc : Nat → Nat) (s : sys) (space : Nat) (r : alloc_result)
    (h : inv malloc s) (hr : s.alloc space = some r) :
    inv malloc (after_alloc s space r) := by
  have hfresh : some (nine_queue_alloc s.ctx space) = some r →
      inv malloc (after_alloc s space r) := by
    intro e
    have e1 : nine_queue_alloc s.ctx space = r := Option.some.inj e
    rw [← e1]
    unfold nine_queue_alloc
    by_cases hbig : space > NINE_QUEUE_SIZE
    · rw [if_pos hbig]
      exact ⟨h.len, h.hd, h.tl, h.seg, h.prod, h.cons⟩
    · rw [if_neg hbig]
      exact inv_after_alloc_wait malloc s space h (by omega)
  have hp := h.prod
  unfold sys.alloc at hr
  cases hst : s.prod with
  | idle => rw [hst] at hr; exact hfresh hr
  | reserved n => rw [hst] at hr; exact hfresh hr
  | parked_first sp =>
    rw [hst] at hr hp
    simp only at hr
    split at hr
    · rename_i hsp
      subst hsp
      rw [← Option.some.inj hr]
      exact inv_after_alloc_wait malloc s space h hp.1
    · cases hr
  | parked_second sp =>
    rw [hst] at hr hp
    simp only at hr
    split at hr
    · rename_i hsp
      subst hsp
      rw [← Option.some.inj hr]
      exact inv_after_alloc_next malloc s space h hp.1 hp.2
    · cases hr

theorem inv_step (malloc : Nat → Nat) (s s1 : sys) (o : op)
    (h : inv malloc s) (hs : step s o = some s1) : inv malloc s1 := by
  cases o with
  | alloc space =>
    unfold step at hs
    cases hst : s.prod with
    | idle =>
      rw [hst] at hs
      simp only [Option.map_eq_some'] at hs
      obtain ⟨r, hr, e⟩ := hs
      rw [← e]; exact inv_after_alloc malloc s space r h hr
    | reserved n =>
      rw [hst] at hs
      simp only [Option.map_eq_some'] at hs
      obtain ⟨r, hr, e⟩ := hs
      rw [← e]; exact inv_after_alloc malloc s space r h hr
    | parked_first sp => rw [hst] at hs; cases hs
    | parked_second sp => rw [hst] at hs; cases hs
  | resume =>
    unfold step at hs
    cases hst : s.prod with
    | idle => rw [hst] at hs; cases hs
    | reserved n => rw [hst] at hs; cases hs
    | parked_first sp =>
      rw [hst] at hs
      simp only [Option.map_eq_some'] at hs
      obtain ⟨r, hr, e⟩ := hs
      rw [← e]; exact inv_after_alloc malloc s sp r h hr
    | parked_second sp =>
      rw [hst] at hs
      simp only [Option.map_eq_some'] at hs
      obtain ⟨r, hr, e⟩ := hs
      rw [← e]; exact inv_after_alloc malloc s sp r h hr
  | push space flush =>
    unfold step at hs
    cases hst : s.prod with
    | idle => rw [hst] at hs; cases hs
    | parked_first sp => rw [hst] at hs; cases hs
    | parked_second sp => rw [hst] at hs; cases hs
    | reserved n =>
      rw [hst] at hs
      simp only at hs
      split at hs
      · rename_i hle
        rw [← Option.some.inj hs]
        exact inv_push malloc s n space flush h hst hle
      · cases hs
  | get =>
    unfold step at hs
    rw [get_eq] at hs
    by_cases hf : (s.ctx.slot s.ctx.tail).full = true
    · rw [if_pos hf] at hs
      rw [← Option.some.inj hs]
      exact ⟨h.len, h.hd, h.tl, h.seg, h.prod, fun _ => hf⟩
    · rw [if_neg hf] at hs
      rw [← Option.some.inj hs]
      exact ⟨h.len, h.hd, h.tl, h.seg, h.prod, h.cons⟩
  | pop space =>
    simp only [step] at hs
    split at hs
    · rename_i hc
      rw [← Option.some.inj hs]
      exact inv_pop malloc s space h hc.1 hc.2
    · cases hs

theorem slot_fresh (malloc : Nat → Nat) (i : Nat) (hi : i < NINE_QUEUES) :
    (fresh_pool malloc).slot i = ⟨0, 0, malloc i, false⟩ := by
  unfold NINE_QUEUES at hi
  simp [nine_queue_pool.slot, fresh_pool, List.getD_eq_getElem?_getD, NINE_QUEUES, hi]

theorem inv_init (malloc : Nat → Nat) : inv malloc (init malloc) := by
  refine ⟨by simp [init, fresh_pool], by simp [init, fresh_pool, NINE_QUEUES],
    by simp [init, fresh_pool, NINE_QUEUES], ?_, trivial, fun ha => by cases ha⟩
  intro i hi
  show seg_inv malloc _ i ((fresh_pool malloc).slot i)
  rw [slot_fresh malloc i hi]
  exact ⟨rfl, le_refl _, Nat.zero_le _, fun _ => ⟨rfl, fun _ => rfl⟩⟩

theorem inv_run (malloc : Nat → Nat) (ops : List op) :
    ∀ s s1, inv malloc s → run s ops = some s1 → inv malloc s1 := by
  induction ops with
  | nil =>
    intro s s1 h hr
    rw [← Option.some.inj hr]; exact h
  | cons o os ih =>
    intro s s1 h hr
    unfold run at hr
    cases hs : step s o with
    | none => rw [hs] at hr; cases hr
    | some s2 =>
      rw [hs] at hr
      exact ih s2 s1 (inv_step malloc s s2 o h hs) hr

theorem inv_reachable (malloc : Nat → Nat) (s : sys) (h : reachable malloc s) :
    inv malloc s := by
  obtain ⟨ops, hr⟩ := h
  exact inv_run malloc ops _ _ (inv_init malloc) hr

theorem demo_sys_reachable : reachable demo_malloc demo_sys :=
  ⟨[.alloc 4000, .push 4000 false], by decide⟩

theorem sys_alloc_ret_ptr (s : sys) (space : Nat) (c : nine_queue_pool) (p : Nat)
    (hret : s.alloc space = some (.ret c p)) :
    p = (c.slot c.head).mem_pool + (c.slot c.head).head := by
  have hfresh : some (nine_queue_alloc s.ctx space) = some (.ret c p) →
      p = (c.slot c.head).mem_pool + (c.slot c.head).head := by
    intro e
    have e1 := Option.some.inj e
    unfold nine_queue_alloc at e1
    split at e1
    · cases e1
    · exact (alloc_wait_ret _ _ _ _ e1).2.2.1
  unfold sys.alloc at hret
  cases hst : s.prod with
  | idle => rw [hst] at hret; exact hfresh hret
  | reserved n => rw [hst] at hret; exact hfresh hret
  | parked_first sp =>
    rw [hst] at hret
    simp only at hret
    split at hret
    · exact (alloc_wait_ret _ _ _ _ (Option.some.inj hret)).2.2.1
    · cases hret
  | parked_second sp =>
    rw [hst] at hret
    simp only at hret
    split at hret
    · obtain ⟨hc, _, hp⟩ := alloc_next_ret _ _ _ (Option.some.inj hret)
      rw [hc]; exact hp
    · cases hret

/-! ## Reserve -/

/-- C3: in every state reachable from a fresh pool under the caller protocol,
when the producer's `nine_queue_alloc(space)` with `space ≤ 4352` returns
(directly, or after waiting in one of its loops), the pointer is
`mem_pool + head` of the segment at the producer cursor, that segment is not
marked full, its tail is 0 and `head + space ≤ 4352`, so the `space` bytes at
the pointer lie inside the segment's buffer. -/
theorem alloc_gives_room (malloc : Nat → Nat) (s : sys) (space : Nat)
    (c : nine_queue_pool) (p : Nat)
    (hreach : reachable malloc s) (hsp : space ≤ NINE_QUEUE_SIZE)
    (hret : s.alloc space = some (.ret c p)) :
    p = (c.slot c.head).mem_pool + (c.slot c.head).head ∧
    (c.slot c.head).full = false ∧
    (c.slot c.head).tail = 0 ∧
    (c.slot c.head).head + space ≤ NINE_QUEUE_SIZE ∧
    (c.slot c.head).mem_pool ≤ p ∧
    p + space ≤ (c.slot c.head).mem_pool + NINE_QUEUE_SIZE := by
  have _ := hsp
  have hp := sys_alloc_ret_ptr s space c p hret
  have hi := inv_after_alloc malloc s space _ (inv_reachable malloc s hreach) hret
  have hprod : (c.slot c.head).full = false ∧ (c.slot c.head).head + space ≤ NINE_QUEUE_SIZE :=
    hi.prod
  have hseg : seg_inv malloc c.head c.head (c.slot c.head) := hi.seg c.head hi.hd
  refine ⟨hp, hprod.1, (hseg.2.2.2 hprod.1).1, hprod.2, ?_, ?_⟩
  · rw [hp]; omega
  · rw [hp]; have := hprod.2; omega

/-- C3 in the state where segment 0 holds 4000 bytes: a reservation of 1000
bytes lands at the start of segment 1. -/
theorem alloc_gives_room_witness :
    reachable demo_malloc demo_sys ∧ 1000 ≤ NINE_QUEUE_SIZE ∧
    demo_sys.alloc 1000 = some (.ret (nine_queue_submit demo_sys.ctx) 8448) ∧
    (8448 = ((nine_queue_submit demo_sys.ctx).slot (nine_queue_submit demo_sys.ctx).head).mem_pool
        + ((nine_queue_submit demo_sys.ctx).slot (nine_queue_submit demo_sys.ctx).head).head ∧
      ((nine_queue_submit demo_sys.ctx).slot (nine_queue_submit demo_sys.ctx).head).full = false ∧
      ((nine_queue_submit demo_sys.ctx).slot (nine_queue_submit demo_sys.ctx).head).tail = 0 ∧
      ((nine_queue_submit demo_sys.ctx).slot (nine_queue_submit demo_sys.ctx).head).head + 1000
        ≤ NINE_QUEUE_SIZE ∧
      ((nine_queue_submit demo_sys.ctx).slot (nine_queue_submit demo_sys.ctx).head).mem_pool
        ≤ 8448 ∧
      8448 + 1000 ≤
        ((nine_queue_submit demo_sys.ctx).slot (nine_queue_submit demo_sys.ctx).head).mem_pool
          + NINE_QUEUE_SIZE) :=
  ⟨demo_sys_reachable, by decide, by decide,
    alloc_gives_room demo_malloc demo_sys 1000 _ 8448 demo_sys_reachable (by decide) (by decide)⟩

/-- C4: in a reachable state, for `space ≤ 4352` and once the first wait loop is
passed (the producer's current segment is not marked full):
if `head + space > 4352`, `nine_queue_alloc` submits the current segment (it is
marked full, the producer cursor moves one position forward modulo 32, nothing
else changes) and then returns the buffer start of the next segment, whose head
is 0, unless that segment is still marked full, in which case it waits in the
second loop; if `head + space ≤ 4352` it returns `mem_pool + head` of the
current segment and the pool is unchanged.  A producer parked in the second loop
returns the buffer start of the segment at the producer cursor. -/
theorem alloc_implicit_submit (malloc : Nat → Nat) :
    (∀ s space, reachable malloc s → space ≤ NINE_QUEUE_SIZE →
      (s.ctx.slot s.ctx.head).full = false →
      (NINE_QUEUE_SIZE < (s.ctx.slot s.ctx.head).head + space →
        (nine_queue_submit s.ctx).slot s.ctx.head
            = { s.ctx.slot s.ctx.head with full := true } ∧
        (nine_queue_submit s.ctx).head = (s.ctx.head + 1) % NINE_QUEUES ∧
        (nine_queue_submit s.ctx).tail = s.ctx.tail ∧
        (∀ i, i ≠ s.ctx.head → (nine_queue_submit s.ctx).slot i = s.ctx.slot i) ∧
        (((nine_queue_submit s.ctx).slot ((s.ctx.head + 1) % NINE_QUEUES)).full = false →
          ((nine_queue_submit s.ctx).slot ((s.ctx.head + 1) % NINE_QUEUES)).head = 0 ∧
          nine_queue_alloc s.ctx space
            = .ret (nine_queue_submit s.ctx) (malloc ((s.ctx.head + 1) % NINE_QUEUES))) ∧
        (((nine_queue_submit s.ctx).slot ((s.ctx.head + 1) % NINE_QUEUES)).full = true →
          nine_queue_alloc s.ctx space = .wait_second (nine_queue_submit s.ctx))) ∧
      ((s.ctx.slot s.ctx.head).head + space ≤ NINE_QUEUE_SIZE →
        nine_queue_alloc s.ctx space
          = .ret s.ctx ((s.ctx.slot s.ctx.head).mem_pool + (s.ctx.slot s.ctx.head).head))) ∧
    (∀ s space c p, reachable malloc s → s.prod = .parked_second space →
      nine_queue_alloc_next s.ctx = .ret c p →
      c = s.ctx ∧ (s.ctx.slot s.ctx.head).head = 0 ∧ p = malloc s.ctx.head) := by
  constructor
  · intro s space hreach hsp hnf
    have h := inv_reachable malloc s hreach
    have hin : s.ctx.head < s.ctx.pool.length := by rw [h.len]; exact h.hd
    have hb := (h.seg s.ctx.head h.hd).2.2.1
    have hsmall : ((s.ctx.slot s.ctx.head).head + space) % UINT_RANGE
        = (s.ctx.slot s.ctx.head).head + space := uint_small _ (by omega)
    have halloc : nine_queue_alloc s.ctx space = nine_queue_alloc_wait s.ctx space := by
      unfold nine_queue_alloc
      rw [if_neg (by omega)]
    constructor
    · intro hov
      obtain ⟨_, hlt, hs, hz, _⟩ := submit_facts malloc s.ctx h.len h.hd h.seg
      have hnew : (nine_queue_submit s.ctx).head = (s.ctx.head + 1) % NINE_QUEUES :=
        submit_head s.ctx h.hd
      have hwait : nine_queue_alloc s.ctx space
          = nine_queue_alloc_next (nine_queue_submit s.ctx) := by
        rw [halloc, alloc_wait_eq, if_neg (by simp [hnf]), if_pos (by rw [hsmall]; exact hov)]
      refine ⟨submit_slot_same s.ctx hin, hnew, rfl,
        fun i hi => submit_slot_other s.ctx i hi, ?_, ?_⟩
      · intro hf
        rw [← hnew] at hf ⊢
        have hm := (hs _ hlt).1
        refine ⟨hz hf, ?_⟩
        rw [hwait, alloc_next_eq, if_neg (by simp [hf]), hz hf, hm]
        rfl
      · intro hf
        rw [← hnew] at hf
        rw [hwait, alloc_next_eq, if_pos hf]
    · intro hfit
      rw [halloc, alloc_wait_eq, if_neg (by simp [hnf]), if_neg (by rw [hsmall]; omega)]
  · intro s space c p hreach hpark hret
    have h := inv_reachable malloc s hreach
    have hp := h.prod
    rw [hpark] at hp
    obtain ⟨hc, hnf, hptr⟩ := alloc_next_ret _ _ _ hret
    have hm := (h.seg s.ctx.head h.hd).1
    refine ⟨hc, hp.2 hnf, ?_⟩
    rw [hptr, hp.2 hnf, hm]
    rfl

/-- C4 in the state where segment 0 holds 4000 bytes: a request of 1000 bytes
submits segment 0 and returns the start of segment 1, a request of 352 bytes
returns offset 4000 of segment 0. -/
theorem alloc_implicit_submit_witness :
    reachable demo_malloc demo_sys ∧
    (demo_sys.ctx.slot demo_sys.ctx.head).full = false ∧
    NINE_QUEUE_SIZE < (demo_sys.ctx.slot demo_sys.ctx.head).head + 1000 ∧
    ((nine_queue_submit demo_sys.ctx).slot ((demo_sys.ctx.head + 1) % NINE_QUEUES)).full = false ∧
    nine_queue_alloc demo_sys.ctx 1000
      = .ret (nine_queue_submit demo_sys.ctx) (demo_malloc ((demo_sys.ctx.head + 1) % NINE_QUEUES)) ∧
    nine_queue_alloc demo_sys.ctx 352
      = .ret demo_sys.ctx
          ((demo_sys.ctx.slot demo_sys.ctx.head).mem_pool
            + (demo_sys.ctx.slot demo_sys.ctx.head).head) :=
  ⟨demo_sys_reachable, by decide, by decide, by decide,
    ((((alloc_implicit_submit demo_malloc).1 demo_sys 1000 demo_sys_reachable (by decide)
      (by decide)).1 (by decide)).2.2.2.2.1 (by decide)).2,
    ((alloc_implicit_submit demo_malloc).1 demo_sys 352 demo_sys_reachable (by decide)
      (by decide)).2 (by decide)⟩

/-! ## Memory -/

theorem write_bytes_outside (bs : List Nat) :
    ∀ (m : heap) (p a : Nat), (a < p ∨ p + bs.length ≤ a) → write_bytes m p bs a = m a := by
  induction bs with
  | nil => intro m p a _; rfl
  | cons b bs ih =>
    intro m p a h
    have hlen : (b :: bs).length = bs.length + 1 := rfl
    rw [hlen] at h
    show write_bytes (Function.update m p b) (p + 1) bs a = m a
    have hne : a ≠ p := by omega
    rw [ih (Function.update m p b) (p + 1) a (by omega)]
    exact Function.update_noteq hne b m

theorem read_bytes_congr (n : Nat) :
    ∀ (m m1 : heap) (p : Nat), (∀ a, p ≤ a → a < p + n → m a = m1 a) →
      read_bytes m p n = read_bytes m1 p n := by
  induction n with
  | zero => intro m m1 p _; rfl
  | succ n ih =>
    intro m m1 p h
    show m p :: read_bytes m (p + 1) n = m1 p :: read_bytes m1 (p + 1) n
    rw [h p (le_refl _) (by omega), ih m m1 (p + 1) (fun a h1 h2 => h a (by omega) (by omega))]

theorem read_write_same (bs : List Nat) :
    ∀ (m : heap) (p : Nat), read_bytes (write_bytes m p bs) p bs.length = bs := by
  induction bs with
  | nil => intro m p; rfl
  | cons b bs ih =>
    intro m p
    show write_bytes (Function.update m p b) (p + 1) bs p
      :: read_bytes (write_bytes (Function.update m p b) (p + 1) bs) (p + 1) bs.length = b :: bs
    rw [ih, write_bytes_outside bs _ (p + 1) p (by omega), Function.update_same]

theorem read_write_disjoint (bs : List Nat) (m : heap) (p a n : Nat)
    (h : a + n ≤ p ∨ p + bs.length ≤ a) :
    read_bytes (write_bytes m p bs) a n = read_bytes m a n := by
  apply read_bytes_congr
  intro x h1 h2
  exact write_bytes_outside bs m p x (by omega)

theorem read_bytes_add (m : heap) (n k : Nat) :
    ∀ p, read_bytes m p (n + k) = read_bytes m p n ++ read_bytes m (p + n) k := by
  induction n with
  | zero => intro p; simp [read_bytes]
  | succ n ih =>
    intro p
    have e : n + 1 + k = (n + k) + 1 := by omega
    rw [e]
    show m p :: read_bytes m (p + 1) (n + k) = (m p :: read_bytes m (p + 1) n) ++ _
    rw [ih (p + 1)]
    have e2 : p + 1 + n = p + (n + 1) := by omega
    rw [e2]
    rfl

/-! ## The recorder's view of the pool -/

theorem seg_holds_congr (malloc : Nat → Nat) (ctx c1 : nine_queue_pool) (m : heap) (i : Nat)
    (full : Bool) (part : List (List Nat)) (hslot : c1.slot i = ctx.slot i)
    (h : seg_holds malloc ctx m i full part) : seg_holds malloc c1 m i full part := by
  unfold seg_holds at h ⊢
  rw [hslot]; exact h

theorem rec_state_init (malloc : Nat → Nat) (m : heap) :
    rec_state malloc (fresh_pool malloc) m [] [] := by
  refine ⟨by simp [fresh_pool], rfl, by simp, rfl, ?_, ?_, ?_, fun _ => rfl⟩
  · intro j part h; simp at h
  · intro _
    exact ⟨slot_fresh malloc 0 (by decide), Nat.zero_le _, rfl⟩
  · intro j _ hj
    exact slot_fresh malloc j hj

/-- The producer cursor of a recorder state whose current segment is not full
has not wrapped. -/
theorem rec_state_room (malloc : Nat → Nat) (ctx : nine_queue_pool) (m : heap)
    (parts : List (List (List Nat))) (cur : List (List Nat))
    (h : rec_state malloc ctx m parts cur) (hnf : (ctx.slot ctx.head).full = false) :
    parts.length < NINE_QUEUES ∧ ctx.head = parts.length := by
  have hk := h.hk
  have hd := h.hd
  by_cases hlt : parts.length < NINE_QUEUES
  · exact ⟨hlt, by rw [hd]; exact Nat.mod_eq_of_lt hlt⟩
  · exfalso
    have hk32 : parts.length = NINE_QUEUES := by omega
    rw [hk32] at hd
    have hd0 : ctx.head = 0 := by rw [hd]; rfl
    have h0 : (0 : Nat) < parts.length := by rw [hk32]; decide
    have hget : parts[0]? = some parts[0] := List.getElem?_eq_getElem h0
    have hs := (h.done 0 _ hget).1
    rw [hd0, hs] at hnf
    cases hnf

theorem rec_state_submit (malloc : Nat → Nat) (ctx : nine_queue_pool) (m : heap)
    (parts : List (List (List Nat))) (cur : List (List Nat))
    (h : rec_state malloc ctx m parts cur) (hlt : parts.length < NINE_QUEUES) :
    rec_state malloc (nine_queue_submit ctx) m (parts ++ [cur]) [] := by
  have hhead : ctx.head = parts.length := by rw [h.hd]; exact Nat.mod_eq_of_lt hlt
  have hhd : ctx.head < NINE_QUEUES := by rw [hhead]; exact hlt
  have hin : ctx.head < ctx.pool.length := by rw [h.len]; exact hhd
  have hlen1 : (parts ++ [cur]).length = parts.length + 1 := by simp
  have hsame := submit_slot_same ctx hin
  have hother := fun i (hi : i ≠ ctx.head) => submit_slot_other ctx i hi
  rw [hhead] at hsame hother
  refine ⟨by rw [submit_length]; exact h.len, h.tl, by rw [hlen1]; omega, ?_, ?_, ?_, ?_, ?_⟩
  · rw [submit_head ctx hhd, hlen1, hhead]; rfl
  · intro j part hj
    by_cases hjk : j < parts.length
    · rw [List.getElem?_append_left hjk] at hj
      exact seg_holds_congr malloc ctx _ m j true part (hother j (by omega)) (h.done j part hj)
    · have hj1 : j < (parts ++ [cur]).length := by
        by_contra hge
        rw [List.getElem?_eq_none (by omega)] at hj
        cases hj
      have hjeq : j = parts.length := by rw [hlen1] at hj1; omega
      subst hjeq
      rw [List.getElem?_append_right (le_refl _)] at hj
      simp at hj
      subst hj
      obtain ⟨h1, h2, h3⟩ := h.cur_open hlt
      refine ⟨?_, h2, h3⟩
      rw [hsame, h1]
  · intro hlt1
    rw [hlen1] at hlt1 ⊢
    have hr := h.rest (parts.length + 1) (by omega) hlt1
    refine ⟨?_, Nat.zero_le _, rfl⟩
    rw [hother _ (by omega), hr]
    rfl
  · intro j hj1 hj2
    rw [hlen1] at hj1
    rw [hother j (by omega)]
    exact h.rest j (by omega) hj2
  · intro _; rfl

theorem rec_state_append (malloc : Nat → Nat) (ctx : nine_queue_pool) (m : heap)
    (parts : List (List (List Nat))) (cur : List (List Nat)) (bytes : List Nat)
    (hdis : disjoint_buffers malloc)
    (h : rec_state malloc ctx m parts cur) (hlt : parts.length < NINE_QUEUES)
    (hfit : cur.flatten.length + bytes.length ≤ NINE_QUEUE_SIZE) :
    rec_state malloc (nine_queue_push ctx bytes.length false)
      (write_bytes m (malloc parts.length + cur.flatten.length) bytes) parts
      (cur ++ [bytes]) := by
  have hhead : ctx.head = parts.length := by rw [h.hd]; exact Nat.mod_eq_of_lt hlt
  have hin : ctx.head < ctx.pool.length := by rw [h.len, hhead]; exact hlt
  obtain ⟨hslot, _, hmem⟩ := h.cur_open hlt
  have hsmall : (cur.flatten.length + bytes.length) % UINT_RANGE
      = cur.flatten.length + bytes.length := uint_small _ (by omega)
  have hpush : nine_queue_push ctx bytes.length false = ctx.store parts.length
      ⟨cur.flatten.length + bytes.length, 0, malloc parts.length, false⟩ := by
    rw [push_eq, if_neg (by simp), hhead, hslot]
    simp only [hsmall]
  have hsame := slot_store_same ctx parts.length
    ⟨cur.flatten.length + bytes.length, 0, malloc parts.length, false⟩ (by rw [← hhead]; exact hin)
  have hother := fun i (hi : i ≠ parts.length) => slot_store_other ctx parts.length i
    ⟨cur.flatten.length + bytes.length, 0, malloc parts.length, false⟩ (Ne.symm hi)
  have hflat : (cur ++ [bytes]).flatten = cur.flatten ++ bytes := by simp
  rw [hpush]
  refine ⟨by rw [store_length]; exact h.len, h.tl, h.hk, h.hd, ?_, ?_, ?_, ?_⟩
  · intro j part hj
    have hjk : j < parts.length := by
      by_contra hge
      rw [List.getElem?_eq_none (by omega)] at hj
      cases hj
    obtain ⟨h1, h2, h3⟩ := h.done j part hj
    refine ⟨by rw [hother j (by omega)]; exact h1, h2, ?_⟩
    rw [read_write_disjoint, h3]
    have hd := hdis j parts.length (by omega) hlt (by omega)
    omega
  · intro _
    refine ⟨?_, ?_, ?_⟩
    · rw [hsame, hflat, List.length_append]
    · rw [hflat, List.length_append]; exact hfit
    · rw [hflat, List.length_append, read_bytes_add, read_write_same,
        read_write_disjoint _ _ _ _ _ (Or.inl (le_refl _)), hmem]
  · intro j hj1 hj2
    rw [hother j (by omega)]
    exact h.rest j hj1 hj2
  · intro hk; omega

/-- One record: from a recorder state whose current segment has room, copy the
record and commit it, with or without flush. -/
theorem rec_state_record (malloc : Nat → Nat) (ctx : nine_queue_pool) (m : heap)
    (parts : List (List (List Nat))) (cur : List (List Nat)) (bytes : List Nat) (flush : Bool)
    (hdis : disjoint_buffers malloc)
    (h : rec_state malloc ctx m parts cur) (hlt : parts.length < NINE_QUEUES)
    (hfit : cur.flatten.length + bytes.length ≤ NINE_QUEUE_SIZE) :
    ∃ parts1 cur1,
      rec_state malloc (nine_queue_push ctx bytes.length flush)
        (write_bytes m (malloc parts.length + cur.flatten.length) bytes) parts1 cur1 ∧
      parts1.flatten ++ cur1 = parts.flatten ++ cur ++ [bytes] ∧
      (flush = true → cur1 = []) ∧
      (∀ part, part ∈ parts1 → part ∈ parts ∨ part = cur ++ [bytes]) := by
  have h1 := rec_state_append malloc ctx m parts cur bytes hdis h hlt hfit
  cases flush with
  | false =>
    refine ⟨parts, cur ++ [bytes], h1, by simp, fun hc => (by cases hc), fun part hp => Or.inl hp⟩
  | true =>
    have htrue : nine_queue_push ctx bytes.length true
        = nine_queue_submit (nine_queue_push ctx bytes.length false) := rfl
    rw [htrue]
    refine ⟨parts ++ [cur ++ [bytes]], [], rec_state_submit malloc _ _ parts _ h1 hlt, by simp,
      fun _ => rfl, ?_⟩
    intro part hp
    rw [List.mem_append] at hp
    rcases hp with hp | hp
    · exact Or.inl hp
    · exact Or.inr (by simpa using hp)

/-- One round `nine_queue_alloc` / copy / `nine_queue_push` of the recorder. -/
theorem rec_state_round (malloc : Nat → Nat) (ctx c : nine_queue_pool) (m : heap)
    (parts : List (List (List Nat))) (cur : List (List Nat)) (bytes : List Nat) (flush : Bool)
    (p : Nat) (hdis : disjoint_buffers malloc)
    (h : rec_state malloc ctx m parts cur) (hparts : ∀ part, part ∈ parts → part ≠ [])
    (hret : nine_queue_alloc ctx bytes.length = .ret c p) :
    ∃ parts1 cur1,
      rec_state malloc (nine_queue_push c bytes.length flush) (write_bytes m p bytes)
        parts1 cur1 ∧
      parts1.flatten ++ cur1 = parts.flatten ++ cur ++ [bytes] ∧
      (flush = true → cur1 = []) ∧
      (∀ part, part ∈ parts1 → part ≠ []) := by
  unfold nine_queue_alloc at hret
  split at hret
  · cases hret
  · rename_i hsp
    obtain ⟨hnf, hnf1, hp, hcase⟩ := alloc_wait_ret _ _ _ _ hret
    obtain ⟨hlt, hhead⟩ := rec_state_room malloc ctx m parts cur h hnf
    obtain ⟨hslot, hL, _⟩ := h.cur_open hlt
    rw [hhead, hslot] at hcase
    have hsmall : (cur.flatten.length + bytes.length) % UINT_RANGE
        = cur.flatten.length + bytes.length := uint_small _ (by omega)
    simp only [hsmall] at hcase
    rcases hcase with ⟨hfit, hc⟩ | ⟨hov, hc⟩
    · subst hc
      rw [hhead, hslot] at hp
      simp only at hp
      subst hp
      obtain ⟨parts1, cur1, hr, hfl, hcl, hmem⟩ :=
        rec_state_record malloc c m parts cur bytes flush hdis h hlt hfit
      refine ⟨parts1, cur1, hr, hfl, hcl, ?_⟩
      intro part hpart
      rcases hmem part hpart with h1 | h1
      · exact hparts part h1
      · rw [h1]; simp
    · subst hc
      have h1 := rec_state_submit malloc ctx m parts cur h hlt
      obtain ⟨hlt1, hhead1⟩ := rec_state_room malloc _ m _ _ h1 hnf1
      obtain ⟨hslot1, _, _⟩ := h1.cur_open hlt1
      rw [hhead1, hslot1] at hp
      simp only at hp
      obtain ⟨parts1, cur1, hr, hfl, hcl, hmem⟩ :=
        rec_state_record malloc _ m (parts ++ [cur]) [] bytes flush hdis h1 hlt1
          (by simp; omega)
      rw [← hp] at hr
      refine ⟨parts1, cur1, hr, by rw [hfl]; simp, hcl, ?_⟩
      intro part hpart
      rcases hmem part hpart with h2 | h2
      · rw [List.mem_append] at h2
        rcases h2 with h2 | h2
        · exact hparts part h2
        · have hcur : part = cur := by simpa using h2
          rw [hcur]
          intro hnil
          rw [hnil] at hov
          simp at hov
          omega
      · rw [h2]; simp

theorem produce_rec_state (malloc : Nat → Nat) (hdis : disjoint_buffers malloc)
    (recs : List (List Nat × Bool)) :
    ∀ (ctx : nine_queue_pool) (m : heap) (parts : List (List (List Nat)))
      (cur : List (List Nat)) (c1 : nine_queue_pool) (m1 : heap),
      rec_state malloc ctx m parts cur → (∀ part, part ∈ parts → part ≠ []) →
      produce ctx m recs = some (c1, m1) →
      ∃ parts1 cur1,
        rec_state malloc c1 m1 parts1 cur1 ∧
        parts1.flatten ++ cur1 = parts.flatten ++ cur ++ recs.map Prod.fst ∧
        (∀ part, part ∈ parts1 → part ≠ []) ∧
        (recs = [] → cur1 = cur) ∧
        (∀ r, recs.getLast? = some r → r.2 = true → cur1 = []) := by
  induction recs with
  | nil =>
    intro ctx m parts cur c1 m1 h hparts hprod
    have e : (ctx, m) = (c1, m1) := Option.some.inj hprod
    cases e
    exact ⟨parts, cur, h, by simp, hparts, fun _ => rfl, fun r hr => by simp at hr⟩
  | cons x rest ih =>
    intro ctx m parts cur c1 m1 h hparts hprod
    obtain ⟨bytes, flush⟩ := x
    unfold produce at hprod
    cases hal : nine_queue_alloc ctx bytes.length with
    | null c => rw [hal] at hprod; cases hprod
    | wait_first c => rw [hal] at hprod; cases hprod
    | wait_second c => rw [hal] at hprod; cases hprod
    | ret c p =>
      rw [hal] at hprod
      simp only at hprod
      obtain ⟨parts2, cur2, h2, hfl2, hcl2, hne2⟩ :=
        rec_state_round malloc ctx c m parts cur bytes flush p hdis h hparts hal
      obtain ⟨parts1, cur1, h1, hfl1, hne1, hnil1, hlast1⟩ :=
        ih _ _ parts2 cur2 c1 m1 h2 hne2 hprod
      refine ⟨parts1, cur1, h1, ?_, hne1, fun hc => (by cases hc), ?_⟩
      · rw [hfl1, hfl2]; simp
      · intro r hr hflush
        cases rest with
        | nil =>
          simp at hr
          subst hr
          rw [hnil1 rfl]
          exact hcl2 hflush
        | cons y ys =>
          rw [List.getLast?_cons_cons] at hr
          exact hlast1 r hr hflush

/-! ## The replayer's view of the pool -/

theorem consume_cons_ret (ctx : nine_queue_pool) (m : heap) (len p : Nat) (rest : List Nat)
    (hget : nine_queue_get ctx = .ret ctx p) :
    consume ctx m (len :: rest) =
      (consume (nine_queue_pop ctx len) m rest).map
        (fun x => (x.1, read_bytes m p len :: x.2)) := by
  conv_lhs => rw [consume]
  rw [hget]
  simp only
  cases consume (nine_queue_pop ctx len) m rest with
  | none => rfl
  | some x => rfl

theorem read_bytes_length (m : heap) (n : Nat) : ∀ p, (read_bytes m p n).length = n := by
  induction n with
  | zero => intro p; rfl
  | succ n ih => intro p; simp [read_bytes, ih]

theorem getLast?_cons_of_some (a : List Nat) (l : List (List Nat)) (x : List Nat)
    (h : l.getLast? = some x) : (a :: l).getLast? = some x := by
  cases l with
  | nil => simp at h
  | cons b bs => rw [List.getLast?_cons_cons]; exact h

/-- Reading back what the recorder submitted.  `Rs` lists, segment by segment
from the consumer cursor `c` on, the records still to be read; the first segment
has been released up to offset `t`.  Empty records may have moved to the next
segment: releasing the last non-empty record of a segment frees it. -/
theorem consume_split (malloc : Nat → Nat) (m : heap) :
    ∀ (n : Nat) (Rs : List (List (List Nat))) (ctx : nine_queue_pool) (c t : Nat),
      Rs.flatten.length = n →
      (∀ part, part ∈ Rs → part ≠ []) →
      (∀ r, Rs.flatten.getLast? = some r → r ≠ []) →
      ctx.pool.length = NINE_QUEUES → c + Rs.length ≤ NINE_QUEUES →
      ctx.tail = c % NINE_QUEUES →
      (∀ part, Rs.head? = some part →
        ctx.slot c = ⟨t + part.flatten.length, t, malloc c, true⟩ ∧
        t + part.flatten.length ≤ NINE_QUEUE_SIZE ∧
        read_bytes m (malloc c + t) part.flatten.length = part.flatten) →
      (∀ j part, Rs.tail[j]? = some part → seg_holds malloc ctx m (c + 1 + j) true part) →
      ∃ c1, consume ctx m (Rs.flatten.map List.length) = some (c1, Rs.flatten) := by
  intro n
  induction n with
  | zero =>
    intro Rs ctx c t hn _ _ _ _ _ _ _
    have hnil : Rs.flatten = [] := List.length_eq_zero.mp hn
    rw [hnil]
    exact ⟨ctx, rfl⟩
  | succ n ih =>
    intro Rs ctx c t hn hne hlast hlen hc htail hfirst hrest
    cases Rs with
    | nil => simp at hn
    | cons part Rs1 =>
      cases part with
      | nil => exact absurd rfl (hne [] (by simp))
      | cons r p =>
        have hc32 : c < NINE_QUEUES := by
          have : ((r :: p) :: Rs1).length = Rs1.length + 1 := rfl
          omega
        have hin : c < ctx.pool.length := by rw [hlen]; exact hc32
        have htail1 : ctx.tail = c := by rw [htail]; exact Nat.mod_eq_of_lt hc32
        obtain ⟨hslot, hbound, hmem⟩ := hfirst (r :: p) rfl
        have hflatp : (r :: p).flatten.length = r.length + p.flatten.length := by simp
        rw [hflatp] at hslot hbound hmem
        have hget : nine_queue_get ctx = .ret ctx (malloc c + t) := by
          rw [get_eq, htail1, hslot]; rfl
        have hsmall : (t + r.length) % UINT_RANGE = t + r.length := uint_small _ (by omega)
        have hsplit := hmem
        rw [read_bytes_add, List.flatten_cons] at hsplit
        obtain ⟨hr, hrs⟩ := List.append_inj hsplit (read_bytes_length m _ _)
        have hall : ((r :: p) :: Rs1).flatten = r :: (p ++ Rs1.flatten) := by simp
        rw [hall] at hn hlast ⊢
        have hn1 : (p ++ Rs1.flatten).length = n := by simpa using hn
        have hlast1 : ∀ x, (p ++ Rs1.flatten).getLast? = some x → x ≠ [] :=
          fun x hx => hlast x (getLast?_cons_of_some r _ x hx)
        rw [List.map_cons, consume_cons_ret ctx m r.length (malloc c + t) _ hget, hr]
        by_cases hp0 : p.flatten.length = 0
        · -- the release of `r` frees the segment
          have hpop : nine_queue_pop ctx r.length
              = { ctx.store c ⟨0, 0, malloc c, false⟩ with tail := (c + 1) % NINE_QUEUES } := by
            rw [pop_eq, htail1, hslot]
            simp only [hsmall, hp0, Nat.add_zero]
            rw [if_pos trivial, cursor_next c hc32]
            rfl
          rw [hpop]
          have hpnil : p.flatten = [] := List.length_eq_zero.mp hp0
          cases Rs1 with
          | nil =>
            have hp : p = [] := by
              cases p with
              | nil => rfl
              | cons x xs =>
                exfalso
                have hsome : ∃ y, (x :: xs).getLast? = some y := by
                  cases hg : (x :: xs).getLast? with
                  | none => simp at hg
                  | some y => exact ⟨y, rfl⟩
                obtain ⟨y, hy⟩ := hsome
                have hy1 : y ≠ [] := hlast1 y (by simpa using hy)
                have hy2 : y ∈ x :: xs := List.mem_of_getLast?_eq_some hy
                exact hy1 (List.flatten_eq_nil_iff.mp hpnil y hy2)
            subst hp
            exact ⟨_, rfl⟩
          | cons q Rs2 =>
            have hq := hrest 0 q (by simp)
            obtain ⟨hqslot, hqbound, hqmem⟩ := hq
            have hlen2 : ((r :: p) :: q :: Rs2).length = Rs2.length + 2 := rfl
            have hpq : (p ++ q).flatten = q.flatten := by
              rw [List.flatten_append, hpnil, List.nil_append]
            obtain ⟨c1, hc1⟩ := ih ((p ++ q) :: Rs2)
              { ctx.store c ⟨0, 0, malloc c, false⟩ with tail := (c + 1) % NINE_QUEUES }
              (c + 1) 0
              (by simpa [List.append_assoc] using hn1)
              (by
                intro part hpart
                simp only [List.mem_cons] at hpart
                rcases hpart with h1 | h1
                · rw [h1]
                  have hqne : q ≠ [] := hne q (by simp)
                  intro hcon
                  exact hqne (List.append_eq_nil.mp hcon).2
                · exact hne part (by simp [h1]))
              (by
                intro x hx
                exact hlast1 x (by simpa [List.append_assoc] using hx))
              (by show (ctx.store c _).pool.length = _; rw [store_length]; exact hlen)
              (by
                have : ((p ++ q) :: Rs2).length = Rs2.length + 1 := rfl
                omega)
              rfl
              (by
                intro part hpart
                simp only [List.head?_cons, Option.some.injEq] at hpart
                subst hpart
                rw [hpq, Nat.zero_add, Nat.add_zero]
                refine ⟨?_, hqbound, hqmem⟩
                show (ctx.store c _).slot (c + 1) = _
                rw [slot_store_other ctx c (c + 1) _ (by omega)]
                exact hqslot)
              (by
                intro j part hj
                have hold := hrest (j + 1) part (by simpa using hj)
                apply seg_holds_congr malloc ctx _ m (c + 1 + 1 + j) true part _
                  (by
                    have e : c + 1 + 1 + j = c + 1 + (j + 1) := by omega
                    rw [e]; exact hold)
                show (ctx.store c _).slot (c + 1 + 1 + j) = ctx.slot (c + 1 + 1 + j)
                exact slot_store_other ctx c _ _ (by omega))
            refine ⟨c1, ?_⟩
            have e1 : p ++ (q :: Rs2).flatten = ((p ++ q) :: Rs2).flatten := by simp
            rw [e1, hc1]
            rfl
        · -- the segment stays acquired, with the tail moved past `r`
          have hpop : nine_queue_pop ctx r.length
              = ctx.store c ⟨t + (r.length + p.flatten.length), t + r.length, malloc c, true⟩ := by
            rw [pop_eq, htail1, hslot]
            simp only [hsmall]
            rw [if_neg (by omega)]
          rw [hpop]
          have hpne : p ≠ [] := by
            intro hcon
            rw [hcon] at hp0
            exact hp0 rfl
          obtain ⟨c1, hc1⟩ := ih (p :: Rs1)
            (ctx.store c ⟨t + (r.length + p.flatten.length), t + r.length, malloc c, true⟩)
            c (t + r.length)
            (by simpa using hn1)
            (by
              intro part hpart
              simp only [List.mem_cons] at hpart
              rcases hpart with h1 | h1
              · rw [h1]; exact hpne
              · exact hne part (by simp [h1]))
            (by
              intro x hx
              exact hlast1 x (by simpa using hx))
            (by rw [store_length]; exact hlen)
            (by
              have h1 : (p :: Rs1).length = Rs1.length + 1 := rfl
              have h2 : ((r :: p) :: Rs1).length = Rs1.length + 1 := rfl
              omega)
            htail
            (by
              intro part hpart
              simp only [List.head?_cons, Option.some.injEq] at hpart
              subst hpart
              refine ⟨?_, by omega, ?_⟩
              · rw [slot_store_same ctx c _ hin]
                simp only [nine_queue.mk.injEq, and_true, true_and]
                omega
              · rw [← Nat.add_assoc]; exact hrs)
            (by
              intro j part hj
              have hold := hrest j part (by simpa using hj)
              apply seg_holds_congr malloc ctx _ m (c + 1 + j) true part _ hold
              exact slot_store_other ctx c _ _ (by omega))
          refine ⟨c1, ?_⟩
          have e1 : p ++ Rs1.flatten = (p :: Rs1).flatten := by simp
          rw [e1, hc1]
          rfl

/-! ## Round trip -/

/-- C1, as amended: on a fresh pool whose 32 buffers do not overlap, let the
recorder write any sequence of records, each by `nine_queue_alloc(len)`, a copy
to the returned pointer and `nine_queue_push(len, flush)`, without ever having to
wait, where the last record is not empty and its push has `flush` set.  Then the
replayer's calls `nine_queue_get`, read `len` bytes, `nine_queue_pop(len)`, issued
with the same lengths in the same order, all return, and they read back exactly
the records written, in write order. -/
theorem roundtrip_flushed (malloc : Nat → Nat) (hdis : disjoint_buffers malloc)
    (recs : List (List Nat × Bool)) (m0 : heap) (c : nine_queue_pool) (m : heap)
    (hlast : ∀ r, recs.getLast? = some r → r.2 = true ∧ r.1 ≠ [])
    (hprod : produce (fresh_pool malloc) m0 recs = some (c, m)) :
    ∃ c1, consume c m (recs.map fun r => r.1.length) = some (c1, recs.map Prod.fst) := by
  obtain ⟨parts, cur, hst, hflat, hparts, hnil, hcl⟩ :=
    produce_rec_state malloc hdis recs (fresh_pool malloc) m0 [] [] c m
      (rec_state_init malloc m0) (fun part hp => by simp at hp) hprod
  have hcur : cur = [] := by
    cases hl : recs.getLast? with
    | none =>
      have : recs = [] := List.getLast?_eq_none_iff.mp hl
      exact hnil this
    | some r => exact hcl r hl (hlast r hl).1
  rw [hcur] at hflat
  simp only [List.flatten_nil, List.append_nil, List.nil_append] at hflat
  have hlastne : ∀ r, parts.flatten.getLast? = some r → r ≠ [] := by
    intro r hr
    rw [hflat, List.getLast?_map] at hr
    cases hl : recs.getLast? with
    | none => rw [hl] at hr; cases hr
    | some x =>
      rw [hl] at hr
      have hx : x.1 = r := Option.some.inj hr
      rw [← hx]
      exact (hlast x hl).2
  obtain ⟨c1, hc1⟩ := consume_split malloc m parts.flatten.length parts c 0 0 rfl hparts hlastne
    hst.len (by have := hst.hk; omega) (by rw [hst.tl]; rfl)
    (by
      intro part hpart
      have h0 : parts[0]? = some part := by
        cases parts with
        | nil => simp at hpart
        | cons q qs => simpa using hpart
      obtain ⟨h1, h2, h3⟩ := hst.done 0 part h0
      exact ⟨by rw [Nat.zero_add]; exact h1, by omega, by rw [Nat.add_zero]; exact h3⟩)
    (by
      intro j part hj
      have h1 : parts[j + 1]? = some part := by
        cases parts with
        | nil => simp at hj
        | cons q qs => simpa using hj
      have e : 0 + 1 + j = j + 1 := by omega
      rw [e]
      exact hst.done (j + 1) part h1)
  refine ⟨c1, ?_⟩
  rw [hflat] at hc1
  rw [← hc1, List.map_map]
  rfl

theorem demo_malloc_disjoint : disjoint_buffers demo_malloc := by
  intro i j _ _ hij
  unfold demo_malloc NINE_QUEUE_SIZE
  omega

theorem produce_cons_ret (ctx c : nine_queue_pool) (m : heap) (bytes : List Nat) (flush : Bool)
    (p : Nat) (rest : List (List Nat × Bool))
    (h : nine_queue_alloc ctx bytes.length = .ret c p) :
    produce ctx m ((bytes, flush) :: rest)
      = produce (nine_queue_push c bytes.length flush) (write_bytes m p bytes) rest := by
  conv_lhs => rw [produce]
  rw [h]

/-- C1 on four records: 4000 bytes, then 1000 bytes that do not fit into
segment 0 any more (implicit submit), then an empty record, then 2 bytes with
flush. -/
theorem roundtrip_flushed_witness :
    disjoint_buffers demo_malloc ∧
    (∀ r, [(List.replicate 4000 7, false), (List.replicate 1000 8, false), ([], false),
        ([1, 2], true)].getLast? = some r → r.2 = true ∧ r.1 ≠ []) ∧
    produce (fresh_pool demo_malloc) (fun _ => 0)
        [(List.replicate 4000 7, false), (List.replicate 1000 8, false), ([], false),
          ([1, 2], true)]
      = some
        (nine_queue_push (nine_queue_push (nine_queue_push (nine_queue_submit
            (nine_queue_push (fresh_pool demo_malloc) 4000 false)) 1000 false) 0 false) 2 true,
          write_bytes (write_bytes (write_bytes (write_bytes (fun _ => 0) 4096
            (List.replicate 4000 7)) 8448 (List.replicate 1000 8)) 9448 []) 9448 [1, 2]) ∧
    ∃ c1, consume
        (nine_queue_push (nine_queue_push (nine_queue_push (nine_queue_submit
            (nine_queue_push (fresh_pool demo_malloc) 4000 false)) 1000 false) 0 false) 2 true)
        (write_bytes (write_bytes (write_bytes (write_bytes (fun _ => 0) 4096
            (List.replicate 4000 7)) 8448 (List.replicate 1000 8)) 9448 []) 9448 [1, 2])
        ([(List.replicate 4000 7, false), (List.replicate 1000 8, false), ([], false),
          ([1, 2], true)].map fun r => r.1.length)
      = some (c1, [(List.replicate 4000 7, false), (List.replicate 1000 8, false), ([], false),
          ([1, 2], true)].map Prod.fst) := by
  have hlast : ∀ r, [(List.replicate 4000 7, false), (List.replicate 1000 8, false),
      ([], false), ([1, 2], true)].getLast? = some r → r.2 = true ∧ r.1 ≠ [] := by
    intro r hr
    simp only [List.getLast?_cons_cons, List.getLast?_singleton, Option.some.injEq] at hr
    rw [← hr]
    exact ⟨rfl, List.cons_ne_nil _ _⟩
  have hprod : produce (fresh_pool demo_malloc) (fun _ => 0)
        [(List.replicate 4000 7, false), (List.replicate 1000 8, false), ([], false),
          ([1, 2], true)]
      = some
        (nine_queue_push (nine_queue_push (nine_queue_push (nine_queue_submit
            (nine_queue_push (fresh_pool demo_malloc) 4000 false)) 1000 false) 0 false) 2 true,
          write_bytes (write_bytes (write_bytes (write_bytes (fun _ => 0) 4096
            (List.replicate 4000 7)) 8448 (List.replicate 1000 8)) 9448 []) 9448 [1, 2]) := by
    rw [produce_cons_ret (fresh_pool demo_malloc) (fresh_pool demo_malloc) _ _ _ 4096 _
        (by rw [List.length_replicate]; decide),
      List.length_replicate,
      produce_cons_ret _ (nine_queue_submit (nine_queue_push (fresh_pool demo_malloc) 4000 false))
        _ _ _ 8448 _ (by rw [List.length_replicate]; decide),
      List.length_replicate,
      produce_cons_ret _ (nine_queue_push (nine_queue_submit
        (nine_queue_push (fresh_pool demo_malloc) 4000 false)) 1000 false) _ _ _ 9448 _
        (by decide),
      produce_cons_ret _ (nine_queue_push (nine_queue_push (nine_queue_submit
        (nine_queue_push (fresh_pool demo_malloc) 4000 false)) 1000 false) 0 false) _ _ _ 9448 _
        (by decide)]
    rfl
  exact ⟨demo_malloc_disjoint, hlast, hprod,
    roundtrip_flushed demo_malloc demo_malloc_disjoint _ (fun _ => 0) _ _ hlast hprod⟩

/-- C1 as stated fails.  A single record pushed without flush stays in a segment
that was never submitted, so the replayer's `nine_queue_get` waits and nothing is
read back.  And with a final flush, an empty last record finds its segment
already freed by the release of the record before it, so its `nine_queue_get`
waits on a segment that was never submitted. -/
theorem roundtrip_counterexample :
    (produce (fresh_pool demo_malloc) (fun _ => 0) [([7], false)]
        = some (nine_queue_push (fresh_pool demo_malloc) 1 false,
            write_bytes (fun _ => 0) 4096 [7]) ∧
      consume (nine_queue_push (fresh_pool demo_malloc) 1 false)
        (write_bytes (fun _ => 0) 4096 [7]) ([([7], false)].map fun r => r.1.length) = none) ∧
    (produce (fresh_pool demo_malloc) (fun _ => 0) [([7], false), ([], true)]
        = some (nine_queue_push (nine_queue_push (fresh_pool demo_malloc) 1 false) 0 true,
            write_bytes (write_bytes (fun _ => 0) 4096 [7]) 4097 []) ∧
      consume (nine_queue_push (nine_queue_push (fresh_pool demo_malloc) 1 false) 0 true)
        (write_bytes (write_bytes (fun _ => 0) 4096 [7]) 4097 [])
        ([([7], false), ([], true)].map fun r => r.1.length) = none) := by
  refine ⟨⟨?_, ?_⟩, ⟨?_, ?_⟩⟩
  · rw [produce_cons_ret (fresh_pool demo_malloc) (fresh_pool demo_malloc) _ _ _ 4096 _
      (by decide)]
    rfl
  · decide
  · rw [produce_cons_ret (fresh_pool demo_malloc) (fresh_pool demo_malloc) _ _ _ 4096 _
        (by decide),
      produce_cons_ret _ (nine_queue_push (fresh_pool demo_malloc) 1 false) _ _ _ 4097 _
        (by decide)]
    rfl
  · decide

/-! ## Segment offsets -/

/-- C13: in every state reachable from a fresh pool under the caller protocol
the pool has its 32 segments and each of them satisfies
`tail ≤ head ≤ 4352`. -/
theorem segment_offsets_bounded (malloc : Nat → Nat) (s : sys)
    (hreach : reachable malloc s) :
    s.ctx.pool.length = NINE_QUEUES ∧
    ∀ i, i < NINE_QUEUES →
      (s.ctx.slot i).tail ≤ (s.ctx.slot i).head ∧ (s.ctx.slot i).head ≤ NINE_QUEUE_SIZE := by
  have h := inv_reachable malloc s hreach
  refine ⟨h.len, fun i hi => ?_⟩
  obtain ⟨_, h2, h3, _⟩ := h.seg i hi
  exact ⟨h2, h3⟩

theorem demo_popped_reachable :
    reachable demo_malloc
      { ctx := nine_queue_pop (nine_queue_push (fresh_pool demo_malloc) 4352 true) 4000,
        prod := .idle, acquired := false } :=
  ⟨[.alloc 4352, .push 4352 true, .get, .pop 4000], by decide⟩

/-- C13 in the state where segment 0 was submitted with 4352 bytes and 4000 of
them were released. -/
theorem segment_offsets_bounded_witness :
    reachable demo_malloc
      { ctx := nine_queue_pop (nine_queue_push (fresh_pool demo_malloc) 4352 true) 4000,
        prod := .idle, acquired := false } ∧
    ((nine_queue_pop (nine_queue_push (fresh_pool demo_malloc) 4352 true) 4000).slot 0).tail
      = 4000 ∧
    ((nine_queue_pop (nine_queue_push (fresh_pool demo_malloc) 4352 true) 4000).slot 0).tail
      ≤ ((nine_queue_pop (nine_queue_push (fresh_pool demo_malloc) 4352 true) 4000).slot 0).head ∧
    ((nine_queue_pop (nine_queue_push (fresh_pool demo_malloc) 4352 true) 4000).slot 0).head
      ≤ NINE_QUEUE_SIZE :=
  ⟨demo_popped_reachable, by decide,
    ((segment_offsets_bounded demo_malloc _ demo_popped_reachable).2 0 (by decide)).1,
    ((segment_offsets_bounded demo_malloc _ demo_popped_reachable).2 0 (by decide)).2⟩

/-! ## Side ownership -/

theorem store_out_of_range (ctx : nine_queue_pool) (k : Nat) (q : nine_queue)
    (h : ctx.pool.length ≤ k) : ctx.store k q = ctx := by
  simp [nine_queue_pool.store, List.set_eq_of_length_le h]

/-- A write to `pool[k]` that keeps the tail keeps every segment's tail. -/
theorem slot_store_tail (ctx : nine_queue_pool) (k i : Nat) (q : nine_queue)
    (h : q.tail = (ctx.slot k).tail) : ((ctx.store k q).slot i).tail = (ctx.slot i).tail := by
  by_cases hk : k < ctx.pool.length
  · by_cases hik : i = k
    · rw [hik, slot_store_same ctx k q hk, h]
    · rw [slot_store_other ctx k i q (Ne.symm hik)]
  · rw [store_out_of_range ctx k q (by omega)]

theorem submit_slot_tail (ctx : nine_queue_pool) (i : Nat) :
    ((nine_queue_submit ctx).slot i).tail = (ctx.slot i).tail :=
  slot_store_tail ctx ctx.head i { ctx.slot ctx.head with full := true } rfl

theorem alloc_next_pool (ctx : nine_queue_pool) : (nine_queue_alloc_next ctx).pool = ctx := by
  rw [alloc_next_eq]
  split <;> rfl

/-- The pool after `nine_queue_alloc_wait`: unchanged, or submitted once. -/
theorem alloc_wait_pool (ctx : nine_queue_pool) (space : Nat) :
    (alloc_wait_submits ctx space = [] ∧ (nine_queue_alloc_wait ctx space).pool = ctx) ∨
    (alloc_wait_submits ctx space = [ctx.head] ∧ (ctx.slot ctx.head).full = false ∧
      (nine_queue_alloc_wait ctx space).pool = nine_queue_submit ctx) := by
  rw [alloc_wait_eq]
  unfold alloc_wait_submits
  by_cases hf : (ctx.slot ctx.head).full = true
  · rw [if_pos hf, if_pos hf]
    exact Or.inl ⟨rfl, rfl⟩
  · rw [if_neg hf, if_neg hf]
    by_cases hov : ((ctx.slot ctx.head).head + space) % UINT_RANGE > NINE_QUEUE_SIZE
    · rw [if_pos hov, if_pos hov]
      exact Or.inr ⟨rfl, by simpa using hf, alloc_next_pool _⟩
    · rw [if_neg hov, if_neg hov]
      exact Or.inl ⟨rfl, rfl⟩

/-- The pool after `nine_queue_alloc`: unchanged, or submitted once. -/
theorem alloc_pool (ctx : nine_queue_pool) (space : Nat) :
    (nine_queue_alloc ctx space).pool = ctx ∨
    (nine_queue_alloc ctx space).pool = nine_queue_submit ctx := by
  unfold nine_queue_alloc
  split
  · exact Or.inl rfl
  · rcases alloc_wait_pool ctx space with h | h
    · exact Or.inl h.2
    · exact Or.inr h.2.2

/-- C19: `nine_queue_alloc` (also when resumed from one of its wait loops) and
`nine_queue_push` leave the consumer cursor, every segment's tail and every
segment other than the one at the producer cursor unchanged; `nine_queue_get`
changes nothing and `nine_queue_pop` leaves the producer cursor and every
segment other than the one at the consumer cursor unchanged.  In a state
reachable under the caller protocol a push acts on a segment that is not marked
full and a pop acts on a segment that is marked full. -/
theorem side_ownership (malloc : Nat → Nat) :
    (∀ (ctx : nine_queue_pool) (space i : Nat),
      (nine_queue_alloc ctx space).pool.tail = ctx.tail ∧
      ((nine_queue_alloc ctx space).pool.slot i).tail = (ctx.slot i).tail ∧
      (i ≠ ctx.head → (nine_queue_alloc ctx space).pool.slot i = ctx.slot i) ∧
      (nine_queue_alloc_wait ctx space).pool.tail = ctx.tail ∧
      ((nine_queue_alloc_wait ctx space).pool.slot i).tail = (ctx.slot i).tail ∧
      (i ≠ ctx.head → (nine_queue_alloc_wait ctx space).pool.slot i = ctx.slot i) ∧
      (nine_queue_alloc_next ctx).pool = ctx) ∧
    (∀ (ctx : nine_queue_pool) (space : Nat) (flush : Bool) (i : Nat),
      (nine_queue_push ctx space flush).tail = ctx.tail ∧
      ((nine_queue_push ctx space flush).slot i).tail = (ctx.slot i).tail ∧
      (i ≠ ctx.head → (nine_queue_push ctx space flush).slot i = ctx.slot i)) ∧
    (∀ (ctx : nine_queue_pool), (nine_queue_get ctx).pool = ctx) ∧
    (∀ (ctx : nine_queue_pool) (space i : Nat),
      (nine_queue_pop ctx space).head = ctx.head ∧
      (i ≠ ctx.tail → (nine_queue_pop ctx space).slot i = ctx.slot i)) ∧
    (∀ (s s1 : sys) (space : Nat) (flush : Bool), reachable malloc s →
      step s (.push space flush) = some s1 → (s.ctx.slot s.ctx.head).full = false) ∧
    (∀ (s s1 : sys) (space : Nat), reachable malloc s →
      step s (.pop space) = some s1 → (s.ctx.slot s.ctx.tail).full = true) := by
  have hwait : ∀ (ctx : nine_queue_pool) (space i : Nat),
      (nine_queue_alloc_wait ctx space).pool.tail = ctx.tail ∧
      ((nine_queue_alloc_wait ctx space).pool.slot i).tail = (ctx.slot i).tail ∧
      (i ≠ ctx.head → (nine_queue_alloc_wait ctx space).pool.slot i = ctx.slot i) := by
    intro ctx space i
    rcases alloc_wait_pool ctx space with h | h
    · rw [h.2]; exact ⟨rfl, rfl, fun _ => rfl⟩
    · rw [h.2.2]
      exact ⟨rfl, submit_slot_tail ctx i, fun hi => submit_slot_other ctx i hi⟩
  refine ⟨?_, ?_, ?_, ?_, ?_, ?_⟩
  · intro ctx space i
    obtain ⟨w1, w2, w3⟩ := hwait ctx space i
    refine ⟨?_, ?_, ?_, w1, w2, w3, alloc_next_pool ctx⟩
    · rcases alloc_pool ctx space with h | h
      · rw [h]
      · rw [h]; rfl
    · rcases alloc_pool ctx space with h | h <;> rw [h]
      exact submit_slot_tail ctx i
    · intro hi
      rcases alloc_pool ctx space with h | h <;> rw [h]
      exact submit_slot_other ctx i hi
  · intro ctx space flush i
    have hfalse : nine_queue_push ctx space false = ctx.store ctx.head
        { ctx.slot ctx.head with head := ((ctx.slot ctx.head).head + space) % UINT_RANGE } := rfl
    have ht0 : ((nine_queue_push ctx space false).slot i).tail = (ctx.slot i).tail := by
      rw [hfalse]; exact slot_store_tail ctx ctx.head i _ rfl
    have ho0 : i ≠ ctx.head → (nine_queue_push ctx space false).slot i = ctx.slot i := by
      intro hi; rw [hfalse]; exact slot_store_other ctx ctx.head i _ (Ne.symm hi)
    cases flush with
    | false => exact ⟨rfl, ht0, ho0⟩
    | true =>
      have htrue : nine_queue_push ctx space true
          = nine_queue_submit (nine_queue_push ctx space false) := rfl
      have hh : (nine_queue_push ctx space false).head = ctx.head := rfl
      rw [htrue]
      refine ⟨rfl, by rw [submit_slot_tail, ht0], fun hi => ?_⟩
      rw [submit_slot_other _ i (by rw [hh]; exact hi)]
      exact ho0 hi
  · intro ctx
    rw [get_eq]
    split <;> rfl
  · intro ctx space i
    rw [pop_eq]
    split
    · exact ⟨rfl, fun hi => slot_store_other ctx ctx.tail i _ (Ne.symm hi)⟩
    · exact ⟨rfl, fun hi => slot_store_other ctx ctx.tail i _ (Ne.symm hi)⟩
  · intro s s1 space flush hreach hstep
    have h := inv_reachable malloc s hreach
    have hp := h.prod
    unfold step at hstep
    cases hst : s.prod with
    | idle => rw [hst] at hstep; cases hstep
    | parked_first sp => rw [hst] at hstep; cases hstep
    | parked_second sp => rw [hst] at hstep; cases hstep
    | reserved n => rw [hst] at hp; exact hp.1
  · intro s s1 space hreach hstep
    have h := inv_reachable malloc s hreach
    simp only [step] at hstep
    split at hstep
    · rename_i hc
      exact h.cons hc.1
    · cases hstep

/-- C19 in the state where segment 0 is open with 4000 bytes: a commit is a
protocol step only after a reservation, and then segment 0 is not full. -/
theorem side_ownership_witness :
    reachable demo_malloc { demo_sys with prod := .reserved 100 } ∧
    step { demo_sys with prod := .reserved 100 } (.push 100 true)
      = some { ctx := nine_queue_push demo_sys.ctx 100 true, prod := .idle, acquired := false } ∧
    (demo_sys.ctx.slot demo_sys.ctx.head).full = false :=
  ⟨⟨[.alloc 4000, .push 4000 false, .alloc 100], by decide⟩, by decide,
    (side_ownership demo_malloc).2.2.2.2.1 { demo_sys with prod := .reserved 100 }
      { ctx := nine_queue_push demo_sys.ctx 100 true, prod := .idle, acquired := false } 100 true
      ⟨[.alloc 4000, .push 4000 false, .alloc 100], by decide⟩ (by decide)⟩

/-! ## Drain condition -/

/-- C16 as stated fails: `nine_queue_pop` never reads the full flag.  On a fresh
pool `nine_queue_pop(0)` finds `tail == head` on the never-submitted segment 0
and moves the consumer cursor to 1; on a pool whose segment 0 is open with 5
committed bytes, `nine_queue_pop(5)` resets that segment and moves the consumer
cursor to 1. -/
theorem pop_drain_condition_counterexample :
    ((fresh_pool demo_malloc).slot (fresh_pool demo_malloc).tail) = ⟨0, 0, 4096, false⟩ ∧
    (fresh_pool demo_malloc).tail = 0 ∧
    (nine_queue_pop (fresh_pool demo_malloc) 0).tail = 1 ∧
    (nine_queue_push (fresh_pool demo_malloc) 5 false).slot 0 = ⟨5, 0, 4096, false⟩ ∧
    (nine_queue_pop (nine_queue_push (fresh_pool demo_malloc) 5 false) 5).slot 0
      = ⟨0, 0, 4096, false⟩ ∧
    (nine_queue_pop (nine_queue_push (fresh_pool demo_malloc) 5 false) 5).tail = 1 := by
  decide

/-- C16, as amended: `nine_queue_pop(space)` resets the segment at the consumer
cursor (head 0, tail 0, not full) and moves the consumer cursor one position
forward exactly when the new tail, `tail + space` as an `unsigned`, equals head;
otherwise it only stores the new tail.  The full flag is not tested.  In a state
reachable under the caller protocol every pop acts on a segment that is marked
full, so there the reset happens exactly when `tail + space = head` on a full
segment. -/
theorem pop_resets_iff_tail_meets_head (malloc : Nat → Nat) :
    (∀ (ctx : nine_queue_pool) (space : Nat),
      ctx.pool.length = NINE_QUEUES → ctx.tail < NINE_QUEUES →
      (((ctx.slot ctx.tail).tail + space) % UINT_RANGE = (ctx.slot ctx.tail).head →
        (nine_queue_pop ctx space).slot ctx.tail = ⟨0, 0, (ctx.slot ctx.tail).mem_pool, false⟩ ∧
        (nine_queue_pop ctx space).tail = (ctx.tail + 1) % NINE_QUEUES) ∧
      (((ctx.slot ctx.tail).tail + space) % UINT_RANGE ≠ (ctx.slot ctx.tail).head →
        (nine_queue_pop ctx space).slot ctx.tail
          = { ctx.slot ctx.tail with
              tail := ((ctx.slot ctx.tail).tail + space) % UINT_RANGE } ∧
        (nine_queue_pop ctx space).tail = ctx.tail)) ∧
    (∀ (s s1 : sys) (space : Nat), reachable malloc s → step s (.pop space) = some s1 →
      s1.ctx = nine_queue_pop s.ctx space ∧
      (s.ctx.slot s.ctx.tail).full = true ∧
      ((s.ctx.slot s.ctx.tail).tail + space = (s.ctx.slot s.ctx.tail).head →
        s1.ctx.slot s.ctx.tail = ⟨0, 0, (s.ctx.slot s.ctx.tail).mem_pool, false⟩ ∧
        s1.ctx.tail = (s.ctx.tail + 1) % NINE_QUEUES ∧ s1.ctx.tail ≠ s.ctx.tail) ∧
      ((s.ctx.slot s.ctx.tail).tail + space ≠ (s.ctx.slot s.ctx.tail).head →
        (s1.ctx.slot s.ctx.tail).full = true ∧
        (s1.ctx.slot s.ctx.tail).head = (s.ctx.slot s.ctx.tail).head ∧
        (s1.ctx.slot s.ctx.tail).tail = (s.ctx.slot s.ctx.tail).tail + space ∧
        s1.ctx.tail = s.ctx.tail)) := by
  have hgen : ∀ (ctx : nine_queue_pool) (space : Nat),
      ctx.pool.length = NINE_QUEUES → ctx.tail < NINE_QUEUES →
      (((ctx.slot ctx.tail).tail + space) % UINT_RANGE = (ctx.slot ctx.tail).head →
        (nine_queue_pop ctx space).slot ctx.tail = ⟨0, 0, (ctx.slot ctx.tail).mem_pool, false⟩ ∧
        (nine_queue_pop ctx space).tail = (ctx.tail + 1) % NINE_QUEUES) ∧
      (((ctx.slot ctx.tail).tail + space) % UINT_RANGE ≠ (ctx.slot ctx.tail).head →
        (nine_queue_pop ctx space).slot ctx.tail
          = { ctx.slot ctx.tail with
              tail := ((ctx.slot ctx.tail).tail + space) % UINT_RANGE } ∧
        (nine_queue_pop ctx space).tail = ctx.tail) := by
    intro ctx space hlen htl
    have hin : ctx.tail < ctx.pool.length := by rw [hlen]; exact htl
    constructor
    · intro hd
      rw [pop_eq, if_pos hd]
      exact ⟨slot_store_same ctx ctx.tail _ hin, cursor_next ctx.tail htl⟩
    · intro hd
      rw [pop_eq, if_neg hd]
      exact ⟨slot_store_same ctx ctx.tail _ hin, rfl⟩
  refine ⟨hgen, ?_⟩
  intro s s1 space hreach hstep
  have h := inv_reachable malloc s hreach
  simp only [step] at hstep
  split at hstep
  · rename_i hc
    have hs1 : s1.ctx = nine_queue_pop s.ctx space := by
      rw [← Option.some.inj hstep]
    have hfull := h.cons hc.1
    obtain ⟨_, hth, hhs, _⟩ := h.seg s.ctx.tail h.tl
    have hsmall : ((s.ctx.slot s.ctx.tail).tail + space) % UINT_RANGE
        = (s.ctx.slot s.ctx.tail).tail + space := uint_small _ (by have := hc.2; omega)
    obtain ⟨g1, g2⟩ := hgen s.ctx space h.len h.tl
    rw [hsmall] at g1 g2
    refine ⟨hs1, hfull, ?_, ?_⟩
    · intro hd
      rw [hs1]
      refine ⟨(g1 hd).1, (g1 hd).2, ?_⟩
      rw [(g1 hd).2]
      have := h.tl
      unfold NINE_QUEUES at this ⊢
      omega
    · intro hd
      rw [hs1, (g2 hd).1]
      exact ⟨hfull, rfl, rfl, (g2 hd).2⟩
  · cases hstep

/-- C16 on a pool whose segment 0 was submitted with 10 bytes: the release of
10 bytes after a get frees the segment. -/
theorem pop_resets_iff_tail_meets_head_witness :
    reachable demo_malloc
      { ctx := nine_queue_push (fresh_pool demo_malloc) 10 true, prod := .idle,
        acquired := true } ∧
    step
        { ctx := nine_queue_push (fresh_pool demo_malloc) 10 true, prod := .idle,
          acquired := true } (.pop 10)
      = some
          { ctx := nine_queue_pop (nine_queue_push (fresh_pool demo_malloc) 10 true) 10,
            prod := .idle, acquired := false } ∧
    ((nine_queue_push (fresh_pool demo_malloc) 10 true).slot
      (nine_queue_push (fresh_pool demo_malloc) 10 true).tail).full = true :=
  ⟨⟨[.alloc 10, .push 10 true, .get], by decide⟩, by decide,
    ((pop_resets_iff_tail_meets_head demo_malloc).2
      { ctx := nine_queue_push (fresh_pool demo_malloc) 10 true, prod := .idle, acquired := true }
      { ctx := nine_queue_pop (nine_queue_push (fresh_pool demo_malloc) 10 true) 10,
        prod := .idle, acquired := false } 10
      ⟨[.alloc 10, .push 10 true, .get], by decide⟩ (by decide)).2.1⟩

/-! ## Exact fit -/

/-- C11 as stated fails for size 0: after `nine_queue_alloc(4352)` and
`nine_queue_push(4352, false)` on a fresh pool segment 0 has head 4352, and
`nine_queue_alloc(0)` passes the room test (`4352 + 0 > 4352` is false): it
returns the end of segment 0 and submits nothing. -/
theorem exact_fit_counterexample :
    (init demo_malloc).alloc 4352 = some (.ret (fresh_pool demo_malloc) 4096) ∧
    run (init demo_malloc) [.alloc 4352, .push 4352 false]
      = some { ctx := nine_queue_push (fresh_pool demo_malloc) 4352 false, prod := .idle,
               acquired := false } ∧
    (nine_queue_push (fresh_pool demo_malloc) 4352 false).slot 0 = ⟨4352, 0, 4096, false⟩ ∧
    nine_queue_alloc (nine_queue_push (fresh_pool demo_malloc) 4352 false) 0
      = .ret (nine_queue_push (fresh_pool demo_malloc) 4352 false) 8448 ∧
    (nine_queue_alloc (nine_queue_push (fresh_pool demo_malloc) 4352 false) 0).pool.head = 0 ∧
    ((nine_queue_alloc (nine_queue_push (fresh_pool demo_malloc) 4352 false) 0).pool.slot 0).full
      = false := by
  decide

/-- C11, as amended: in a reachable state, when `nine_queue_alloc(4352)` returns,
the pointer is the buffer start of the producer's current segment and
`nine_queue_push(4352, false)` leaves that segment with head 4352, not marked
full, the producer cursor unmoved.  In every reachable state where the
producer's current segment has head 4352 and is not marked full, the next
`nine_queue_alloc(size)` with `1 ≤ size ≤ 4352` submits that segment (it is
marked full and the producer cursor moves one position forward) before it
returns or waits for the next segment. -/
theorem exact_fit_then_submit (malloc : Nat → Nat) :
    (∀ (s : sys) (c : nine_queue_pool) (p : Nat), reachable malloc s →
      s.alloc 4352 = some (.ret c p) →
      p = malloc c.head ∧
      ((nine_queue_push c 4352 false).slot c.head).head = 4352 ∧
      ((nine_queue_push c 4352 false).slot c.head).full = false ∧
      (nine_queue_push c 4352 false).head = c.head) ∧
    (∀ (s : sys) (size : Nat), reachable malloc s →
      (s.ctx.slot s.ctx.head).head = 4352 → (s.ctx.slot s.ctx.head).full = false →
      1 ≤ size → size ≤ 4352 →
      nine_queue_alloc s.ctx size = nine_queue_alloc_next (nine_queue_submit s.ctx) ∧
      (nine_queue_alloc s.ctx size).pool = nine_queue_submit s.ctx ∧
      ((nine_queue_submit s.ctx).slot s.ctx.head).full = true ∧
      (nine_queue_submit s.ctx).head = (s.ctx.head + 1) % NINE_QUEUES) := by
  constructor
  · intro s c p hreach hret
    have hp := sys_alloc_ret_ptr s 4352 c p hret
    have hi := inv_after_alloc malloc s 4352 _ (inv_reachable malloc s hreach) hret
    have hprod : (c.slot c.head).full = false ∧ (c.slot c.head).head + 4352 ≤ NINE_QUEUE_SIZE :=
      hi.prod
    have hlen : c.pool.length = NINE_QUEUES := hi.len
    have hhd : c.head < NINE_QUEUES := hi.hd
    have hm : (c.slot c.head).mem_pool = malloc c.head := (hi.seg c.head hi.hd).1
    have hzero : (c.slot c.head).head = 0 := by
      have := hprod.2
      unfold NINE_QUEUE_SIZE at this
      omega
    have hin : c.head < c.pool.length := by rw [hlen]; exact hhd
    have hpush : nine_queue_push c 4352 false = c.store c.head
        { c.slot c.head with head := ((c.slot c.head).head + 4352) % UINT_RANGE } := rfl
    rw [hpush, slot_store_same c c.head _ hin, hzero]
    refine ⟨by rw [hp, hzero, hm]; rfl, ?_, hprod.1, rfl⟩
    show (0 + 4352) % UINT_RANGE = 4352
    decide
  · intro s size hreach hhead hnf h1 h2
    have h := inv_reachable malloc s hreach
    have hin : s.ctx.head < s.ctx.pool.length := by rw [h.len]; exact h.hd
    have hsmall : ((s.ctx.slot s.ctx.head).head + size) % UINT_RANGE
        = (s.ctx.slot s.ctx.head).head + size :=
      uint_small _ (by rw [hhead]; unfold NINE_QUEUE_SIZE; omega)
    have hov : ((s.ctx.slot s.ctx.head).head + size) % UINT_RANGE > NINE_QUEUE_SIZE := by
      rw [hsmall, hhead]; unfold NINE_QUEUE_SIZE; omega
    have halloc : nine_queue_alloc s.ctx size
        = nine_queue_alloc_next (nine_queue_submit s.ctx) := by
      unfold nine_queue_alloc
      rw [if_neg (by unfold NINE_QUEUE_SIZE; omega), alloc_wait_eq, if_neg (by simp [hnf]),
        if_pos hov]
    refine ⟨halloc, by rw [halloc, alloc_next_pool], ?_, submit_head s.ctx h.hd⟩
    rw [submit_slot_same s.ctx hin]

/-- C11 on the fresh pool: after the exact fit a request of one byte submits
segment 0 and returns the start of segment 1. -/
theorem exact_fit_then_submit_witness :
    reachable demo_malloc
      { ctx := nine_queue_push (fresh_pool demo_malloc) 4352 false, prod := .idle,
        acquired := false } ∧
    ((nine_queue_push (fresh_pool demo_malloc) 4352 false).slot
      (nine_queue_push (fresh_pool demo_malloc) 4352 false).head).head = 4352 ∧
    ((nine_queue_push (fresh_pool demo_malloc) 4352 false).slot
      (nine_queue_push (fresh_pool demo_malloc) 4352 false).head).full = false ∧
    nine_queue_alloc (nine_queue_push (fresh_pool demo_malloc) 4352 false) 1
      = .ret (nine_queue_submit (nine_queue_push (fresh_pool demo_malloc) 4352 false)) 8448 ∧
    (nine_queue_alloc (nine_queue_push (fresh_pool demo_malloc) 4352 false) 1).pool
      = nine_queue_submit (nine_queue_push (fresh_pool demo_malloc) 4352 false) :=
  ⟨⟨[.alloc 4352, .push 4352 false], by decide⟩, by decide, by decide, by decide,
    ((exact_fit_then_submit demo_malloc).2
      { ctx := nine_queue_push (fresh_pool demo_malloc) 4352 false, prod := .idle,
        acquired := false } 1
      ⟨[.alloc 4352, .push 4352 false], by decide⟩ (by decide) (by decide) (by decide)
      (by decide)).2.1⟩

/-! ## The ring of full segments -/

theorem ring_init (malloc : Nat → Nat) : ring_inv (fresh_pool malloc) 0 0 := by
  refine ⟨le_refl _, Nat.zero_le _, rfl, rfl, ?_⟩
  intro i hi
  rw [slot_fresh malloc i hi]
  simp

theorem ring_congr (c c1 : nine_queue_pool) (a b : Nat)
    (hh : c1.head = c.head) (ht : c1.tail = c.tail)
    (hf : ∀ i, i < NINE_QUEUES → (c1.slot i).full = (c.slot i).full)
    (h : ring_inv c a b) : ring_inv c1 a b := by
  obtain ⟨h1, h2, h3, h4, h5⟩ := h
  refine ⟨h1, h2, by rw [hh]; exact h3, by rw [ht]; exact h4, ?_⟩
  intro i hi
  rw [hf i hi]
  exact h5 i hi

/-- A submit on a segment that is not full adds one segment at the producer
end of the ring. -/
theorem ring_submit (c c1 : nine_queue_pool) (a b : Nat)
    (h : ring_inv c a b) (hnf : (c.slot c.head).full = false)
    (hh : c1.head = (c.head + 1) % NINE_QUEUES) (ht : c1.tail = c.tail)
    (hset : (c1.slot c.head).full = true)
    (hother : ∀ i, i ≠ c.head → (c1.slot i).full = (c.slot i).full) :
    ring_inv c1 (a + 1) b ∧ c.head = a % NINE_QUEUES ∧ a < b + NINE_QUEUES := by
  unfold ring_inv at h ⊢
  obtain ⟨h1, h2, h3, h4, h5⟩ := h
  unfold NINE_QUEUES at *
  have hk := h5 (a % 32) (by omega)
  have hs : c.slot (a % 32) = c.slot c.head := by rw [h3]
  rw [hs, hnf] at hk
  have hlt : a - b < 32 := by
    by_contra hcon
    have : (a % 32 + 32 - b % 32) % 32 < a - b := by omega
    exact absurd (hk.2 this) (by simp)
  refine ⟨⟨by omega, by omega, by rw [hh, h3]; omega, by rw [ht]; exact h4, ?_⟩, h3, by omega⟩
  intro i hi
  by_cases hia : i = c.head
  · rw [hia, hset, h3]
    constructor
    · intro _; omega
    · intro _; rfl
  · rw [hother i hia]
    have hold := h5 i hi
    rw [h3] at hia
    constructor
    · intro hf
      have := hold.1 hf
      omega
    · intro hlt1
      apply hold.2
      omega

/-- Freeing the full segment at the consumer cursor removes one segment at the
consumer end of the ring. -/
theorem ring_free (c c1 : nine_queue_pool) (a b : Nat)
    (h : ring_inv c a b) (hfull : (c.slot c.tail).full = true)
    (hh : c1.head = c.head) (ht : c1.tail = (c.tail + 1) % NINE_QUEUES)
    (hset : (c1.slot c.tail).full = false)
    (hother : ∀ i, i ≠ c.tail → (c1.slot i).full = (c.slot i).full) :
    ring_inv c1 a (b + 1) ∧ c.tail = b % NINE_QUEUES ∧ b < a := by
  unfold ring_inv at h ⊢
  obtain ⟨h1, h2, h3, h4, h5⟩ := h
  unfold NINE_QUEUES at *
  have hk := h5 (b % 32) (by omega)
  have hs : c.slot (b % 32) = c.slot c.tail := by rw [h4]
  rw [hs, hfull] at hk
  have hlt : b < a := by
    have := hk.1 rfl
    omega
  refine ⟨⟨by omega, by omega, by rw [hh]; exact h3, by rw [ht, h4]; omega, ?_⟩, h4, hlt⟩
  intro i hi
  by_cases hib : i = c.tail
  · rw [hib, hset, h4]
    constructor
    · intro hf; cases hf
    · intro hlt1; omega
  · rw [hother i hib]
    have hold := h5 i hi
    rw [h4] at hib
    constructor
    · intro hf
      have := hold.1 hf
      omega
    · intro hlt1
      apply hold.2
      omega

theorem after_alloc_ctx (s : sys) (sp : Nat) (r : alloc_result) :
    (after_alloc s sp r).ctx = r.pool := by
  cases r <;> rfl

theorem ring_submit_pool (ctx : nine_queue_pool) (a b : Nat)
    (hlen : ctx.pool.length = NINE_QUEUES) (hhd : ctx.head < NINE_QUEUES)
    (h : ring_inv ctx a b) (hnf : (ctx.slot ctx.head).full = false) :
    ring_inv (nine_queue_submit ctx) (a + 1) b ∧ ctx.head = a % NINE_QUEUES ∧
      a < b + NINE_QUEUES := by
  have hin : ctx.head < ctx.pool.length := by rw [hlen]; exact hhd
  refine ring_submit ctx (nine_queue_submit ctx) a b h hnf (submit_head ctx hhd) rfl ?_ ?_
  · rw [submit_slot_same ctx hin]
  · intro i hi
    rw [submit_slot_other ctx i hi]

theorem ring_alloc_wait (ctx : nine_queue_pool) (sp a b : Nat)
    (hlen : ctx.pool.length = NINE_QUEUES) (hhd : ctx.head < NINE_QUEUES)
    (h : ring_inv ctx a b) :
    ring_inv (nine_queue_alloc_wait ctx sp).pool (a + (alloc_wait_submits ctx sp).length) b ∧
    (alloc_wait_submits ctx sp = [] ∨
      (alloc_wait_submits ctx sp = [a % NINE_QUEUES] ∧ (ctx.slot ctx.head).full = false ∧
        a < b + NINE_QUEUES)) := by
  rcases alloc_wait_pool ctx sp with ⟨h1, h2⟩ | ⟨h1, h2, h3⟩
  · rw [h1, h2]
    exact ⟨h, Or.inl rfl⟩
  · obtain ⟨g1, g2, g3⟩ := ring_submit_pool ctx a b hlen hhd h h2
    rw [h1, h3]
    exact ⟨g1, Or.inr ⟨by rw [g2], h2, g3⟩⟩

/-- One protocol step moves the ring by the submit and the free it logs. -/
theorem ring_step (malloc : Nat → Nat) (s s1 : sys) (o : op) (a b : Nat)
    (hinv : inv malloc s) (hring : ring_inv s.ctx a b) (hstep : step s o = some s1) :
    ring_inv s1.ctx (a + (step_submits s o).length) (b + (step_frees s o).length) ∧
    (step_submits s o = [] ∨
      (step_submits s o = [a % NINE_QUEUES] ∧ (s.ctx.slot s.ctx.head).full = false ∧
        a < b + NINE_QUEUES)) ∧
    (step_frees s o = [] ∨
      (step_frees s o = [b % NINE_QUEUES] ∧ (s.ctx.slot s.ctx.tail).full = true ∧ b < a)) := by
  have hfresh : ∀ space, some (after_alloc s space (nine_queue_alloc s.ctx space)) = some s1 →
      ring_inv s1.ctx
        (a + (if space > NINE_QUEUE_SIZE then [] else alloc_wait_submits s.ctx space).length) b ∧
      ((if space > NINE_QUEUE_SIZE then [] else alloc_wait_submits s.ctx space) = [] ∨
        ((if space > NINE_QUEUE_SIZE then [] else alloc_wait_submits s.ctx space)
            = [a % NINE_QUEUES] ∧ (s.ctx.slot s.ctx.head).full = false ∧
          a < b + NINE_QUEUES)) := by
    intro space e
    rw [← Option.some.inj e, after_alloc_ctx]
    unfold nine_queue_alloc
    by_cases hbig : space > NINE_QUEUE_SIZE
    · rw [if_pos hbig, if_pos hbig]
      exact ⟨hring, Or.inl rfl⟩
    · rw [if_neg hbig, if_neg hbig]
      exact ring_alloc_wait s.ctx space a b hinv.len hinv.hd hring
  cases o with
  | alloc space =>
    unfold step at hstep
    have hfr : step_frees s (.alloc space) = [] := rfl
    rw [hfr]
    cases hst : s.prod with
    | idle =>
      rw [hst] at hstep
      have hsub : step_submits s (.alloc space)
          = if space > NINE_QUEUE_SIZE then [] else alloc_wait_submits s.ctx space := by
        simp only [step_submits, hst]
      rw [hsub]
      have e : some (after_alloc s space (nine_queue_alloc s.ctx space)) = some s1 := by
        simpa [sys.alloc, hst] using hstep
      exact ⟨(hfresh space e).1, (hfresh space e).2, Or.inl rfl⟩
    | reserved n =>
      rw [hst] at hstep
      have hsub : step_submits s (.alloc space)
          = if space > NINE_QUEUE_SIZE then [] else alloc_wait_submits s.ctx space := by
        simp only [step_submits, hst]
      rw [hsub]
      have e : some (after_alloc s space (nine_queue_alloc s.ctx space)) = some s1 := by
        simpa [sys.alloc, hst] using hstep
      exact ⟨(hfresh space e).1, (hfresh space e).2, Or.inl rfl⟩
    | parked_first sp => rw [hst] at hstep; cases hstep
    | parked_second sp => rw [hst] at hstep; cases hstep
  | resume =>
    unfold step at hstep
    have hfr : step_frees s .resume = [] := rfl
    rw [hfr]
    cases hst : s.prod with
    | idle => rw [hst] at hstep; cases hstep
    | reserved n => rw [hst] at hstep; cases hstep
    | parked_first sp =>
      rw [hst] at hstep
      have hsub : step_submits s .resume = alloc_wait_submits s.ctx sp := by
        simp only [step_submits, hst]
      rw [hsub]
      have e : some (after_alloc s sp (nine_queue_alloc_wait s.ctx sp)) = some s1 := by
        simpa [sys.alloc, hst] using hstep
      rw [← Option.some.inj e, after_alloc_ctx]
      have hw := ring_alloc_wait s.ctx sp a b hinv.len hinv.hd hring
      exact ⟨hw.1, hw.2, Or.inl rfl⟩
    | parked_second sp =>
      rw [hst] at hstep
      have hsub : step_submits s .resume = [] := by
        simp only [step_submits, hst]
      rw [hsub]
      have e : some (after_alloc s sp (nine_queue_alloc_next s.ctx)) = some s1 := by
        simpa [sys.alloc, hst] using hstep
      rw [← Option.some.inj e, after_alloc_ctx, alloc_next_pool]
      exact ⟨hring, Or.inl rfl, Or.inl rfl⟩
  | push space flush =>
    unfold step at hstep
    have hfr : step_frees s (.push space flush) = [] := rfl
    rw [hfr]
    have hp := hinv.prod
    cases hst : s.prod with
    | idle => rw [hst] at hstep; cases hstep
    | parked_first sp => rw [hst] at hstep; cases hstep
    | parked_second sp => rw [hst] at hstep; cases hstep
    | reserved n =>
      rw [hst] at hstep hp
      simp only at hstep
      split at hstep
      · rename_i hle
        rw [← Option.some.inj hstep]
        obtain ⟨hl1, hh1, ht1, _, hf1⟩ :=
          commit_facts malloc s.ctx space hinv.len hinv.hd hinv.seg hp.1 (by have := hp.2; omega)
        have hr1 : ring_inv (nine_queue_push s.ctx space false) a b :=
          ring_congr s.ctx _ a b hh1 ht1 (fun i _ => hf1 i) hring
        cases flush with
        | false =>
          exact ⟨hr1, Or.inl rfl, Or.inl rfl⟩
        | true =>
          have hnf1 : ((nine_queue_push s.ctx space false).slot
              (nine_queue_push s.ctx space false).head).full = false := by
            rw [hf1, hh1]; exact hp.1
          obtain ⟨g1, g2, g3⟩ := ring_submit_pool (nine_queue_push s.ctx space false) a b hl1
            (by rw [hh1]; exact hinv.hd) hr1 hnf1
          have hsub : step_submits s (.push space true) = [s.ctx.head] := rfl
          rw [hsub]
          rw [hh1] at g2
          exact ⟨g1, Or.inr ⟨by rw [g2], hp.1, g3⟩, Or.inl rfl⟩
      · cases hstep
  | get =>
    unfold step at hstep
    have hsub : step_submits s .get = [] := rfl
    have hfr : step_frees s .get = [] := rfl
    rw [hsub, hfr]
    rw [get_eq] at hstep
    by_cases hf : (s.ctx.slot s.ctx.tail).full = true
    · rw [if_pos hf] at hstep
      rw [← Option.some.inj hstep]
      exact ⟨hring, Or.inl rfl, Or.inl rfl⟩
    · rw [if_neg hf] at hstep
      rw [← Option.some.inj hstep]
      exact ⟨hring, Or.inl rfl, Or.inl rfl⟩
  | pop space =>
    simp only [step] at hstep
    have hsub : step_submits s (.pop space) = [] := rfl
    rw [hsub]
    split at hstep
    · rename_i hc
      rw [← Option.some.inj hstep]
      have hfull := hinv.cons hc.1
      have hin : s.ctx.tail < s.ctx.pool.length := by rw [hinv.len]; exact hinv.tl
      show ring_inv (nine_queue_pop s.ctx space) _ _ ∧ _
      by_cases hd : ((s.ctx.slot s.ctx.tail).tail + space) % UINT_RANGE
          = (s.ctx.slot s.ctx.tail).head
      · have hfr : step_frees s (.pop space) = [s.ctx.tail] := by
          simp only [step_frees, if_pos hd]
        rw [hfr, pop_eq, if_pos hd]
        obtain ⟨g1, g2, g3⟩ := ring_free s.ctx
          { s.ctx.store s.ctx.tail ⟨0, 0, (s.ctx.slot s.ctx.tail).mem_pool, false⟩ with
            tail := ((s.ctx.tail + 1) % UINT_RANGE) &&& NINE_QUEUES_MASK } a b hring hfull rfl
          (cursor_next s.ctx.tail hinv.tl)
          (by
            show ((s.ctx.store s.ctx.tail _).slot s.ctx.tail).full = false
            rw [slot_store_same s.ctx s.ctx.tail _ hin])
          (by
            intro i hi
            show ((s.ctx.store s.ctx.tail _).slot i).full = _
            rw [slot_store_other s.ctx s.ctx.tail i _ (Ne.symm hi)])
        exact ⟨g1, Or.inl rfl, Or.inr ⟨by rw [g2], hfull, g3⟩⟩
      · have hfr : step_frees s (.pop space) = [] := by
          simp only [step_frees, if_neg hd]
        rw [hfr, pop_eq, if_neg hd]
        refine ⟨ring_congr s.ctx _ a b rfl rfl ?_ hring, Or.inl rfl, Or.inl rfl⟩
        intro i _
        by_cases hi : i = s.ctx.tail
        · rw [hi, slot_store_same s.ctx s.ctx.tail _ hin]
        · rw [slot_store_other s.ctx s.ctx.tail i _ (Ne.symm hi)]
    · cases hstep

/-! ## Runs with their log of submitted and freed segments -/

theorem cursor_order_succ (n : Nat) :
    cursor_order (n + 1) = cursor_order n ++ [n % NINE_QUEUES] := by
  simp [cursor_order, List.range_succ]

theorem cursor_order_length (n : Nat) : (cursor_order n).length = n := by
  simp [cursor_order]

theorem log_extend (l : List Nat) (n k : Nat) (d : List Nat) (hl : l = cursor_order n)
    (hn : l.length = n) (hk : k = n % NINE_QUEUES) (hd : d = [] ∨ d = [k]) :
    l ++ d = cursor_order (l ++ d).length := by
  rcases hd with hd | hd
  · rw [hd, List.append_nil, hn]; exact hl
  · rw [hd, List.length_append, hn, List.length_singleton, cursor_order_succ, ← hl, hk]

theorem trace_inv (malloc : Nat → Nat) (ops : List op) :
    ∀ (s : sys) (sub fr : List Nat) (s1 : sys) (sub1 fr1 : List Nat),
      inv malloc s → ring_inv s.ctx sub.length fr.length →
      sub = cursor_order sub.length → fr = cursor_order fr.length →
      trace s sub fr ops = some (s1, sub1, fr1) →
      inv malloc s1 ∧ ring_inv s1.ctx sub1.length fr1.length ∧
      sub1 = cursor_order sub1.length ∧ fr1 = cursor_order fr1.length := by
  induction ops with
  | nil =>
    intro s sub fr s1 sub1 fr1 hinv hring hsub hfr htr
    have e : (s, sub, fr) = (s1, sub1, fr1) := Option.some.inj htr
    cases e
    exact ⟨hinv, hring, hsub, hfr⟩
  | cons o os ih =>
    intro s sub fr s1 sub1 fr1 hinv hring hsub hfr htr
    unfold trace at htr
    cases hs : step s o with
    | none => rw [hs] at htr; cases htr
    | some s2 =>
      rw [hs] at htr
      simp only at htr
      obtain ⟨hr2, hsd, hfd⟩ := ring_step malloc s s2 o sub.length fr.length hinv hring hs
      have hsd1 : step_submits s o = [] ∨ step_submits s o = [sub.length % NINE_QUEUES] := by
        rcases hsd with h | h
        · exact Or.inl h
        · exact Or.inr h.1
      have hfd1 : step_frees s o = [] ∨ step_frees s o = [fr.length % NINE_QUEUES] := by
        rcases hfd with h | h
        · exact Or.inl h
        · exact Or.inr h.1
      apply ih s2 (sub ++ step_submits s o) (fr ++ step_frees s o) s1 sub1 fr1
        (inv_step malloc s s2 o hinv hs)
      · rw [List.length_append, List.length_append]; exact hr2
      · exact log_extend sub sub.length _ _ hsub rfl rfl hsd1
      · exact log_extend fr fr.length _ _ hfr rfl rfl hfd1
      · exact htr

theorem trace_of_run (ops : List op) :
    ∀ (s : sys) (sub fr : List Nat) (s1 : sys), run s ops = some s1 →
      ∃ sub1 fr1, trace s sub fr ops = some (s1, sub1, fr1) := by
  induction ops with
  | nil =>
    intro s sub fr s1 hr
    rw [← Option.some.inj hr]
    exact ⟨sub, fr, rfl⟩
  | cons o os ih =>
    intro s sub fr s1 hr
    unfold run at hr
    unfold trace
    cases hs : step s o with
    | none => rw [hs] at hr; cases hr
    | some s2 =>
      rw [hs] at hr
      exact ih s2 _ _ s1 hr

theorem run_of_trace (ops : List op) :
    ∀ (s : sys) (sub fr : List Nat) (s1 : sys) (sub1 fr1 : List Nat),
      trace s sub fr ops = some (s1, sub1, fr1) → run s ops = some s1 := by
  induction ops with
  | nil =>
    intro s sub fr s1 sub1 fr1 htr
    have e : (s, sub, fr) = (s1, sub1, fr1) := Option.some.inj htr
    cases e
    rfl
  | cons o os ih =>
    intro s sub fr s1 sub1 fr1 htr
    unfold trace at htr
    unfold run
    cases hs : step s o with
    | none => rw [hs] at htr; cases htr
    | some s2 =>
      rw [hs] at htr
      exact ih s2 _ _ s1 sub1 fr1 htr

/-- What a logged run from a fresh pool leaves. -/
theorem trace_init (malloc : Nat → Nat) (ops : List op) (s : sys) (sub fr : List Nat)
    (h : trace (init malloc) [] [] ops = some (s, sub, fr)) :
    inv malloc s ∧ ring_inv s.ctx sub.length fr.length ∧
    sub = cursor_order sub.length ∧ fr = cursor_order fr.length :=
  trace_inv malloc ops (init malloc) [] [] s sub fr (inv_init malloc) (ring_init malloc) rfl rfl h

/-- Every reachable state has the ring shape, for some counts. -/
theorem ring_reachable (malloc : Nat → Nat) (s : sys) (h : reachable malloc s) :
    ∃ a b, ring_inv s.ctx a b := by
  obtain ⟨ops, hr⟩ := h
  obtain ⟨sub, fr, htr⟩ := trace_of_run ops (init malloc) [] [] s hr
  exact ⟨sub.length, fr.length, (trace_init malloc ops s sub fr htr).2.1⟩

theorem ring_all_full (c : nine_queue_pool) (a b : Nat) (h : ring_inv c a b)
    (hf : (c.slot c.head).full = true) :
    a = b + NINE_QUEUES ∧ ∀ i, i < NINE_QUEUES → (c.slot i).full = true := by
  unfold ring_inv at h
  obtain ⟨h1, h2, h3, h4, h5⟩ := h
  unfold NINE_QUEUES at *
  have hk := h5 (a % 32) (by omega)
  have hs : c.slot (a % 32) = c.slot c.head := by rw [h3]
  rw [hs, hf] at hk
  have h32 : a = b + 32 := by
    have := hk.1 rfl
    omega
  refine ⟨h32, fun i hi => (h5 i hi).2 ?_⟩
  omega

theorem ring_none_full (c : nine_queue_pool) (a b : Nat) (h : ring_inv c a b)
    (hf : (c.slot c.tail).full = false) :
    a = b ∧ ∀ i, i < NINE_QUEUES → (c.slot i).full = false := by
  unfold ring_inv at h
  obtain ⟨h1, h2, h3, h4, h5⟩ := h
  unfold NINE_QUEUES at *
  have hk := h5 (b % 32) (by omega)
  have hs : c.slot (b % 32) = c.slot c.tail := by rw [h4]
  rw [hs, hf] at hk
  have hab : a = b := by
    by_contra hne
    have : (b % 32 + 32 - b % 32) % 32 < a - b := by omega
    exact absurd (hk.2 this) (by simp)
  refine ⟨hab, fun i hi => ?_⟩
  cases hfi : (c.slot i).full with
  | false => rfl
  | true =>
    have := (h5 i hi).1 hfi
    omega

/-! ## Who waits when -/

theorem run_snoc (ops : List op) (o : op) :
    ∀ (s s1 s2 : sys), run s ops = some s1 → step s1 o = some s2 →
      run s (ops ++ [o]) = some s2 := by
  induction ops with
  | nil =>
    intro s s1 s2 hr hs
    rw [← Option.some.inj hr] at hs
    simp [run, hs]
  | cons x xs ih =>
    intro s s1 s2 hr hs
    unfold run at hr
    cases hx : step s x with
    | none => rw [hx] at hr; cases hr
    | some s3 =>
      rw [hx] at hr
      show run s (x :: (xs ++ [o])) = some s2
      unfold run
      rw [hx]
      exact ih s3 s1 s2 hr hs

theorem reachable_step (malloc : Nat → Nat) (s s1 : sys) (o : op)
    (h : reachable malloc s) (hs : step s o = some s1) : reachable malloc s1 := by
  obtain ⟨ops, hr⟩ := h
  exact ⟨ops ++ [o], run_snoc ops o _ s s1 hr hs⟩

/-- What the producer thread runs is a protocol step: a call, or the rest of a
call after a wait. -/
theorem sys_alloc_step (s : sys) (space : Nat) (r : alloc_result)
    (h : s.alloc space = some r) :
    step s (.alloc space) = some (after_alloc s space r) ∨
    step s .resume = some (after_alloc s space r) := by
  unfold sys.alloc at h
  cases hst : s.prod with
  | idle =>
    left
    simp only [step, sys.alloc, hst]
    rw [hst] at h
    simp only at h
    rw [← Option.some.inj h]
    rfl
  | reserved n =>
    left
    simp only [step, sys.alloc, hst]
    rw [hst] at h
    simp only at h
    rw [← Option.some.inj h]
    rfl
  | parked_first sp =>
    right
    rw [hst] at h
    simp only at h
    split at h
    · rename_i hsp
      subst hsp
      simp only [step, sys.alloc, hst, if_true]
      rw [← Option.some.inj h]
      rfl
    · cases h
  | parked_second sp =>
    right
    rw [hst] at h
    simp only at h
    split at h
    · rename_i hsp
      subst hsp
      simp only [step, sys.alloc, hst, if_true]
      rw [← Option.some.inj h]
      rfl
    · cases h

theorem alloc_next_waits (ctx c : nine_queue_pool)
    (h : nine_queue_alloc_next ctx = .wait_first c ∨ nine_queue_alloc_next ctx = .wait_second c) :
    (c.slot c.head).full = true := by
  rw [alloc_next_eq] at h
  by_cases hf : (ctx.slot ctx.head).full = true
  · rw [if_pos hf] at h
    rcases h with h | h
    · cases h
    · cases h; exact hf
  · rw [if_neg hf] at h
    rcases h with h | h <;> cases h

theorem alloc_wait_waits (ctx c : nine_queue_pool) (space : Nat)
    (h : nine_queue_alloc_wait ctx space = .wait_first c ∨
      nine_queue_alloc_wait ctx space = .wait_second c) :
    (c.slot c.head).full = true := by
  rw [alloc_wait_eq] at h
  by_cases hf : (ctx.slot ctx.head).full = true
  · rw [if_pos hf] at h
    rcases h with h | h
    · cases h; exact hf
    · cases h
  · rw [if_neg hf] at h
    split at h
    · exact alloc_next_waits _ c h
    · rcases h with h | h <;> cases h

theorem sys_alloc_waits (s : sys) (space : Nat) (c : nine_queue_pool)
    (h : s.alloc space = some (.wait_first c) ∨ s.alloc space = some (.wait_second c)) :
    (c.slot c.head).full = true := by
  have hfresh : (some (nine_queue_alloc s.ctx space) = some (.wait_first c) ∨
      some (nine_queue_alloc s.ctx space) = some (.wait_second c)) →
      (c.slot c.head).full = true := by
    intro e
    have e1 : nine_queue_alloc s.ctx space = .wait_first c ∨
        nine_queue_alloc s.ctx space = .wait_second c := by
      rcases e with e | e
      · exact Or.inl (Option.some.inj e)
      · exact Or.inr (Option.some.inj e)
    unfold nine_queue_alloc at e1
    split at e1
    · rcases e1 with e1 | e1 <;> cases e1
    · exact alloc_wait_waits _ c space e1
  unfold sys.alloc at h
  cases hst : s.prod with
  | idle => rw [hst] at h; exact hfresh h
  | reserved n => rw [hst] at h; exact hfresh h
  | parked_first sp =>
    rw [hst] at h
    simp only at h
    by_cases hsp : space = sp
    · rw [if_pos hsp] at h
      apply alloc_wait_waits s.ctx c sp
      rcases h with h | h
      · exact Or.inl (Option.some.inj h)
      · exact Or.inr (Option.some.inj h)
    · rw [if_neg hsp] at h
      rcases h with h | h <;> cases h
  | parked_second sp =>
    rw [hst] at h
    simp only at h
    by_cases hsp : space = sp
    · rw [if_pos hsp] at h
      apply alloc_next_waits s.ctx c
      rcases h with h | h
      · exact Or.inl (Option.some.inj h)
      · exact Or.inr (Option.some.inj h)
    · rw [if_neg hsp] at h
      rcases h with h | h <;> cases h

/-- C18: in every state reachable under the caller protocol, the state inside
`nine_queue_alloc` after its implicit submit included: when the producer's
`nine_queue_alloc` waits, in its first or its second loop, all 32 segments are
marked full (indeed whenever the segment at the producer cursor is marked full);
the consumer's `nine_queue_get` waits exactly when no segment is marked full;
so the two sides never wait at the same time. -/
theorem who_blocks_when (malloc : Nat → Nat) (s : sys) (hreach : reachable malloc s) :
    (∀ space c,
      (s.alloc space = some (.wait_first c) ∨ s.alloc space = some (.wait_second c)) →
      ∀ i, i < NINE_QUEUES → (c.slot i).full = true) ∧
    ((s.ctx.slot s.ctx.head).full = true →
      ∀ i, i < NINE_QUEUES → (s.ctx.slot i).full = true) ∧
    (nine_queue_get s.ctx = .wait s.ctx ↔
      ∀ i, i < NINE_QUEUES → (s.ctx.slot i).full = false) ∧
    ¬ ((s.ctx.slot s.ctx.head).full = true ∧ nine_queue_get s.ctx = .wait s.ctx) := by
  have hinv := inv_reachable malloc s hreach
  obtain ⟨a, b, hring⟩ := ring_reachable malloc s hreach
  have hget : nine_queue_get s.ctx = .wait s.ctx ↔
      ∀ i, i < NINE_QUEUES → (s.ctx.slot i).full = false := by
    rw [get_eq]
    constructor
    · intro hw
      by_cases hf : (s.ctx.slot s.ctx.tail).full = true
      · rw [if_pos hf] at hw; cases hw
      · exact (ring_none_full s.ctx a b hring (by simpa using hf)).2
    · intro hall
      rw [if_neg (by rw [hall s.ctx.tail hinv.tl]; simp)]
  refine ⟨?_, fun hf => (ring_all_full s.ctx a b hring hf).2, hget, ?_⟩
  · intro space c hw
    have hcf := sys_alloc_waits s space c hw
    have hreach1 : ∃ r, (after_alloc s space r).ctx = c ∧
        reachable malloc (after_alloc s space r) := by
      rcases hw with hw | hw
      · refine ⟨.wait_first c, rfl, ?_⟩
        rcases sys_alloc_step s space _ hw with hs | hs
        · exact reachable_step malloc s _ _ hreach hs
        · exact reachable_step malloc s _ _ hreach hs
      · refine ⟨.wait_second c, rfl, ?_⟩
        rcases sys_alloc_step s space _ hw with hs | hs
        · exact reachable_step malloc s _ _ hreach hs
        · exact reachable_step malloc s _ _ hreach hs
    obtain ⟨r, hc, hr⟩ := hreach1
    obtain ⟨a1, b1, hring1⟩ := ring_reachable malloc _ hr
    rw [hc] at hring1
    exact (ring_all_full c a1 b1 hring1 hcf).2
  · rintro ⟨hf, hw⟩
    have h1 := (ring_all_full s.ctx a b hring hf).2 s.ctx.tail hinv.tl
    have h2 := hget.1 hw s.ctx.tail hinv.tl
    rw [h1] at h2
    cases h2

set_option maxRecDepth 100000 in
theorem demo_full_reachable :
    reachable demo_malloc { ctx := demo_full_pool, prod := .idle, acquired := false } :=
  ⟨rounds_ops (List.replicate 32 10), by decide⟩

/-- C18 on the pool with all 32 segments submitted: the producer waits, the
consumer does not. -/
theorem who_blocks_when_witness :
    reachable demo_malloc { ctx := demo_full_pool, prod := .idle, acquired := false } ∧
    (demo_full_pool.slot demo_full_pool.head).full = true ∧
    (∀ i, i < NINE_QUEUES → (demo_full_pool.slot i).full = true) ∧
    ¬ ((demo_full_pool.slot demo_full_pool.head).full = true ∧
        nine_queue_get demo_full_pool = .wait demo_full_pool) :=
  ⟨demo_full_reachable, by decide,
    (who_blocks_when demo_malloc _ demo_full_reachable).2.1 (by decide),
    (who_blocks_when demo_malloc _ demo_full_reachable).2.2.2⟩

/-! ## Initial state -/

theorem create_some (calloc_ok : Bool) (malloc : Nat → Nat) (ctx : nine_queue_pool)
    (h : nine_queue_create calloc_ok malloc = some ctx) :
    ctx = fresh_pool malloc ∧ ∀ i, i < NINE_QUEUES → malloc i ≠ 0 := by
  unfold nine_queue_create at h
  split at h
  · cases h
  · split at h
    · cases h
    · rename_i hany
      refine ⟨(Option.some.inj h).symm, ?_⟩
      intro i hi hz
      apply hany
      rw [List.any_eq_true]
      exact ⟨i, List.mem_range.mpr hi, by simp [hz]⟩

/-- C17: a pool returned by a successful `nine_queue_create` has 32 segments,
each with a non-`NULL` buffer obtained by `MALLOC(4352)`, head 0, tail 0 and not
marked full, and both cursors are 0.  On it `nine_queue_alloc(space)` with
`space ≤ 4352` returns the buffer start of segment 0 without waiting and leaves
the pool unchanged, `nine_queue_get` waits, and `nine_queue_get` still waits
after any run of protocol steps in which nothing was submitted. -/
theorem create_initial_state (calloc_ok : Bool) (malloc : Nat → Nat) (ctx : nine_queue_pool)
    (h : nine_queue_create calloc_ok malloc = some ctx) :
    ctx.pool.length = 32 ∧ NINE_QUEUES = 32 ∧ NINE_QUEUE_SIZE = 4352 ∧
    (∀ i, i < 32 → malloc_request i = 4352 ∧ malloc i ≠ 0 ∧
      ctx.slot i = ⟨0, 0, malloc i, false⟩) ∧
    ctx.head = 0 ∧ ctx.tail = 0 ∧
    (∀ space, space ≤ 4352 → nine_queue_alloc ctx space = .ret ctx (malloc 0)) ∧
    nine_queue_get ctx = .wait ctx ∧
    (∀ ops s fr,
      trace { ctx := ctx, prod := .idle, acquired := false } [] [] ops = some (s, [], fr) →
      nine_queue_get s.ctx = .wait s.ctx) := by
  obtain ⟨hctx, hnn⟩ := create_some calloc_ok malloc ctx h
  subst hctx
  have h0 : (fresh_pool malloc).slot 0 = ⟨0, 0, malloc 0, false⟩ :=
    slot_fresh malloc 0 (by decide)
  refine ⟨by simp [fresh_pool, NINE_QUEUES], rfl, rfl, ?_, rfl, rfl, ?_, ?_, ?_⟩
  · intro i hi
    exact ⟨rfl, hnn i hi, slot_fresh malloc i hi⟩
  · intro space hsp
    have hhead : (fresh_pool malloc).head = 0 := rfl
    unfold nine_queue_alloc
    rw [if_neg (by unfold NINE_QUEUE_SIZE; omega), alloc_wait_eq, hhead, h0]
    simp only
    rw [if_neg (by simp),
      if_neg (by rw [Nat.zero_add, uint_small space (by unfold NINE_QUEUE_SIZE; omega)]
                 unfold NINE_QUEUE_SIZE; omega)]
    rfl
  · have htail : (fresh_pool malloc).tail = 0 := rfl
    rw [get_eq, htail, h0]
    simp
  · intro ops s fr htr
    obtain ⟨hinv, hring, _, _⟩ := trace_init malloc ops s [] fr htr
    have hr := hring
    unfold ring_inv at hr
    have hfr : fr.length = 0 := by
      have := hr.1
      simpa using this
    have hnone : (s.ctx.slot s.ctx.tail).full = false := by
      cases hf : (s.ctx.slot s.ctx.tail).full with
      | false => rfl
      | true =>
        have := (hr.2.2.2.2 s.ctx.tail hinv.tl).1 hf
        rw [hfr] at this
        simp at this
    rw [get_eq, if_neg (by rw [hnone]; simp)]

/-- C17 with the sample buffer layout. -/
theorem create_initial_state_witness :
    nine_queue_create true demo_malloc = some (fresh_pool demo_malloc) ∧
    nine_queue_alloc (fresh_pool demo_malloc) 4352 = .ret (fresh_pool demo_malloc) (demo_malloc 0) ∧
    nine_queue_get (fresh_pool demo_malloc) = .wait (fresh_pool demo_malloc) :=
  ⟨by decide,
    (create_initial_state true demo_malloc (fresh_pool demo_malloc) (by decide)).2.2.2.2.2.2.1
      4352 (by decide),
    (create_initial_state true demo_malloc (fresh_pool demo_malloc) (by decide)).2.2.2.2.2.2.2.1⟩

/-! ## What one protocol step does to the pool -/

theorem push_slot_head (ctx : nine_queue_pool) (space : Nat) (flush : Bool)
    (hin : ctx.head < ctx.pool.length) :
    (nine_queue_push ctx space flush).slot ctx.head
      = ⟨((ctx.slot ctx.head).head + space) % UINT_RANGE, (ctx.slot ctx.head).tail,
          (ctx.slot ctx.head).mem_pool, (ctx.slot ctx.head).full || flush⟩ := by
  have hfalse : nine_queue_push ctx space false = ctx.store ctx.head
      { ctx.slot ctx.head with head := ((ctx.slot ctx.head).head + space) % UINT_RANGE } := rfl
  have hs0 := slot_store_same ctx ctx.head
      { ctx.slot ctx.head with head := ((ctx.slot ctx.head).head + space) % UINT_RANGE } hin
  cases flush with
  | false =>
    rw [hfalse, hs0]
    simp
  | true =>
    have htrue : nine_queue_push ctx space true
        = nine_queue_submit (nine_queue_push ctx space false) := rfl
    have hh : (nine_queue_push ctx space false).head = ctx.head := rfl
    have hin1 : (nine_queue_push ctx space false).head
        < (nine_queue_push ctx space false).pool.length := by
      rw [hfalse, store_length, store_head]; exact hin
    have hs1 := submit_slot_same (nine_queue_push ctx space false) hin1
    rw [hh] at hs1
    rw [htrue, hs1, hfalse, hs0]
    simp

theorem push_slot_other (ctx : nine_queue_pool) (space : Nat) (flush : Bool) (i : Nat)
    (hi : i ≠ ctx.head) : (nine_queue_push ctx space flush).slot i = ctx.slot i := by
  have hfalse : nine_queue_push ctx space false = ctx.store ctx.head
      { ctx.slot ctx.head with head := ((ctx.slot ctx.head).head + space) % UINT_RANGE } := rfl
  have ho0 : (nine_queue_push ctx space false).slot i = ctx.slot i := by
    rw [hfalse]; exact slot_store_other ctx ctx.head i _ (Ne.symm hi)
  cases flush with
  | false => exact ho0
  | true =>
    have htrue : nine_queue_push ctx space true
        = nine_queue_submit (nine_queue_push ctx space false) := rfl
    have hh : (nine_queue_push ctx space false).head = ctx.head := rfl
    rw [htrue, submit_slot_other _ i (by rw [hh]; exact hi)]
    exact ho0

theorem pop_slot_other (ctx : nine_queue_pool) (space i : Nat) (hi : i ≠ ctx.tail) :
    (nine_queue_pop ctx space).slot i = ctx.slot i := by
  rw [pop_eq]
  split
  · exact slot_store_other ctx ctx.tail i _ (Ne.symm hi)
  · exact slot_store_other ctx ctx.tail i _ (Ne.symm hi)

/-- The segment at the consumer cursor after a release within `head - tail`. -/
theorem pop_slot_tail (ctx : nine_queue_pool) (space : Nat)
    (hin : ctx.tail < ctx.pool.length)
    (hle : (ctx.slot ctx.tail).tail + space ≤ (ctx.slot ctx.tail).head)
    (hhs : (ctx.slot ctx.tail).head ≤ NINE_QUEUE_SIZE) :
    ((ctx.slot ctx.tail).tail + space = (ctx.slot ctx.tail).head ∧
      (nine_queue_pop ctx space).slot ctx.tail = ⟨0, 0, (ctx.slot ctx.tail).mem_pool, false⟩) ∨
    ((ctx.slot ctx.tail).tail + space < (ctx.slot ctx.tail).head ∧
      (nine_queue_pop ctx space).slot ctx.tail
        = { ctx.slot ctx.tail with tail := (ctx.slot ctx.tail).tail + space }) := by
  have hsmall : ((ctx.slot ctx.tail).tail + space) % UINT_RANGE
      = (ctx.slot ctx.tail).tail + space := uint_small _ (by omega)
  rw [pop_eq, hsmall]
  by_cases hd : (ctx.slot ctx.tail).tail + space = (ctx.slot ctx.tail).head
  · rw [if_pos hd]
    exact Or.inl ⟨hd, slot_store_same ctx ctx.tail _ hin⟩
  · rw [if_neg hd]
    exact Or.inr ⟨by omega, slot_store_same ctx ctx.tail _ hin⟩

theorem alloc_effect (ctx : nine_queue_pool) (space : Nat) :
    ((if space > NINE_QUEUE_SIZE then [] else alloc_wait_submits ctx space) = [] ∧
      (nine_queue_alloc ctx space).pool = ctx) ∨
    ((if space > NINE_QUEUE_SIZE then [] else alloc_wait_submits ctx space) = [ctx.head] ∧
      (ctx.slot ctx.head).full = false ∧
      (nine_queue_alloc ctx space).pool = nine_queue_submit ctx) := by
  unfold nine_queue_alloc
  by_cases hbig : space > NINE_QUEUE_SIZE
  · rw [if_pos hbig, if_pos hbig]
    exact Or.inl ⟨rfl, rfl⟩
  · rw [if_neg hbig, if_neg hbig]
    exact alloc_wait_pool ctx space

/-- The four things a protocol step can do to the pool, with what it logs. -/
theorem step_effect (malloc : Nat → Nat) (s s1 : sys) (o : op)
    (hinv : inv malloc s) (hstep : step s o = some s1) :
    (s1.ctx = s.ctx ∧ step_submits s o = [] ∧ step_frees s o = []) ∨
    (s1.ctx = nine_queue_submit s.ctx ∧ (s.ctx.slot s.ctx.head).full = false ∧
      step_submits s o = [s.ctx.head] ∧ step_frees s o = []) ∨
    (∃ space flush, o = .push space flush ∧ s1.ctx = nine_queue_push s.ctx space flush ∧
      (s.ctx.slot s.ctx.head).full = false ∧
      step_submits s o = (if flush then [s.ctx.head] else []) ∧ step_frees s o = []) ∨
    (∃ space, o = .pop space ∧ s1.ctx = nine_queue_pop s.ctx space ∧
      (s.ctx.slot s.ctx.tail).full = true ∧
      (s.ctx.slot s.ctx.tail).tail + space ≤ (s.ctx.slot s.ctx.tail).head ∧
      step_submits s o = []) := by
  cases o with
  | alloc space =>
    unfold step at hstep
    have hfr : step_frees s (.alloc space) = [] := rfl
    have hgo : s.prod = .idle ∨ (∃ n, s.prod = .reserved n) →
        some (after_alloc s space (nine_queue_alloc s.ctx space)) = some s1 →
        step_submits s (.alloc space)
          = (if space > NINE_QUEUE_SIZE then [] else alloc_wait_submits s.ctx space) →
        (s1.ctx = s.ctx ∧ step_submits s (.alloc space) = [] ∧
          step_frees s (.alloc space) = []) ∨
        (s1.ctx = nine_queue_submit s.ctx ∧ (s.ctx.slot s.ctx.head).full = false ∧
          step_submits s (.alloc space) = [s.ctx.head] ∧ step_frees s (.alloc space) = []) := by
      intro _ e hsub
      rw [hsub, ← Option.some.inj e, after_alloc_ctx]
      rcases alloc_effect s.ctx space with ⟨g1, g2⟩ | ⟨g1, g2, g3⟩
      · exact Or.inl ⟨g2, g1, hfr⟩
      · exact Or.inr ⟨g3, g2, g1, hfr⟩
    cases hst : s.prod with
    | idle =>
      rw [hst] at hstep
      rcases hgo (Or.inl hst) (by simpa [sys.alloc, hst] using hstep)
        (by simp only [step_submits, hst]) with g | g
      · exact Or.inl g
      · exact Or.inr (Or.inl g)
    | reserved n =>
      rw [hst] at hstep
      rcases hgo (Or.inr ⟨n, hst⟩) (by simpa [sys.alloc, hst] using hstep)
        (by simp only [step_submits, hst]) with g | g
      · exact Or.inl g
      · exact Or.inr (Or.inl g)
    | parked_first sp => rw [hst] at hstep; cases hstep
    | parked_second sp => rw [hst] at hstep; cases hstep
  | resume =>
    unfold step at hstep
    have hfr : step_frees s .resume = [] := rfl
    cases hst : s.prod with
    | idle => rw [hst] at hstep; cases hstep
    | reserved n => rw [hst] at hstep; cases hstep
    | parked_first sp =>
      rw [hst] at hstep
      have hsub : step_submits s .resume = alloc_wait_submits s.ctx sp := by
        simp only [step_submits, hst]
      have e : some (after_alloc s sp (nine_queue_alloc_wait s.ctx sp)) = some s1 := by
        simpa [sys.alloc, hst] using hstep
      rw [hsub, ← Option.some.inj e, after_alloc_ctx]
      rcases alloc_wait_pool s.ctx sp with ⟨g1, g2⟩ | ⟨g1, g2, g3⟩
      · exact Or.inl ⟨g2, g1, hfr⟩
      · exact Or.inr (Or.inl ⟨g3, g2, g1, hfr⟩)
    | parked_second sp =>
      rw [hst] at hstep
      have hsub : step_submits s .resume = [] := by
        simp only [step_submits, hst]
      have e : some (after_alloc s sp (nine_queue_alloc_next s.ctx)) = some s1 := by
        simpa [sys.alloc, hst] using hstep
      rw [← Option.some.inj e, after_alloc_ctx, alloc_next_pool]
      exact Or.inl ⟨rfl, hsub, hfr⟩
  | push space flush =>
    unfold step at hstep
    have hp := hinv.prod
    cases hst : s.prod with
    | idle => rw [hst] at hstep; cases hstep
    | parked_first sp => rw [hst] at hstep; cases hstep
    | parked_second sp => rw [hst] at hstep; cases hstep
    | reserved n =>
      rw [hst] at hstep hp
      simp only at hstep
      split at hstep
      · right; right; left
        refine ⟨space, flush, rfl, ?_, hp.1, rfl, rfl⟩
        rw [← Option.some.inj hstep]
      · cases hstep
  | get =>
    unfold step at hstep
    rw [get_eq] at hstep
    left
    by_cases hf : (s.ctx.slot s.ctx.tail).full = true
    · rw [if_pos hf] at hstep
      rw [← Option.some.inj hstep]
      exact ⟨rfl, rfl, rfl⟩
    · rw [if_neg hf] at hstep
      rw [← Option.some.inj hstep]
      exact ⟨rfl, rfl, rfl⟩
  | pop space =>
    simp only [step] at hstep
    split at hstep
    · rename_i hc
      right; right; right
      have hfull := hinv.cons hc.1
      obtain ⟨_, hth, _, _⟩ := hinv.seg s.ctx.tail hinv.tl
      refine ⟨space, rfl, ?_, hfull, by have := hc.2; omega, rfl⟩
      rw [← Option.some.inj hstep]
    · cases hstep

/-! ## FIFO order -/

theorem cursor_order_prefix (b k : Nat) : cursor_order b <+: cursor_order (b + k) := by
  induction k with
  | zero => exact List.prefix_refl _
  | succ k ih =>
    have e : b + (k + 1) = (b + k) + 1 := by omega
    rw [e, cursor_order_succ]
    exact List.IsPrefix.trans ih (List.prefix_append _ _)

/-- C15: after any run of protocol steps from a fresh pool the segments
submitted so far are `0, 1, ..., 31, 0, ...` in cursor order, the segments freed
so far are an initial part of that same sequence, and a returning
`nine_queue_get` points into the oldest segment submitted and not yet freed.
For every further step: it submits at most the next segment in cursor order and
frees at most the next one; a segment marked full loses its flag only by being
freed, which resets it to head 0, tail 0, and only in a `nine_queue_pop(space)`
with `tail + space = head`; while a segment stays full its head is unchanged and
its tail changes only by a `nine_queue_pop(space)` at the consumer cursor, which
adds `space`; and a segment becomes full only by being submitted, with tail 0. -/
theorem fifo_order (malloc : Nat → Nat) (ops : List op) (s : sys) (sub fr : List Nat)
    (h : trace (init malloc) [] [] ops = some (s, sub, fr)) :
    sub = cursor_order sub.length ∧ fr = cursor_order fr.length ∧ fr <+: sub ∧
    (∀ c p, nine_queue_get s.ctx = .ret c p →
      fr.length < sub.length ∧
      p = malloc (fr.length % NINE_QUEUES) + (s.ctx.slot (fr.length % NINE_QUEUES)).tail) ∧
    (∀ o s1, step s o = some s1 →
      (step_submits s o = [] ∨ step_submits s o = [sub.length % NINE_QUEUES]) ∧
      (step_frees s o = [] ∨ step_frees s o = [fr.length % NINE_QUEUES]) ∧
      (∀ i, i < NINE_QUEUES → (s.ctx.slot i).full = true → (s1.ctx.slot i).full = false →
        step_frees s o = [i] ∧ s1.ctx.slot i = ⟨0, 0, malloc i, false⟩ ∧
        ∃ space, o = .pop space ∧ (s.ctx.slot i).tail + space = (s.ctx.slot i).head) ∧
      (∀ i, i < NINE_QUEUES → (s.ctx.slot i).full = true → (s1.ctx.slot i).full = true →
        (s1.ctx.slot i).head = (s.ctx.slot i).head ∧
        ((s1.ctx.slot i).tail = (s.ctx.slot i).tail ∨
          ∃ space, o = .pop space ∧ i = s.ctx.tail ∧
            (s1.ctx.slot i).tail = (s.ctx.slot i).tail + space)) ∧
      (∀ i, i < NINE_QUEUES → (s.ctx.slot i).full = false → (s1.ctx.slot i).full = true →
        step_submits s o = [i] ∧ (s1.ctx.slot i).tail = 0)) := by
  obtain ⟨hinv, hring, hsub, hfr⟩ := trace_init malloc ops s sub fr h
  have hr := hring
  unfold ring_inv at hr
  obtain ⟨h1, h2, h3, h4, h5⟩ := hr
  have hinh : s.ctx.head < s.ctx.pool.length := by rw [hinv.len]; exact hinv.hd
  have hint : s.ctx.tail < s.ctx.pool.length := by rw [hinv.len]; exact hinv.tl
  refine ⟨hsub, hfr, ?_, ?_, ?_⟩
  · rw [hsub, hfr]
    have e : sub.length = fr.length + (sub.length - fr.length) := by omega
    rw [e]
    exact cursor_order_prefix _ _
  · intro c p hget
    rw [get_eq] at hget
    by_cases hf : (s.ctx.slot s.ctx.tail).full = true
    · rw [if_pos hf] at hget
      have hp : (s.ctx.slot s.ctx.tail).mem_pool + (s.ctx.slot s.ctx.tail).tail = p := by
        cases hget; rfl
      have hm := (hinv.seg s.ctx.tail hinv.tl).1
      have hlt := (h5 s.ctx.tail hinv.tl).1 hf
      rw [← h4, ← hm, hp]
      exact ⟨by omega, rfl⟩
    · rw [if_neg hf] at hget; cases hget
  · intro o s1 hstep
    obtain ⟨_, hsd, hfd⟩ := ring_step malloc s s1 o sub.length fr.length hinv hring hstep
    refine ⟨?_, ?_, ?_, ?_, ?_⟩
    · rcases hsd with g | g
      · exact Or.inl g
      · exact Or.inr g.1
    · rcases hfd with g | g
      · exact Or.inl g
      · exact Or.inr g.1
    · -- a full segment loses its flag
      intro i hi hb ha
      rcases step_effect malloc s s1 o hinv hstep with
        ⟨e, _, _⟩ | ⟨e, hnf, _, _⟩ | ⟨space, flush, _, e, hnf, _, _⟩ | ⟨space, ho, e, hfull, hle, _⟩
      · rw [e, hb] at ha; cases ha
      · have hne : i ≠ s.ctx.head := by
          intro hc; rw [hc, hnf] at hb; cases hb
        rw [e, submit_slot_other s.ctx i hne, hb] at ha; cases ha
      · have hne : i ≠ s.ctx.head := by
          intro hc; rw [hc, hnf] at hb; cases hb
        rw [e, push_slot_other s.ctx space flush i hne, hb] at ha; cases ha
      · have hit : i = s.ctx.tail := by
          by_contra hne
          rw [e, pop_slot_other s.ctx space i hne, hb] at ha; cases ha
        have hm := (hinv.seg s.ctx.tail hinv.tl).1
        have hhs := (hinv.seg s.ctx.tail hinv.tl).2.2.1
        have hsmall : ((s.ctx.slot s.ctx.tail).tail + space) % UINT_RANGE
            = (s.ctx.slot s.ctx.tail).tail + space := uint_small _ (by omega)
        rw [hit] at ha ⊢
        rcases pop_slot_tail s.ctx space hint hle hhs with ⟨g1, g2⟩ | ⟨g1, g2⟩
        · refine ⟨?_, by rw [e, g2, hm], space, ho, g1⟩
          rw [ho]
          simp only [step_frees, hsmall, if_pos g1]
        · rw [e, g2] at ha
          have ha1 : (s.ctx.slot s.ctx.tail).full = false := ha
          rw [hfull] at ha1; cases ha1
    · -- a segment stays full
      intro i hi hb ha
      rcases step_effect malloc s s1 o hinv hstep with
        ⟨e, _, _⟩ | ⟨e, hnf, _, _⟩ | ⟨space, flush, _, e, hnf, _, _⟩ | ⟨space, ho, e, hfull, hle, _⟩
      · rw [e]; exact ⟨rfl, Or.inl rfl⟩
      · have hne : i ≠ s.ctx.head := by
          intro hc; rw [hc, hnf] at hb; cases hb
        rw [e, submit_slot_other s.ctx i hne]; exact ⟨rfl, Or.inl rfl⟩
      · have hne : i ≠ s.ctx.head := by
          intro hc; rw [hc, hnf] at hb; cases hb
        rw [e, push_slot_other s.ctx space flush i hne]; exact ⟨rfl, Or.inl rfl⟩
      · by_cases hit : i = s.ctx.tail
        · have hhs := (hinv.seg s.ctx.tail hinv.tl).2.2.1
          rw [hit] at ha ⊢
          rcases pop_slot_tail s.ctx space hint hle hhs with ⟨g1, g2⟩ | ⟨g1, g2⟩
          · rw [e, g2] at ha; cases ha
          · rw [e, g2]
            exact ⟨rfl, Or.inr ⟨space, ho, rfl, rfl⟩⟩
        · rw [e, pop_slot_other s.ctx space i hit]; exact ⟨rfl, Or.inl rfl⟩
    · -- a segment becomes full
      intro i hi hb ha
      have htz : (s.ctx.slot i).tail = 0 := ((hinv.seg i hi).2.2.2 hb).1
      rcases step_effect malloc s s1 o hinv hstep with
        ⟨e, _, _⟩ | ⟨e, hnf, hs, _⟩ | ⟨space, flush, _, e, hnf, hs, _⟩ | ⟨space, ho, e, hfull, hle, _⟩
      · rw [e, hb] at ha; cases ha
      · have hih : i = s.ctx.head := by
          by_contra hne
          rw [e, submit_slot_other s.ctx i hne, hb] at ha; cases ha
        rw [hih] at htz ⊢
        refine ⟨hs, ?_⟩
        rw [e, submit_slot_same s.ctx hinh]
        exact htz
      · have hih : i = s.ctx.head := by
          by_contra hne
          rw [e, push_slot_other s.ctx space flush i hne, hb] at ha; cases ha
        rw [hih] at htz ha ⊢
        rw [e, push_slot_head s.ctx space flush hinh] at ha ⊢
        have hfl : flush = true := by
          have ha1 : ((s.ctx.slot s.ctx.head).full || flush) = true := ha
          rw [hnf] at ha1
          simpa using ha1
        rw [hs, if_pos hfl]
        exact ⟨rfl, htz⟩
      · have hne : i ≠ s.ctx.tail := by
          intro hc; rw [hc, hfull] at hb; cases hb
        rw [e, pop_slot_other s.ctx space i hne, hb] at ha; cases ha

/-- C15 on a run with two submits and one free. -/
theorem fifo_order_witness :
    trace (init demo_malloc) [] []
        [.alloc 10, .push 10 true, .get, .pop 10, .alloc 5, .push 5 true]
      = some (demo_two_submits, [0, 1], [0]) ∧
    [0, 1] = cursor_order [0, 1].length ∧ [0] = cursor_order [0].length ∧ [0] <+: [0, 1] :=
  ⟨by decide,
    (fifo_order demo_malloc [.alloc 10, .push 10 true, .get, .pop 10, .alloc 5, .push 5 true]
      demo_two_submits [0, 1] [0] (by decide)).1,
    (fifo_order demo_malloc [.alloc 10, .push 10 true, .get, .pop 10, .alloc 5, .push 5 true]
      demo_two_submits [0, 1] [0] (by decide)).2.1,
    (fifo_order demo_malloc [.alloc 10, .push 10 true, .get, .pop 10, .alloc 5, .push 5 true]
      demo_two_submits [0, 1] [0] (by decide)).2.2.1⟩

/-! ## Backpressure threshold -/

theorem flushed_init (malloc : Nat → Nat) : flushed malloc (fresh_pool malloc) [] := by
  refine ⟨by simp [fresh_pool], rfl, rfl, ?_, ?_⟩
  · intro i sz h; simp at h
  · intro i _ hi; exact slot_fresh malloc i hi

/-- One flushed round on a pool with a free segment at the producer cursor. -/
theorem flushed_round (malloc : Nat → Nat) (ctx : nine_queue_pool) (done : List Nat) (sz : Nat)
    (h : flushed malloc ctx done) (hlt : done.length < NINE_QUEUES)
    (hsz : sz ≤ NINE_QUEUE_SIZE) :
    nine_queue_alloc ctx sz = .ret ctx (malloc done.length) ∧
    flushed malloc (nine_queue_push ctx sz true) (done ++ [sz]) := by
  obtain ⟨hlen, htl, hhd, hdone, hrest⟩ := h
  have hhead : ctx.head = done.length := by rw [hhd]; exact Nat.mod_eq_of_lt hlt
  have hin : ctx.head < ctx.pool.length := by rw [hlen, hhead]; exact hlt
  have hslot : ctx.slot ctx.head = ⟨0, 0, malloc done.length, false⟩ := by
    rw [hhead]; exact hrest done.length (le_refl _) hlt
  have hsmall : (0 + sz) % UINT_RANGE = sz := by
    rw [Nat.zero_add]; exact uint_small sz (by omega)
  constructor
  · unfold nine_queue_alloc
    rw [if_neg (by omega), alloc_wait_eq, hslot]
    simp only
    rw [if_neg (by simp), if_neg (by rw [hsmall]; omega)]
    rfl
  · have hps := push_slot_head ctx sz true hin
    rw [hslot] at hps
    simp only [hsmall, Bool.or_true] at hps
    have hpo := fun i (hi : i ≠ ctx.head) => push_slot_other ctx sz true i hi
    rw [hhead] at hps hpo
    have hlen1 : (done ++ [sz]).length = done.length + 1 := by simp
    have hph : (nine_queue_push ctx sz true).head = (ctx.head + 1) % NINE_QUEUES := by
      show (nine_queue_submit (nine_queue_push ctx sz false)).head = _
      exact submit_head _ (by show ctx.head < 32; rw [hhead]; exact hlt)
    refine ⟨?_, ?_, ?_, ?_, ?_⟩
    · show (nine_queue_submit (nine_queue_push ctx sz false)).pool.length = _
      rw [submit_length]
      show (ctx.store ctx.head _).pool.length = _
      rw [store_length]; exact hlen
    · exact htl
    · rw [hph, hlen1, hhead]
    · intro i x hx
      by_cases hi : i < done.length
      · rw [List.getElem?_append_left hi] at hx
        rw [hpo i (by omega)]
        exact hdone i x hx
      · have hi1 : i < (done ++ [sz]).length := by
          by_contra hge
          rw [List.getElem?_eq_none (by omega)] at hx
          cases hx
        have hieq : i = done.length := by rw [hlen1] at hi1; omega
        subst hieq
        rw [List.getElem?_append_right (le_refl _)] at hx
        simp at hx
        rw [hps, ← hx]
    · intro i hi1 hi2
      rw [hlen1] at hi1
      rw [hpo i (by omega)]
      exact hrest i (by omega) hi2

theorem flush_rounds_ok (malloc : Nat → Nat) (sizes : List Nat) :
    ∀ (ctx : nine_queue_pool) (done : List Nat), flushed malloc ctx done →
      done.length + sizes.length ≤ NINE_QUEUES →
      (∀ sz, sz ∈ sizes → sz ≤ NINE_QUEUE_SIZE) →
      ∃ c, flush_rounds ctx sizes = some c ∧ flushed malloc c (done ++ sizes) := by
  induction sizes with
  | nil =>
    intro ctx done h _ _
    exact ⟨ctx, rfl, by rw [List.append_nil]; exact h⟩
  | cons sz rest ih =>
    intro ctx done h hlen hsz
    have hl : (sz :: rest).length = rest.length + 1 := rfl
    obtain ⟨ha, hf⟩ := flushed_round malloc ctx done sz h (by omega) (hsz sz (by simp))
    obtain ⟨c, hc, hfc⟩ := ih (nine_queue_push ctx sz true) (done ++ [sz]) hf
      (by simp; omega) (fun x hx => hsz x (by simp [hx]))
    refine ⟨c, ?_, by simpa using hfc⟩
    unfold flush_rounds
    rw [ha]
    exact hc

theorem run_cons (s s1 : sys) (o : op) (os : List op) (h : step s o = some s1) :
    run s (o :: os) = run s1 os := by
  simp [run, h]

theorem run_rounds (sizes : List Nat) :
    ∀ (s : sys) (c : nine_queue_pool), s.prod = .idle → flush_rounds s.ctx sizes = some c →
      run s (rounds_ops sizes) = some { ctx := c, prod := .idle, acquired := s.acquired } := by
  induction sizes with
  | nil =>
    intro s c hp h
    have e : s.ctx = c := Option.some.inj h
    subst e
    cases s
    simp only at hp
    subst hp
    rfl
  | cons sz rest ih =>
    intro s c hp h
    unfold flush_rounds at h
    cases hal : nine_queue_alloc s.ctx sz with
    | null c1 => rw [hal] at h; cases h
    | wait_first c1 => rw [hal] at h; cases h
    | wait_second c1 => rw [hal] at h; cases h
    | ret c1 p =>
      rw [hal] at h
      simp only at h
      have h1 : step s (.alloc sz)
          = some { ctx := c1, prod := .reserved sz, acquired := s.acquired } := by
        simp only [step, sys.alloc, hp, hal, Option.map_some', after_alloc]
      have h2 : step { ctx := c1, prod := .reserved sz, acquired := s.acquired }
          (.push sz true)
          = some { ctx := nine_queue_push c1 sz true, prod := .idle, acquired := s.acquired } := by
        simp only [step, le_refl, if_true]
      show run s (.alloc sz :: .push sz true :: rounds_ops rest) = _
      rw [run_cons s _ _ _ h1, run_cons _ _ _ _ h2]
      exact ih _ c rfl h

/-- Releases that stay below the head of the full segment at the consumer
cursor. -/
theorem pops_below_head (ps : List Nat) :
    ∀ (ctx : nine_queue_pool) (hd t m : Nat), ctx.pool.length = NINE_QUEUES → ctx.tail = 0 →
      ctx.slot 0 = ⟨hd, t, m, true⟩ → hd ≤ NINE_QUEUE_SIZE → t + ps.sum < hd →
      (pops ctx ps).slot 0 = ⟨hd, t + ps.sum, m, true⟩ ∧ (pops ctx ps).tail = 0 ∧
      (pops ctx ps).head = ctx.head ∧ (pops ctx ps).pool.length = NINE_QUEUES := by
  induction ps with
  | nil =>
    intro ctx hd t m hlen htl hslot _ _
    exact ⟨by simpa using hslot, htl, rfl, hlen⟩
  | cons n ns ih =>
    intro ctx hd t m hlen htl hslot hhd hsum
    have hs : (n :: ns).sum = n + ns.sum := by simp
    rw [hs] at hsum ⊢
    have hin : ctx.tail < ctx.pool.length := by rw [hlen, htl]; decide
    have hsmall : (t + n) % UINT_RANGE = t + n := uint_small _ (by omega)
    have hpop : nine_queue_pop ctx n = ctx.store 0 ⟨hd, t + n, m, true⟩ := by
      rw [pop_eq, htl, hslot]
      simp only [hsmall]
      rw [if_neg (by omega)]
    have hun : pops ctx (n :: ns) = pops (nine_queue_pop ctx n) ns := rfl
    rw [hun, hpop]
    have hin0 : 0 < ctx.pool.length := by rw [hlen]; decide
    obtain ⟨g1, g2, g3, g4⟩ := ih (ctx.store 0 ⟨hd, t + n, m, true⟩) hd (t + n) m
      (by rw [store_length]; exact hlen) htl (slot_store_same ctx 0 _ hin0) hhd (by omega)
    exact ⟨by rw [g1, Nat.add_assoc], g2, g3, g4⟩

/-- C12: on a fresh pool with no consumer progress, 32 rounds of
`nine_queue_alloc(sz)` / `nine_queue_push(sz, true)` with sizes up to 4352 all
return without waiting and leave all 32 segments marked full with both cursors
at 0.  The 33rd `nine_queue_alloc` then waits in its first loop.  It still waits
(as a new call or as the parked thread testing its loop again) after any
releases that leave `tail < head` in segment 0, each of which is preceded by a
`nine_queue_get` that returns.  Once a `nine_queue_pop` brings the tail of
segment 0 to its head, the segment is reset and the waiting
`nine_queue_alloc` returns the buffer start of segment 0. -/
theorem backpressure_threshold (malloc : Nat → Nat) (sizes : List Nat)
    (hlen : sizes.length = NINE_QUEUES) (hsz : ∀ sz, sz ∈ sizes → sz ≤ NINE_QUEUE_SIZE) :
    ∃ c,
      flush_rounds (fresh_pool malloc) sizes = some c ∧
      run (init malloc) (rounds_ops sizes) = some { ctx := c, prod := .idle, acquired := false } ∧
      c.head = 0 ∧ c.tail = 0 ∧
      (∀ i, i < NINE_QUEUES → (c.slot i).full = true) ∧
      (∀ sz, sizes[0]? = some sz → c.slot 0 = ⟨sz, 0, malloc 0, true⟩) ∧
      (∀ sp, sp ≤ NINE_QUEUE_SIZE → nine_queue_alloc c sp = .wait_first c) ∧
      (∀ ps sp, sp ≤ NINE_QUEUE_SIZE → ps.sum < (c.slot 0).head →
        nine_queue_get (pops c ps) = .ret (pops c ps) (malloc 0 + ps.sum) ∧
        nine_queue_alloc (pops c ps) sp = .wait_first (pops c ps) ∧
        nine_queue_alloc_wait (pops c ps) sp = .wait_first (pops c ps)) ∧
      (∀ ps d sp, sp ≤ NINE_QUEUE_SIZE → (ps = [] ∨ ps.sum < (c.slot 0).head) →
        ps.sum + d = (c.slot 0).head →
        (nine_queue_pop (pops c ps) d).slot 0 = ⟨0, 0, malloc 0, false⟩ ∧
        nine_queue_alloc (nine_queue_pop (pops c ps) d) sp
          = .ret (nine_queue_pop (pops c ps) d) (malloc 0) ∧
        nine_queue_alloc_wait (nine_queue_pop (pops c ps) d) sp
          = .ret (nine_queue_pop (pops c ps) d) (malloc 0)) := by
  obtain ⟨c, hc, hf⟩ := flush_rounds_ok malloc sizes (fresh_pool malloc) []
    (flushed_init malloc) (by simp [hlen]) hsz
  rw [List.nil_append] at hf
  obtain ⟨hl, htl, hhd, hdone, _⟩ := hf
  have hhead : c.head = 0 := by rw [hhd, hlen]; rfl
  have hslot : ∀ i, i < NINE_QUEUES →
      ∃ sz, sizes[i]? = some sz ∧ sz ≤ NINE_QUEUE_SIZE ∧ c.slot i = ⟨sz, 0, malloc i, true⟩ := by
    intro i hi
    cases hg : sizes[i]? with
    | none =>
      have := List.getElem?_eq_none_iff.mp hg
      omega
    | some sz => exact ⟨sz, rfl, hsz sz (List.getElem?_mem hg), hdone i sz hg⟩
  have h0 : (0 : Nat) < NINE_QUEUES := by decide
  obtain ⟨sz0, hg0, hsz0le, hs0⟩ := hslot 0 h0
  have hb0 : (c.slot 0).head ≤ NINE_QUEUE_SIZE := by
    rw [hs0]
    exact hsz0le
  have hwait : ∀ (x : nine_queue_pool) (sp : Nat), sp ≤ NINE_QUEUE_SIZE → x.head = 0 →
      (x.slot 0).full = true →
      nine_queue_alloc x sp = .wait_first x ∧ nine_queue_alloc_wait x sp = .wait_first x := by
    intro x sp hsp hx hfull
    have hw : nine_queue_alloc_wait x sp = .wait_first x := by
      rw [alloc_wait_eq, hx, if_pos hfull]
    refine ⟨?_, hw⟩
    unfold nine_queue_alloc
    rw [if_neg (by omega), hw]
  have hpops : ∀ ps, (ps = [] ∨ ps.sum < (c.slot 0).head) →
      (pops c ps).slot 0 = ⟨(c.slot 0).head, ps.sum, malloc 0, true⟩ ∧ (pops c ps).tail = 0 ∧
      (pops c ps).head = 0 ∧ (pops c ps).pool.length = NINE_QUEUES := by
    intro ps hps
    rcases hps with hps | hps
    · subst hps
      refine ⟨?_, htl, hhead, hl⟩
      show c.slot 0 = _
      rw [hs0]
      rfl
    · obtain ⟨g1, g2, g3, g4⟩ := pops_below_head ps c (c.slot 0).head 0 (malloc 0) hl htl
        (by rw [hs0]) hb0 (by omega)
      rw [Nat.zero_add] at g1
      exact ⟨g1, g2, by rw [g3, hhead], g4⟩
  refine ⟨c, hc, ?_, hhead, htl, ?_, ?_, ?_, ?_, ?_⟩
  · exact run_rounds sizes (init malloc) c rfl hc
  · intro i hi
    obtain ⟨sz, _, _, hs⟩ := hslot i hi
    rw [hs]
  · intro sz hsz0
    rw [hs0]
    rw [hg0] at hsz0
    rw [Option.some.inj hsz0]
  · intro sp hsp
    exact (hwait c sp hsp hhead (by rw [hs0])).1
  · intro ps sp hsp hsum
    obtain ⟨g1, g2, g3, _⟩ := hpops ps (Or.inr hsum)
    refine ⟨?_, hwait _ sp hsp g3 (by rw [g1])⟩
    rw [get_eq, g2, g1]
    rfl
  · intro ps d sp hsp hps hsum
    obtain ⟨g1, g2, g3, g4⟩ := hpops ps hps
    have hin : (pops c ps).tail < (pops c ps).pool.length := by rw [g4, g2]; decide
    have hsmall : (ps.sum + d) % UINT_RANGE = ps.sum + d := uint_small _ (by omega)
    have hpop : nine_queue_pop (pops c ps) d
        = { (pops c ps).store 0 ⟨0, 0, malloc 0, false⟩ with
            tail := ((0 + 1) % UINT_RANGE) &&& NINE_QUEUES_MASK } := by
      rw [pop_eq, g2, g1]
      simp only [hsmall]
      rw [if_pos hsum]
    have hslot0 : (nine_queue_pop (pops c ps) d).slot 0 = ⟨0, 0, malloc 0, false⟩ := by
      rw [hpop]
      show ((pops c ps).store 0 _).slot 0 = _
      exact slot_store_same _ 0 _ (by rw [g4]; decide)
    have hhd1 : (nine_queue_pop (pops c ps) d).head = 0 := by
      rw [hpop]; exact g3
    have hw : nine_queue_alloc_wait (nine_queue_pop (pops c ps) d) sp
        = .ret (nine_queue_pop (pops c ps) d) (malloc 0) := by
      rw [alloc_wait_eq, hhd1, hslot0]
      simp only
      rw [if_neg (by simp),
        if_neg (by rw [Nat.zero_add, uint_small sp (by omega)]; omega)]
      rfl
    refine ⟨hslot0, ?_, hw⟩
    unfold nine_queue_alloc
    rw [if_neg (by omega), hw]

theorem replicate_sizes_ok (n sz : Nat) (h : sz ≤ NINE_QUEUE_SIZE) :
    ∀ x, x ∈ List.replicate n sz → x ≤ NINE_QUEUE_SIZE := by
  intro x hx
  rw [List.eq_of_mem_replicate hx]
  exact h

/-- C12 with 32 rounds of 10 bytes. -/
theorem backpressure_threshold_witness :
    (List.replicate 32 10).length = NINE_QUEUES ∧
    (∀ sz, sz ∈ List.replicate 32 10 → sz ≤ NINE_QUEUE_SIZE) ∧
    ∃ c, flush_rounds (fresh_pool demo_malloc) (List.replicate 32 10) = some c ∧
      run (init demo_malloc) (rounds_ops (List.replicate 32 10))
        = some { ctx := c, prod := .idle, acquired := false } ∧
      c.head = 0 ∧ c.tail = 0 :=
  ⟨by decide, replicate_sizes_ok 32 10 (by decide),
    (backpressure_threshold demo_malloc (List.replicate 32 10) (by decide)
      (replicate_sizes_ok 32 10 (by decide))).imp
      fun _ hc => ⟨hc.1, hc.2.1, hc.2.2.1, hc.2.2.2.1⟩⟩

/-! ## Cursor wraparound -/

theorem cursor_step_iterate (k : Nat) :
    ∀ c, c < NINE_QUEUES → cursor_step^[k] c = (c + k) % 32 := by
  induction k with
  | zero =>
    intro c hc
    unfold NINE_QUEUES at hc
    simp only [Function.iterate_zero, id_eq, Nat.add_zero]
    omega
  | succ k ih =>
    intro c hc
    rw [Function.iterate_succ_apply', ih c hc]
    unfold cursor_step
    rw [cursor_next _ (Nat.mod_lt _ (by decide))]
    omega

/-- C21: for a cursor below 32 the masked increment `(c + 1) & NINE_QUEUES_MASK`
is `(c + 1) mod 32`; it is the update `nine_queue_submit` applies to the
producer cursor and the only update `nine_queue_pop` applies to the consumer
cursor; in every reachable state both cursors are below 32, the length of the
pool; and 32 advances, no fewer, bring a cursor back to where it started. -/
theorem cursor_wraparound (malloc : Nat → Nat) :
    (∀ c, c < NINE_QUEUES → cursor_step c = (c + 1) % 32) ∧
    (∀ ctx, (nine_queue_submit ctx).head = cursor_step ctx.head) ∧
    (∀ ctx space, (nine_queue_pop ctx space).tail = ctx.tail ∨
      (nine_queue_pop ctx space).tail = cursor_step ctx.tail) ∧
    (∀ s, reachable malloc s →
      s.ctx.head < NINE_QUEUES ∧ s.ctx.tail < NINE_QUEUES ∧
      s.ctx.pool.length = NINE_QUEUES) ∧
    (∀ c, c < NINE_QUEUES →
      cursor_step^[32] c = c ∧ ∀ k, 0 < k → k < 32 → cursor_step^[k] c ≠ c) := by
  refine ⟨fun c hc => cursor_next c hc, fun ctx => rfl, ?_, ?_, ?_⟩
  · intro ctx space
    rw [pop_eq]
    by_cases h : ((ctx.slot ctx.tail).tail + space) % UINT_RANGE = (ctx.slot ctx.tail).head
    · rw [if_pos h]
      exact Or.inr rfl
    · rw [if_neg h]
      exact Or.inl rfl
  · intro s hs
    have hi := inv_reachable malloc s hs
    exact ⟨hi.hd, hi.tl, hi.len⟩
  · intro c hc
    have hc32 : c < 32 := hc
    constructor
    · rw [cursor_step_iterate 32 c hc]
      omega
    · intro k hk0 hk
      rw [cursor_step_iterate k c hc]
      omega

/-- C21 at cursor 31, the wrap to 0, and in the state with segment 0 open. -/
theorem cursor_wraparound_witness :
    31 < NINE_QUEUES ∧ cursor_step 31 = 0 ∧
    demo_sys.ctx.head < NINE_QUEUES ∧ cursor_step^[32] 31 = 31 :=
  ⟨by decide, (cursor_wraparound demo_malloc).1 31 (by decide),
    ((cursor_wraparound demo_malloc).2.2.2.1 demo_sys demo_sys_reachable).1,
    ((cursor_wraparound demo_malloc).2.2.2.2 31 (by decide)).1⟩

/-! ## Ring invariant -/

/-- C23: after any run of protocol steps from a fresh pool, with `n` the number
of segments submitted minus the number of segments fully drained:
`0 ≤ n ≤ 32`, the producer cursor is the consumer cursor plus `n` modulo 32,
segment `i` is marked full exactly when `(i - consumer cursor) mod 32 < n`,
every segment not marked full has tail 0, and every segment not marked full
other than the one at the producer cursor has head 0. -/
theorem pool_ring_invariant (malloc : Nat → Nat) (ops : List op) (s : sys)
    (sub fr : List Nat) (h : trace (init malloc) [] [] ops = some (s, sub, fr)) :
    fr.length ≤ sub.length ∧ sub.length - fr.length ≤ NINE_QUEUES ∧
    s.ctx.head = (s.ctx.tail + (sub.length - fr.length)) % NINE_QUEUES ∧
    (∀ i, i < NINE_QUEUES →
      ((s.ctx.slot i).full = true ↔
        ((i : Int) - (s.ctx.tail : Int)) % 32 < ((sub.length - fr.length : Nat) : Int))) ∧
    (∀ i, i < NINE_QUEUES → (s.ctx.slot i).full = false → (s.ctx.slot i).tail = 0) ∧
    (∀ i, i < NINE_QUEUES → (s.ctx.slot i).full = false → i ≠ s.ctx.head →
      (s.ctx.slot i).head = 0) := by
  obtain ⟨hinv, hring, _, _⟩ := trace_init malloc ops s sub fr h
  unfold ring_inv at hring
  unfold NINE_QUEUES at hring ⊢
  obtain ⟨h1, h2, h3, h4, h5⟩ := hring
  refine ⟨h1, by omega, by omega, ?_, ?_, ?_⟩
  · intro i hi
    rw [h5 i hi, h4]
    omega
  · intro i hi hf
    exact ((hinv.seg i hi).2.2.2 hf).1
  · intro i hi hf hne
    exact ((hinv.seg i hi).2.2.2 hf).2 hne

/-- C23 on a run with two submits and one free: segment 1 is the one marked
full. -/
theorem pool_ring_invariant_witness :
    trace (init demo_malloc) [] []
        [.alloc 10, .push 10 true, .get, .pop 10, .alloc 5, .push 5 true]
      = some (demo_two_submits, [0, 1], [0]) ∧
    demo_two_submits.ctx.head = (demo_two_submits.ctx.tail + ([0, 1].length - [0].length))
      % NINE_QUEUES :=
  ⟨by decide,
    (pool_ring_invariant demo_malloc
      [.alloc 10, .push 10 true, .get, .pop 10, .alloc 5, .push 5 true]
      demo_two_submits [0, 1] [0] (by decide)).2.2.1⟩

/-! ## Reserve twice -/

/-- The submit keeps the head offset of every segment. -/
theorem submit_slot_head (ctx : nine_queue_pool) (i : Nat) :
    ((nine_queue_submit ctx).slot i).head = (ctx.slot i).head := by
  by_cases hi : i = ctx.head
  · by_cases hin : ctx.head < ctx.pool.length
    · rw [hi, submit_slot_same ctx hin]
    · have hun : nine_queue_submit ctx
          = { ctx.store ctx.head { ctx.slot ctx.head with full := true } with
              head := ((ctx.head + 1) % UINT_RANGE) &&& NINE_QUEUES_MASK } := rfl
      rw [hun, store_out_of_range ctx ctx.head _ (by omega)]
      rfl
  · rw [submit_slot_other ctx i hi]

/-- C24: in a reachable state, when `nine_queue_alloc(space)` returns pointer
`p` and leaves the pool `c`, the same call made again right away returns `p`
again, submits nothing and leaves the pool `c`; as a protocol step it leaves
the whole state as it was.  In every pool state the three entry points of
`nine_queue_alloc` keep the head offset of every segment. -/
theorem alloc_idempotent (malloc : Nat → Nat) :
    (∀ (s : sys) (space : Nat) (c : nine_queue_pool) (p : Nat), reachable malloc s →
      s.alloc space = some (.ret c p) →
      space ≤ NINE_QUEUE_SIZE ∧
      nine_queue_alloc c space = .ret c p ∧
      alloc_wait_submits c space = [] ∧
      step (after_alloc s space (.ret c p)) (.alloc space)
        = some (after_alloc s space (.ret c p))) ∧
    (∀ (ctx : nine_queue_pool) (space i : Nat),
      ((nine_queue_alloc ctx space).pool.slot i).head = (ctx.slot i).head ∧
      ((nine_queue_alloc_wait ctx space).pool.slot i).head = (ctx.slot i).head ∧
      ((nine_queue_alloc_next ctx).pool.slot i).head = (ctx.slot i).head) := by
  constructor
  · intro s space c p hreach hret
    have hp := sys_alloc_ret_ptr s space c p hret
    have hi := inv_after_alloc malloc s space _ (inv_reachable malloc s hreach) hret
    have hprod : (c.slot c.head).full = false ∧ (c.slot c.head).head + space ≤ NINE_QUEUE_SIZE :=
      hi.prod
    have hsp : space ≤ NINE_QUEUE_SIZE := by omega
    have hmod : ((c.slot c.head).head + space) % UINT_RANGE = (c.slot c.head).head + space :=
      uint_small _ (by omega)
    have hall : nine_queue_alloc c space = .ret c p := by
      unfold nine_queue_alloc
      rw [if_neg (by omega), alloc_wait_eq, hprod.1, hmod]
      simp only [Bool.false_eq_true, if_false]
      rw [if_neg (by omega), hp]
    have hsub : alloc_wait_submits c space = [] := by
      unfold alloc_wait_submits
      rw [hprod.1, hmod]
      simp only [Bool.false_eq_true, if_false]
      rw [if_neg (by omega)]
    refine ⟨hsp, hall, hsub, ?_⟩
    show ((sys.alloc (after_alloc s space (.ret c p)) space).map
      (after_alloc (after_alloc s space (.ret c p)) space)) = _
    have h1 : sys.alloc (after_alloc s space (.ret c p)) space
        = some (nine_queue_alloc c space) := rfl
    rw [h1, hall]
    rfl
  · intro ctx space i
    refine ⟨?_, ?_, ?_⟩
    · rcases alloc_pool ctx space with h | h
      · rw [h]
      · rw [h, submit_slot_head]
    · rcases alloc_wait_pool ctx space with h | h
      · rw [h.2]
      · rw [h.2.2, submit_slot_head]
    · rw [alloc_next_pool]

/-- C24 on a fresh pool: `nine_queue_alloc(100)` twice gives the start of
the first buffer both times. -/
theorem alloc_idempotent_witness :
    reachable demo_malloc (init demo_malloc) ∧
    (init demo_malloc).alloc 100 = some (.ret (fresh_pool demo_malloc) 4096) ∧
    nine_queue_alloc (fresh_pool demo_malloc) 100 = .ret (fresh_pool demo_malloc) 4096 :=
  ⟨⟨[], rfl⟩, by decide,
    ((alloc_idempotent demo_malloc).1 (init demo_malloc) 100 (fresh_pool demo_malloc) 4096
      ⟨[], rfl⟩ (by decide)).2.1⟩

/-! ## No wraparound in the room test -/

/-- C25: in a reachable state and for `space ≤ 4352`, the `unsigned` sum
`queue->head + space` of the room test is at most 8704 for every segment, so
it does not wrap and the test `queue->head + space > NINE_QUEUE_SIZE` is the
comparison over the integers: `nine_queue_alloc` behaves as written with the
exact sum.  For `space ≤ head - tail` on the segment at the consumer cursor
the sum `queue->tail + space` of `nine_queue_pop` is at most `head ≤ 4352`, so
it does not wrap either and the drain test is the comparison of the exact
sum. -/
theorem room_check_no_wrap (malloc : Nat → Nat) (s : sys) (hreach : reachable malloc s) :
    (∀ space i, space ≤ NINE_QUEUE_SIZE → i < NINE_QUEUES →
      (s.ctx.slot i).head + space ≤ 8704 ∧
      ((s.ctx.slot i).head + space) % UINT_RANGE = (s.ctx.slot i).head + space ∧
      (((s.ctx.slot i).head + space) % UINT_RANGE > NINE_QUEUE_SIZE ↔
        (s.ctx.slot i).head + space > NINE_QUEUE_SIZE)) ∧
    (∀ space, space ≤ NINE_QUEUE_SIZE →
      nine_queue_alloc s.ctx space =
        if (s.ctx.slot s.ctx.head).full then .wait_first s.ctx
        else if (s.ctx.slot s.ctx.head).head + space > NINE_QUEUE_SIZE then
          nine_queue_alloc_next (nine_queue_submit s.ctx)
        else .ret s.ctx ((s.ctx.slot s.ctx.head).mem_pool + (s.ctx.slot s.ctx.head).head)) ∧
    (∀ space i, i < NINE_QUEUES → space ≤ (s.ctx.slot i).head - (s.ctx.slot i).tail →
      (s.ctx.slot i).tail + space ≤ NINE_QUEUE_SIZE ∧
      ((s.ctx.slot i).tail + space) % UINT_RANGE = (s.ctx.slot i).tail + space) ∧
    (∀ space, space ≤ (s.ctx.slot s.ctx.tail).head - (s.ctx.slot s.ctx.tail).tail →
      nine_queue_pop s.ctx space =
        if (s.ctx.slot s.ctx.tail).tail + space = (s.ctx.slot s.ctx.tail).head then
          { s.ctx.store s.ctx.tail ⟨0, 0, (s.ctx.slot s.ctx.tail).mem_pool, false⟩ with
            tail := ((s.ctx.tail + 1) % UINT_RANGE) &&& NINE_QUEUES_MASK }
        else
          s.ctx.store s.ctx.tail
            { s.ctx.slot s.ctx.tail with tail := (s.ctx.slot s.ctx.tail).tail + space }) := by
  have hinv := inv_reachable malloc s hreach
  have hseg : ∀ i, i < NINE_QUEUES →
      (s.ctx.slot i).tail ≤ (s.ctx.slot i).head ∧ (s.ctx.slot i).head ≤ NINE_QUEUE_SIZE :=
    fun i hi => ⟨(hinv.seg i hi).2.1, (hinv.seg i hi).2.2.1⟩
  have hsum : ∀ space i, space ≤ NINE_QUEUE_SIZE → i < NINE_QUEUES →
      ((s.ctx.slot i).head + space) % UINT_RANGE = (s.ctx.slot i).head + space := by
    intro space i hsp hi
    have := (hseg i hi).2
    exact uint_small _ (by omega)
  have hpop : ∀ space i, i < NINE_QUEUES →
      space ≤ (s.ctx.slot i).head - (s.ctx.slot i).tail →
      ((s.ctx.slot i).tail + space) % UINT_RANGE = (s.ctx.slot i).tail + space := by
    intro space i hi hsp
    have := hseg i hi
    exact uint_small _ (by omega)
  refine ⟨?_, ?_, ?_, ?_⟩
  · intro space i hsp hi
    have h2 := (hseg i hi).2
    refine ⟨?_, hsum space i hsp hi, ?_⟩
    · unfold NINE_QUEUE_SIZE at hsp h2
      omega
    · rw [hsum space i hsp hi]
  · intro space hsp
    unfold nine_queue_alloc
    rw [if_neg (by omega), alloc_wait_eq, hsum space _ hsp hinv.hd]
  · intro space i hi hsp
    have := hseg i hi
    exact ⟨by omega, hpop space i hi hsp⟩
  · intro space hsp
    rw [pop_eq, hpop space _ hinv.tl hsp]

/-- C25 in the state where segment 0 is open with 4000 bytes: the sum for a
request of 4352 bytes is 8352. -/
theorem room_check_no_wrap_witness :
    reachable demo_malloc demo_sys ∧
    (demo_sys.ctx.slot 0).head + 4352 ≤ 8704 ∧
    ((demo_sys.ctx.slot 0).head + 4352) % UINT_RANGE = (demo_sys.ctx.slot 0).head + 4352 :=
  ⟨demo_sys_reachable,
    ((room_check_no_wrap demo_malloc demo_sys demo_sys_reachable).1 4352 0
      (by decide) (by decide)).1,
    ((room_check_no_wrap demo_malloc demo_sys demo_sys_reachable).1 4352 0
      (by decide) (by decide)).2.1⟩

/-! ## Bounded lead with the sizes left free -/

/-- A submit never clears a full flag. -/
theorem submit_slot_full (ctx : nine_queue_pool) (i : Nat)
    (h : (ctx.slot i).full = true) : ((nine_queue_submit ctx).slot i).full = true := by
  by_cases hi : i = ctx.head
  · by_cases hin : ctx.head < ctx.pool.length
    · rw [hi, submit_slot_same ctx hin]
    · have hun : nine_queue_submit ctx
          = { ctx.store ctx.head { ctx.slot ctx.head with full := true } with
              head := ((ctx.head + 1) % UINT_RANGE) &&& NINE_QUEUES_MASK } := rfl
      rw [hun, store_out_of_range ctx ctx.head _ (by omega)]
      exact h
  · rw [submit_slot_other ctx i hi]
    exact h

/-- A pop never sets a full flag. -/
theorem pop_slot_full (ctx : nine_queue_pool) (space i : Nat)
    (hin : ctx.tail < ctx.pool.length)
    (h : (ctx.slot i).full = false) : ((nine_queue_pop ctx space).slot i).full = false := by
  by_cases hi : i = ctx.tail
  · rw [hi, pop_eq]
    rw [hi] at h
    by_cases hd : ((ctx.slot ctx.tail).tail + space) % UINT_RANGE = (ctx.slot ctx.tail).head
    · rw [if_pos hd]
      show ((ctx.store ctx.tail _).slot ctx.tail).full = false
      rw [slot_store_same ctx ctx.tail _ hin]
    · rw [if_neg hd, slot_store_same ctx ctx.tail _ hin]
      exact h
  · rw [pop_slot_other ctx space i hi]
    exact h

/-- A pointer returned by any entry point of `nine_queue_alloc` is into a
segment that is not full. -/
theorem alloc_ret_not_full (ctx c : nine_queue_pool) (space p : Nat)
    (h : nine_queue_alloc ctx space = .ret c p ∨ nine_queue_alloc_wait ctx space = .ret c p ∨
      nine_queue_alloc_next ctx = .ret c p) : (c.slot c.head).full = false := by
  rcases h with h | h | h
  · unfold nine_queue_alloc at h
    by_cases hbig : space > NINE_QUEUE_SIZE
    · rw [if_pos hbig] at h; cases h
    · rw [if_neg hbig] at h
      exact (alloc_wait_ret ctx c space p h).2.1
  · exact (alloc_wait_ret ctx c space p h).2.1
  · obtain ⟨hc, hf, _⟩ := alloc_next_ret ctx c p h
    rw [hc]; exact hf

/-- The outcome of any entry point of `nine_queue_alloc` keeps what the order
of the calls maintains. -/
theorem handoff_after_alloc (s : sys) (space : Nat) (r : alloc_result) (hinv : handoff_inv s)
    (hr : r = nine_queue_alloc s.ctx space ∨ r = nine_queue_alloc_wait s.ctx space ∨
      r = nine_queue_alloc_next s.ctx) :
    handoff_inv (after_alloc s space r) := by
  have hpool : r.pool = s.ctx ∨ r.pool = nine_queue_submit s.ctx := by
    rcases hr with h | h | h
    · rw [h]; exact alloc_pool s.ctx space
    · rw [h]
      rcases alloc_wait_pool s.ctx space with g | g
      · exact Or.inl g.2
      · exact Or.inr g.2.2
    · rw [h]; exact Or.inl (alloc_next_pool s.ctx)
  have hacq : (after_alloc s space r).acquired = s.acquired := by cases r <;> rfl
  have hprod : ∀ n, (after_alloc s space r).prod = .reserved n →
      ((after_alloc s space r).ctx.slot (after_alloc s space r).ctx.head).full = false := by
    intro n hn
    cases r with
    | null c =>
      have hc : c = s.ctx := by
        rcases hr with h | h | h
        · unfold nine_queue_alloc at h
          by_cases hbig : space > NINE_QUEUE_SIZE
          · rw [if_pos hbig] at h
            exact alloc_result.null.inj h
          · rw [if_neg hbig] at h
            exact absurd h.symm (alloc_wait_ne_null s.ctx c space)
        · exact absurd h.symm (alloc_wait_ne_null s.ctx c space)
        · exact absurd h.symm (alloc_next_ne_null s.ctx c)
      have hn1 : s.prod = .reserved n := hn
      show (c.slot c.head).full = false
      rw [hc]
      exact hinv.prod n hn1
    | wait_first c => simp [after_alloc] at hn
    | wait_second c => simp [after_alloc] at hn
    | ret c p =>
      show (c.slot c.head).full = false
      apply alloc_ret_not_full s.ctx c space p
      rcases hr with h | h | h
      · exact Or.inl h.symm
      · exact Or.inr (Or.inl h.symm)
      · exact Or.inr (Or.inr h.symm)
  rw [← after_alloc_ctx s space r] at hpool
  rcases hpool with hp | hp
  · refine ⟨by rw [hp]; exact hinv.len, by rw [hp]; exact hinv.hd, by rw [hp]; exact hinv.tl,
      hprod, ?_⟩
    intro ha
    rw [hp]
    exact hinv.cons (by rw [← hacq]; exact ha)
  · refine ⟨by rw [hp, submit_length]; exact hinv.len, ?_, by rw [hp]; exact hinv.tl, hprod, ?_⟩
    · rw [hp, submit_head s.ctx hinv.hd]
      exact Nat.mod_lt _ (by decide)
    · intro ha
      rw [hp, submit_tail]
      exact submit_slot_full s.ctx _ (hinv.cons (by rw [← hacq]; exact ha))

/-- The uncommitted store of `nine_queue_push` keeps sizes, cursors and full
flags. -/
theorem push_store_facts (ctx : nine_queue_pool) (space : Nat) :
    (nine_queue_push ctx space false).pool.length = ctx.pool.length ∧
    (nine_queue_push ctx space false).head = ctx.head ∧
    (nine_queue_push ctx space false).tail = ctx.tail ∧
    (∀ i, ((nine_queue_push ctx space false).slot i).full = (ctx.slot i).full) ∧
    nine_queue_push ctx space true = nine_queue_submit (nine_queue_push ctx space false) := by
  refine ⟨by rw [push_eq]; simp, rfl, rfl, ?_, rfl⟩
  intro i
  by_cases hin : ctx.head < ctx.pool.length
  · by_cases hi : i = ctx.head
    · rw [hi, push_slot_head ctx space false hin]
      simp
    · rw [push_slot_other ctx space false i hi]
  · have hun : nine_queue_push ctx space false = ctx.store ctx.head
        { ctx.slot ctx.head with head := ((ctx.slot ctx.head).head + space) % UINT_RANGE } := rfl
    rw [hun, store_out_of_range ctx ctx.head _ (by omega)]

/-- One step that keeps the order of the calls keeps what that order
maintains and moves the ring by the submit and the free it logs. -/
theorem handoff_ring_step (s s1 : sys) (o : op) (a b : Nat)
    (hinv : handoff_inv s) (hring : ring_inv s.ctx a b)
    (hstep : handoff_step true s o = some s1) :
    handoff_inv s1 ∧
    ring_inv s1.ctx (a + (step_submits s o).length) (b + (step_frees s o).length) ∧
    (step_submits s o = [] ∨
      (step_submits s o = [a % NINE_QUEUES] ∧ (s.ctx.slot s.ctx.head).full = false ∧
        a < b + NINE_QUEUES)) ∧
    (step_frees s o = [] ∨
      (step_frees s o = [b % NINE_QUEUES] ∧ (s.ctx.slot s.ctx.tail).full = true ∧ b < a)) := by
  cases o with
  | alloc space =>
    have hfr : step_frees s (.alloc space) = [] := rfl
    rw [hfr]
    have hst0 : step s (.alloc space) = some s1 := hstep
    unfold step at hst0
    have hfresh : s.prod = .idle ∨ (∃ n, s.prod = .reserved n) →
        s1 = after_alloc s space (nine_queue_alloc s.ctx space) ∧
        step_submits s (.alloc space)
          = if space > NINE_QUEUE_SIZE then [] else alloc_wait_submits s.ctx space := by
      intro h
      rcases h with h | ⟨n, h⟩
      · rw [h] at hst0
        refine ⟨?_, by simp only [step_submits, h]⟩
        have e : some (after_alloc s space (nine_queue_alloc s.ctx space)) = some s1 := by
          simpa [sys.alloc, h] using hst0
        exact (Option.some.inj e).symm
      · rw [h] at hst0
        refine ⟨?_, by simp only [step_submits, h]⟩
        have e : some (after_alloc s space (nine_queue_alloc s.ctx space)) = some s1 := by
          simpa [sys.alloc, h] using hst0
        exact (Option.some.inj e).symm
    have hcase : s.prod = .idle ∨ (∃ n, s.prod = .reserved n) := by
      cases hst : s.prod with
      | idle => exact Or.inl rfl
      | reserved n => exact Or.inr ⟨n, rfl⟩
      | parked_first sp => rw [hst] at hst0; cases hst0
      | parked_second sp => rw [hst] at hst0; cases hst0
    obtain ⟨hs1, hsub⟩ := hfresh hcase
    rw [hs1, hsub]
    refine ⟨handoff_after_alloc s space _ hinv (Or.inl rfl), ?_⟩
    rw [after_alloc_ctx]
    unfold nine_queue_alloc
    by_cases hbig : space > NINE_QUEUE_SIZE
    · rw [if_pos hbig, if_pos hbig]
      exact ⟨hring, Or.inl rfl, Or.inl rfl⟩
    · rw [if_neg hbig, if_neg hbig]
      have hw := ring_alloc_wait s.ctx space a b hinv.len hinv.hd hring
      exact ⟨hw.1, hw.2, Or.inl rfl⟩
  | resume =>
    have hfr : step_frees s .resume = [] := rfl
    rw [hfr]
    have hst0 : step s .resume = some s1 := hstep
    unfold step at hst0
    cases hst : s.prod with
    | idle => rw [hst] at hst0; cases hst0
    | reserved n => rw [hst] at hst0; cases hst0
    | parked_first sp =>
      rw [hst] at hst0
      have hsub : step_submits s .resume = alloc_wait_submits s.ctx sp := by
        simp only [step_submits, hst]
      rw [hsub]
      have e : some (after_alloc s sp (nine_queue_alloc_wait s.ctx sp)) = some s1 := by
        simpa [sys.alloc, hst] using hst0
      rw [← Option.some.inj e]
      refine ⟨handoff_after_alloc s sp _ hinv (Or.inr (Or.inl rfl)), ?_⟩
      rw [after_alloc_ctx]
      have hw := ring_alloc_wait s.ctx sp a b hinv.len hinv.hd hring
      exact ⟨hw.1, hw.2, Or.inl rfl⟩
    | parked_second sp =>
      rw [hst] at hst0
      have hsub : step_submits s .resume = [] := by
        simp only [step_submits, hst]
      rw [hsub]
      have e : some (after_alloc s sp (nine_queue_alloc_next s.ctx)) = some s1 := by
        simpa [sys.alloc, hst] using hst0
      rw [← Option.some.inj e]
      refine ⟨handoff_after_alloc s sp _ hinv (Or.inr (Or.inr rfl)), ?_⟩
      rw [after_alloc_ctx, alloc_next_pool]
      exact ⟨hring, Or.inl rfl, Or.inl rfl⟩
  | push space flush =>
    have hfr : step_frees s (.push space flush) = [] := rfl
    rw [hfr]
    unfold handoff_step at hstep
    cases hst : s.prod with
    | idle => rw [hst] at hstep; cases hstep
    | parked_first sp => rw [hst] at hstep; cases hstep
    | parked_second sp => rw [hst] at hstep; cases hstep
    | reserved n =>
      rw [hst] at hstep
      simp only at hstep
      rw [← Option.some.inj hstep]
      have hnf := hinv.prod n hst
      obtain ⟨hl1, hh1, ht1, hf1, hsubm⟩ := push_store_facts s.ctx space
      have hr1 : ring_inv (nine_queue_push s.ctx space false) a b :=
        ring_congr s.ctx _ a b hh1 ht1 (fun i _ => hf1 i) hring
      cases flush with
      | false =>
        refine ⟨⟨by rw [hl1]; exact hinv.len, by rw [hh1]; exact hinv.hd,
          by rw [ht1]; exact hinv.tl, (fun m hm => (by cases hm)), ?_⟩, hr1, Or.inl rfl, Or.inl rfl⟩
        intro ha
        show ((nine_queue_push s.ctx space false).slot (nine_queue_push s.ctx space false).tail).full
          = true
        rw [hf1, ht1]
        exact hinv.cons ha
      | true =>
        have hnf1 : ((nine_queue_push s.ctx space false).slot
            (nine_queue_push s.ctx space false).head).full = false := by
          rw [hf1, hh1]; exact hnf
        obtain ⟨g1, g2, g3⟩ := ring_submit_pool (nine_queue_push s.ctx space false) a b
          (by rw [hl1]; exact hinv.len) (by rw [hh1]; exact hinv.hd) hr1 hnf1
        have hsub : step_submits s (.push space true) = [s.ctx.head] := rfl
        rw [hsub]
        rw [hh1] at g2
        refine ⟨⟨?_, ?_, ?_, (fun m hm => (by cases hm)), ?_⟩, ?_, Or.inr ⟨by rw [g2], hnf, g3⟩,
          Or.inl rfl⟩
        · show (nine_queue_push s.ctx space true).pool.length = NINE_QUEUES
          rw [hsubm, submit_length, hl1]; exact hinv.len
        · show (nine_queue_push s.ctx space true).head < NINE_QUEUES
          rw [hsubm, submit_head _ (by rw [hh1]; exact hinv.hd)]
          exact Nat.mod_lt _ (by decide)
        · show (nine_queue_push s.ctx space true).tail < NINE_QUEUES
          rw [hsubm, submit_tail, ht1]; exact hinv.tl
        · intro ha
          show ((nine_queue_push s.ctx space true).slot (nine_queue_push s.ctx space true).tail).full
            = true
          rw [hsubm, submit_tail, ht1]
          apply submit_slot_full
          rw [hf1]
          exact hinv.cons ha
        · show ring_inv (nine_queue_push s.ctx space true) _ _
          rw [hsubm]
          exact g1
  | get =>
    have hsub : step_submits s .get = [] := rfl
    have hfr : step_frees s .get = [] := rfl
    rw [hsub, hfr]
    have hst0 : step s .get = some s1 := hstep
    unfold step at hst0
    rw [get_eq] at hst0
    by_cases hf : (s.ctx.slot s.ctx.tail).full = true
    · rw [if_pos hf] at hst0
      rw [← Option.some.inj hst0]
      exact ⟨⟨hinv.len, hinv.hd, hinv.tl, hinv.prod, fun _ => hf⟩, hring, Or.inl rfl, Or.inl rfl⟩
    · rw [if_neg hf] at hst0
      rw [← Option.some.inj hst0]
      exact ⟨⟨hinv.len, hinv.hd, hinv.tl, hinv.prod, hinv.cons⟩, hring, Or.inl rfl, Or.inl rfl⟩
  | pop space =>
    have hsub : step_submits s (.pop space) = [] := rfl
    rw [hsub]
    have hstep2 : (if true = true ∧ s.acquired = false then none
        else some { s with ctx := nine_queue_pop s.ctx space, acquired := false }) = some s1 :=
      hstep
    by_cases hacq : s.acquired = true
    · rw [if_neg (by simp [hacq])] at hstep2
      rw [← Option.some.inj hstep2]
      have hfull := hinv.cons hacq
      have hin : s.ctx.tail < s.ctx.pool.length := by rw [hinv.len]; exact hinv.tl
      have hlen1 : (nine_queue_pop s.ctx space).pool.length = NINE_QUEUES := by
        rw [pop_eq]
        split
        · show (s.ctx.store s.ctx.tail _).pool.length = _
          rw [store_length]; exact hinv.len
        · rw [store_length]; exact hinv.len
      have hhd1 : (nine_queue_pop s.ctx space).head = s.ctx.head := by
        rw [pop_eq]
        split <;> rfl
      have hprod1 : ∀ m, s.prod = .reserved m →
          ((nine_queue_pop s.ctx space).slot (nine_queue_pop s.ctx space).head).full = false := by
        intro m hm
        rw [hhd1]
        exact pop_slot_full s.ctx space _ hin (hinv.prod m hm)
      by_cases hd : ((s.ctx.slot s.ctx.tail).tail + space) % UINT_RANGE
          = (s.ctx.slot s.ctx.tail).head
      · have hfr : step_frees s (.pop space) = [s.ctx.tail] := by
          simp only [step_frees, if_pos hd]
        have hpe : nine_queue_pop s.ctx space
            = { s.ctx.store s.ctx.tail ⟨0, 0, (s.ctx.slot s.ctx.tail).mem_pool, false⟩ with
                tail := ((s.ctx.tail + 1) % UINT_RANGE) &&& NINE_QUEUES_MASK } := by
          rw [pop_eq, if_pos hd]
        obtain ⟨g1, g2, g3⟩ := ring_free s.ctx
          { s.ctx.store s.ctx.tail ⟨0, 0, (s.ctx.slot s.ctx.tail).mem_pool, false⟩ with
            tail := ((s.ctx.tail + 1) % UINT_RANGE) &&& NINE_QUEUES_MASK } a b hring hfull rfl
          (cursor_next s.ctx.tail hinv.tl)
          (by
            show ((s.ctx.store s.ctx.tail _).slot s.ctx.tail).full = false
            rw [slot_store_same s.ctx s.ctx.tail _ hin])
          (by
            intro i hi
            show ((s.ctx.store s.ctx.tail _).slot i).full = _
            rw [slot_store_other s.ctx s.ctx.tail i _ (Ne.symm hi)])
        rw [hfr]
        refine ⟨⟨hlen1, by rw [hhd1]; exact hinv.hd, ?_, hprod1, (fun h => (by cases h))⟩, ?_,
          Or.inl rfl, Or.inr ⟨by rw [g2], hfull, g3⟩⟩
        · show (nine_queue_pop s.ctx space).tail < NINE_QUEUES
          rw [hpe]
          show ((s.ctx.tail + 1) % UINT_RANGE) &&& NINE_QUEUES_MASK < NINE_QUEUES
          rw [cursor_next s.ctx.tail hinv.tl]
          exact Nat.mod_lt _ (by decide)
        · show ring_inv (nine_queue_pop s.ctx space) _ _
          rw [hpe]
          exact g1
      · have hfr : step_frees s (.pop space) = [] := by
          simp only [step_frees, if_neg hd]
        have hpe : nine_queue_pop s.ctx space
            = s.ctx.store s.ctx.tail { s.ctx.slot s.ctx.tail with
                tail := ((s.ctx.slot s.ctx.tail).tail + space) % UINT_RANGE } := by
          rw [pop_eq, if_neg hd]
        rw [hfr]
        refine ⟨⟨hlen1, by rw [hhd1]; exact hinv.hd, ?_, hprod1, (fun h => (by cases h))⟩, ?_,
          Or.inl rfl, Or.inl rfl⟩
        · show (nine_queue_pop s.ctx space).tail < NINE_QUEUES
          rw [hpe]
          exact hinv.tl
        · show ring_inv (nine_queue_pop s.ctx space) _ _
          rw [hpe]
          refine ring_congr s.ctx _ a b rfl rfl ?_ hring
          intro i _
          by_cases hi : i = s.ctx.tail
          · rw [hi, slot_store_same s.ctx s.ctx.tail _ hin]
          · rw [slot_store_other s.ctx s.ctx.tail i _ (Ne.symm hi)]
    · rw [if_pos (by simpa using hacq)] at hstep2
      cases hstep2

/-- Every step of the caller protocol is a step that keeps the order of the
calls. -/
theorem handoff_of_step (s s1 : sys) (o : op) (h : step s o = some s1) :
    handoff_step true s o = some s1 := by
  cases o with
  | alloc space => exact h
  | resume => exact h
  | get => exact h
  | push space flush =>
    unfold step at h
    unfold handoff_step
    cases hst : s.prod with
    | idle => rw [hst] at h; cases h
    | parked_first sp => rw [hst] at h; cases h
    | parked_second sp => rw [hst] at h; cases h
    | reserved n =>
      rw [hst] at h
      simp only at h
      split at h
      · exact h
      · cases h
  | pop space =>
    simp only [step] at h
    split at h
    · rename_i hc
      show (if true = true ∧ s.acquired = false then none
        else some { s with ctx := nine_queue_pop s.ctx space, acquired := false }) = some s1
      rw [if_neg (by simp [hc.1])]
      exact h
    · cases h

theorem handoff_inv_init (malloc : Nat → Nat) : handoff_inv (init malloc) :=
  ⟨(inv_init malloc).len, (inv_init malloc).hd, (inv_init malloc).tl,
    (fun n h => (by cases h)), (fun h => (by cases h))⟩

/-- A logged run that keeps the order of the calls keeps the ring shape and
logs the segments in cursor order. -/
theorem handoff_trace_inv (ops : List op) :
    ∀ (s : sys) (sub fr : List Nat) (s1 : sys) (sub1 fr1 : List Nat),
      handoff_inv s → ring_inv s.ctx sub.length fr.length →
      sub = cursor_order sub.length → fr = cursor_order fr.length →
      handoff_trace true s sub fr ops = some (s1, sub1, fr1) →
      handoff_inv s1 ∧ ring_inv s1.ctx sub1.length fr1.length ∧
      sub1 = cursor_order sub1.length ∧ fr1 = cursor_order fr1.length := by
  induction ops with
  | nil =>
    intro s sub fr s1 sub1 fr1 hinv hring hsub hfr htr
    have e : (s, sub, fr) = (s1, sub1, fr1) := Option.some.inj htr
    cases e
    exact ⟨hinv, hring, hsub, hfr⟩
  | cons o os ih =>
    intro s sub fr s1 sub1 fr1 hinv hring hsub hfr htr
    unfold handoff_trace at htr
    cases hs : handoff_step true s o with
    | none => rw [hs] at htr; cases htr
    | some s2 =>
      rw [hs] at htr
      simp only at htr
      obtain ⟨hi2, hr2, hsd, hfd⟩ := handoff_ring_step s s2 o sub.length fr.length hinv hring hs
      have hsd1 : step_submits s o = [] ∨ step_submits s o = [sub.length % NINE_QUEUES] := by
        rcases hsd with h | h
        · exact Or.inl h
        · exact Or.inr h.1
      have hfd1 : step_frees s o = [] ∨ step_frees s o = [fr.length % NINE_QUEUES] := by
        rcases hfd with h | h
        · exact Or.inl h
        · exact Or.inr h.1
      apply ih s2 (sub ++ step_submits s o) (fr ++ step_frees s o) s1 sub1 fr1 hi2
      · rw [List.length_append, List.length_append]; exact hr2
      · exact log_extend sub sub.length _ _ hsub rfl rfl hsd1
      · exact log_extend fr fr.length _ _ hfr rfl rfl hfd1
      · exact htr

/-! ## Bounded lead -/

/-- C14 as stated fails: it constrains only the producer.  On a fresh pool,
with no push at all, the consumer's `nine_queue_pop(0)` finds `tail == head`
on segment 0, frees it and moves the consumer cursor to 1: one segment
drained, none submitted, a lead of -1. -/
theorem bounded_lead_counterexample :
    handoff_trace false (init demo_malloc) [] [] [.pop 0]
      = some ({ ctx := nine_queue_pop (fresh_pool demo_malloc) 0, prod := .idle,
                acquired := false }, [], [0]) ∧
    (nine_queue_pop (fresh_pool demo_malloc) 0).tail = 1 ∧
    (nine_queue_pop (fresh_pool demo_malloc) 0).head = 0 ∧
    ¬ ([0].length ≤ ([] : List Nat).length) := by
  decide

/-- C14, as amended: after any run from a fresh pool in which each push follows
an alloc that returned and each pop follows a get that returned, whatever the
sizes, with `sub` the segments submitted and `fr` the segments freed so far,
the lead `sub.length - fr.length` lies between 0 and 32 and the cursors are the
counts modulo 32.  A step that runs `nine_queue_submit` does so on the segment
at the producer cursor, which is then not marked full, and only when the lead
is below 32.  At lead 32 `nine_queue_alloc` waits in its first loop and no push
is allowed, so no submit can take the lead past 32. -/
theorem bounded_lead (malloc : Nat → Nat) (ops : List op) (s : sys) (sub fr : List Nat)
    (h : handoff_trace true (init malloc) [] [] ops = some (s, sub, fr)) :
    fr.length ≤ sub.length ∧ sub.length ≤ fr.length + NINE_QUEUES ∧
    s.ctx.head = sub.length % NINE_QUEUES ∧ s.ctx.tail = fr.length % NINE_QUEUES ∧
    (∀ o s1, handoff_step true s o = some s1 → step_submits s o ≠ [] →
      step_submits s o = [s.ctx.head] ∧ (s.ctx.slot s.ctx.head).full = false ∧
      sub.length < fr.length + NINE_QUEUES) ∧
    (sub.length = fr.length + NINE_QUEUES →
      (∀ space, space ≤ NINE_QUEUE_SIZE →
        nine_queue_alloc s.ctx space = .wait_first s.ctx ∧
        nine_queue_alloc_wait s.ctx space = .wait_first s.ctx) ∧
      (∀ space flush, handoff_step true s (.push space flush) = none)) := by
  obtain ⟨hinv, hring, _, _⟩ := handoff_trace_inv ops (init malloc) [] [] s sub fr
    (handoff_inv_init malloc) (ring_init malloc) rfl rfl h
  have hr := hring
  unfold ring_inv at hr
  obtain ⟨h1, h2, h3, h4, h5⟩ := hr
  refine ⟨h1, h2, h3, h4, ?_, ?_⟩
  · intro o s1 hstep hne
    obtain ⟨_, _, hsd, _⟩ := handoff_ring_step s s1 o sub.length fr.length hinv hring hstep
    rcases hsd with hsd | ⟨g1, g2, g3⟩
    · exact absurd hsd hne
    · exact ⟨by rw [g1, h3], g2, g3⟩
  · intro hfull
    have hhf : (s.ctx.slot s.ctx.head).full = true := by
      have := (h5 s.ctx.head hinv.hd).2
      apply this
      rw [h3]
      unfold NINE_QUEUES at *
      omega
    constructor
    · intro space hsp
      have hw : nine_queue_alloc_wait s.ctx space = .wait_first s.ctx := by
        rw [alloc_wait_eq, if_pos hhf]
      refine ⟨?_, hw⟩
      unfold nine_queue_alloc
      rw [if_neg (by omega), hw]
    · intro space flush
      unfold handoff_step
      cases hst : s.prod with
      | idle => rfl
      | parked_first sp => rfl
      | parked_second sp => rfl
      | reserved n =>
        have hp1 := hinv.prod n hst
        rw [hhf] at hp1
        cases hp1

/-- C14 on a run with two submits and one free, in which the first push
commits more than was reserved. -/
theorem bounded_lead_witness :
    handoff_trace true (init demo_malloc) [] []
        [.alloc 10, .push 20 true, .get, .pop 20, .alloc 5, .push 5 true]
      = some (demo_over_commit, [0, 1], [0]) ∧
    [0].length ≤ [0, 1].length ∧ [0, 1].length ≤ [0].length + NINE_QUEUES :=
  ⟨by decide,
    (bounded_lead demo_malloc [.alloc 10, .push 20 true, .get, .pop 20, .alloc 5, .push 5 true]
      demo_over_commit [0, 1] [0] (by decide)).1,
    (bounded_lead demo_malloc [.alloc 10, .push 20 true, .get, .pop 20, .alloc 5, .push 5 true]
      demo_over_commit [0, 1] [0] (by decide)).2.1⟩

end NineQueue

namespace LowerLocalsToRegs

/-! ## Hash and equality of dereference chains -/

/-- The link test of `derefs_equal` succeeds exactly on links with equal keys. -/
theorem derefs_equal_node_iff (a b : deref_node) :
    derefs_equal_node a b = true ↔ a.key = b.key := by
  cases a <;> cases b <;>
    simp [derefs_equal_node, deref_node.deref_type, deref_node.key]

/-- The mixing step of `hash_deref` reads only the key of the link. -/
theorem hash_deref_node_key (hp : Nat → Nat) (h1 h2 : Nat) (a b : deref_node)
    (hh : h1 = h2) (hk : a.key = b.key) :
    hash_deref_node hp h1 a = hash_deref_node hp h2 b := by
  subst hh
  cases a <;> cases b <;> simp [deref_node.key] at hk <;>
    simp [hash_deref_node, hk]

/-- Equality of chains as decided by `derefs_equal` is equality of key lists. -/
theorem derefs_equal_iff_keys (a : nir_deref) :
    ∀ b : nir_deref, derefs_equal a b = some true ↔ a.keys = b.keys := by
  induction a with
  | last n =>
    intro b
    cases b with
    | last m =>
      simp only [derefs_equal, nir_deref.keys, List.cons.injEq, and_true]
      rw [← derefs_equal_node_iff]
      by_cases h : derefs_equal_node n m = true <;> simp [h]
    | link m cb =>
      simp only [derefs_equal, nir_deref.keys, List.cons.injEq]
      constructor
      · intro h
        by_cases hn : derefs_equal_node n m = true <;> simp [hn] at h
      · intro h
        cases cb <;> simp [nir_deref.keys] at h
  | link n ca ih =>
    intro b
    cases b with
    | last m =>
      simp only [derefs_equal, nir_deref.keys, List.cons.injEq]
      constructor
      · intro h
        by_cases hn : derefs_equal_node n m = true <;> simp [hn] at h
      · intro h
        cases ca <;> simp [nir_deref.keys] at h
    | link m cb =>
      simp only [derefs_equal, nir_deref.keys, List.cons.injEq]
      rw [← ih cb, ← derefs_equal_node_iff]
      by_cases hn : derefs_equal_node n m = true <;> simp [hn]

/-- Chains with equal key lists have equal hashes. -/
theorem hash_deref_keys (hp : Nat → Nat) (a : nir_deref) :
    ∀ b : nir_deref, a.keys = b.keys → hash_deref hp a = hash_deref hp b := by
  induction a with
  | last n =>
    intro b h
    cases b with
    | last m =>
      simp only [nir_deref.keys, List.cons.injEq, and_true] at h
      exact hash_deref_node_key hp _ _ n m rfl h
    | link m cb => cases cb <;> simp [nir_deref.keys] at h
  | link n ca ih =>
    intro b h
    cases b with
    | last m => cases ca <;> simp [nir_deref.keys] at h
    | link m cb =>
      simp only [nir_deref.keys, List.cons.injEq] at h
      exact hash_deref_node_key hp _ _ n m (ih cb h.2) h.1

theorem keys_length (a : nir_deref) : a.keys.length = a.length := by
  induction a with
  | last n => rfl
  | link n ca ih => simp [nir_deref.keys, nir_deref.length, ih]

/-- On chains of the same length the assertion of `derefs_equal` holds at every
level: the function returns. -/
theorem derefs_equal_returns (a : nir_deref) :
    ∀ b : nir_deref, a.length = b.length → ∃ r, derefs_equal a b = some r := by
  induction a with
  | last n =>
    intro b h
    cases b with
    | last m =>
      by_cases hn : derefs_equal_node n m = true <;> simp [derefs_equal, hn]
    | link m cb =>
      cases cb <;> simp [nir_deref.length] at h
  | link n ca ih =>
    intro b h
    cases b with
    | last m => cases ca <;> simp [nir_deref.length] at h
    | link m cb =>
      simp only [nir_deref.length, Nat.add_right_cancel_iff] at h
      by_cases hn : derefs_equal_node n m = true
      · simpa [derefs_equal, hn] using ih cb h
      · simp [derefs_equal, hn]

/-- The hash of a chain is a `uint32_t` value. -/
theorem hash_deref_lt (hp : Nat → Nat) (a : nir_deref) : hash_deref hp a < UINT32_RANGE := by
  cases a with
  | last n => cases n <;> exact Nat.mod_lt _ (by decide)
  | link n ca => cases n <;> exact Nat.mod_lt _ (by decide)

theorem derefs_equal_node_comm (a b : deref_node) :
    derefs_equal_node a b = derefs_equal_node b a := by
  rw [Bool.eq_iff_iff, derefs_equal_node_iff, derefs_equal_node_iff]
  exact eq_comm

theorem derefs_equal_comm (a : nir_deref) :
    ∀ b : nir_deref, derefs_equal a b = derefs_equal b a := by
  induction a with
  | last n =>
    intro b
    cases b with
    | last m => simp only [derefs_equal, derefs_equal_node_comm n m]
    | link m cb => simp only [derefs_equal, derefs_equal_node_comm n m]
  | link n ca ih =>
    intro b
    cases b with
    | last m => simp only [derefs_equal, derefs_equal_node_comm n m]
    | link m cb => simp only [derefs_equal, derefs_equal_node_comm n m, ih cb]

/-- C22: two chains with the same keys, that is of the same length, with the
same `deref_type` at every position, the same variable and the same struct
field indices, whatever the `type`, `base_offset`, `deref_array_type` and
`indirect` of their array links, are equal for `derefs_equal` and have the same
`hash_deref`, a 32-bit value. -/
theorem array_indices_ignored (_mesa_hash_pointer : Nat → Nat) (a b : nir_deref)
    (h : a.keys = b.keys) :
    a.length = b.length ∧
    derefs_equal a b = some true ∧
    hash_deref _mesa_hash_pointer a = hash_deref _mesa_hash_pointer b ∧
    hash_deref _mesa_hash_pointer a < UINT32_RANGE := by
  refine ⟨?_, (derefs_equal_iff_keys a b).mpr h, hash_deref_keys _ a b h, hash_deref_lt _ a⟩
  rw [← keys_length a, ← keys_length b, h]

/-- C22 on `v[3].f1` and `v[7 + i].f1`. -/
theorem array_indices_ignored_witness :
    demo_direct.keys = demo_indirect.keys ∧ demo_direct ≠ demo_indirect ∧
    derefs_equal demo_direct demo_indirect = some true ∧
    hash_deref demo_hash_pointer demo_direct = hash_deref demo_hash_pointer demo_indirect :=
  ⟨by decide, by decide,
    (array_indices_ignored demo_hash_pointer demo_direct demo_indirect (by decide)).2.1,
    (array_indices_ignored demo_hash_pointer demo_direct demo_indirect (by decide)).2.2.1⟩

/-- C26: on two chains of the same length `derefs_equal` returns (its
assertion holds at every level); chains it finds equal have the same
`hash_deref`, a 32-bit value; and it is reflexive, symmetric (the two orders
of the arguments give the same result) and transitive. -/
theorem hash_agrees_with_equality (_mesa_hash_pointer : Nat → Nat) :
    (∀ a b : nir_deref, a.length = b.length → ∃ r, derefs_equal a b = some r) ∧
    (∀ a b : nir_deref, derefs_equal a b = some true →
      a.length = b.length ∧
      hash_deref _mesa_hash_pointer a = hash_deref _mesa_hash_pointer b ∧
      hash_deref _mesa_hash_pointer a < UINT32_RANGE) ∧
    (∀ a : nir_deref, derefs_equal a a = some true) ∧
    (∀ a b : nir_deref, derefs_equal a b = derefs_equal b a) ∧
    (∀ a b c : nir_deref, derefs_equal a b = some true → derefs_equal b c = some true →
      derefs_equal a c = some true) := by
  refine ⟨fun a b h => derefs_equal_returns a b h, ?_, ?_, fun a b => derefs_equal_comm a b, ?_⟩
  · intro a b h
    have hk := (derefs_equal_iff_keys a b).mp h
    refine ⟨?_, hash_deref_keys _ a b hk, hash_deref_lt _ a⟩
    rw [← keys_length a, ← keys_length b, hk]
  · intro a
    exact (derefs_equal_iff_keys a a).mpr rfl
  · intro a b c hab hbc
    exact (derefs_equal_iff_keys a c).mpr
      (((derefs_equal_iff_keys a b).mp hab).trans ((derefs_equal_iff_keys b c).mp hbc))

/-- C26 on `v[3].f1` and `v[7 + i].f1`: found equal, hence the same hash. -/
theorem hash_agrees_with_equality_witness :
    derefs_equal demo_direct demo_indirect = some true ∧
    hash_deref demo_hash_pointer demo_direct = hash_deref demo_hash_pointer demo_indirect :=
  ⟨by decide,
    ((hash_agrees_with_equality demo_hash_pointer).2.1 demo_direct demo_indirect
      (by decide)).2.1⟩

/-! ## Flattened array offsets -/

/-- Dimensions that bound an index tuple are positive, so is their product. -/
theorem in_bounds_prod_pos : ∀ (idx ds : List Nat), in_bounds idx ds = true → 0 < ds.prod
  | [], [], _ => by simp
  | [], _ :: _, h => by simp [in_bounds] at h
  | _ :: _, [], h => by simp [in_bounds] at h
  | i :: rest, d :: ds, h => by
    simp only [in_bounds, Bool.and_eq_true, decide_eq_true_eq] at h
    have := in_bounds_prod_pos rest ds h.2
    rw [List.prod_cons]
    exact Nat.mul_pos (by omega) this

/-- The row-major position stays below the running bound times the product of
the dimensions. -/
theorem flat_offset_lt : ∀ (idx ds : List Nat) (off sz : Nat), in_bounds idx ds = true →
    off < sz → flat_offset off idx ds < sz * ds.prod
  | [], [], off, sz, _, h => by simpa [flat_offset] using h
  | [], _ :: _, _, _, h, _ => by simp [in_bounds] at h
  | _ :: _, [], _, _, h, _ => by simp [in_bounds] at h
  | i :: rest, d :: ds, off, sz, h, hlt => by
    simp only [in_bounds, Bool.and_eq_true, decide_eq_true_eq] at h
    have h1 : off * d + i < sz * d := by
      have : (off + 1) * d ≤ sz * d := Nat.mul_le_mul_right d hlt
      rw [Nat.add_mul, Nat.one_mul] at this
      omega
    have := flat_offset_lt rest ds (off * d + i) (sz * d) h.2 h1
    rw [List.prod_cons, ← Nat.mul_assoc]
    exact this

/-- Different starting offsets or different in-bounds index tuples give
different row-major positions. -/
theorem flat_offset_inj : ∀ (ds idx jdx : List Nat) (off off1 : Nat),
    in_bounds idx ds = true → in_bounds jdx ds = true →
    flat_offset off idx ds = flat_offset off1 jdx ds → off = off1 ∧ idx = jdx
  | [], [], [], off, off1, _, _, h => by simpa [flat_offset] using h
  | [], _ :: _, _, _, _, h, _, _ => by simp [in_bounds] at h
  | [], [], _ :: _, _, _, _, h, _ => by simp [in_bounds] at h
  | _ :: _, [], _, _, _, h, _, _ => by simp [in_bounds] at h
  | _ :: _, _ :: _, [], _, _, _, h, _ => by simp [in_bounds] at h
  | d :: ds, i :: rest, j :: rest1, off, off1, hi, hj, h => by
    simp only [in_bounds, Bool.and_eq_true, decide_eq_true_eq] at hi hj
    simp only [flat_offset] at h
    obtain ⟨h1, h2⟩ := flat_offset_inj ds rest rest1 _ _ hi.2 hj.2 h
    have hoff : off = off1 := by
      rcases Nat.lt_trichotomy off off1 with hlt | heq | hgt
      · have : (off + 1) * d ≤ off1 * d := Nat.mul_le_mul_right d hlt
        rw [Nat.add_mul, Nat.one_mul] at this
        omega
      · exact heq
      · have : (off1 + 1) * d ≤ off * d := Nat.mul_le_mul_right d hgt
        rw [Nat.add_mul, Nat.one_mul] at this
        omega
    subst hoff
    exact ⟨rfl, by rw [h2, Nat.add_left_cancel h1]⟩

/-- The walks of `get_reg_for_deref` and `get_deref_reg_src` along a chain whose
indices are in bounds, when the running size times the product of the
dimensions fits in 32 bits: the size is multiplied by that product and the
offset is the row-major position, with no wraparound. -/
theorem walk_exact (G : glsl_types) (deref : nir_deref) :
    ∀ (off sz : Nat) (ind : Option indirect_src),
      deref.direct_arrays G = true → in_bounds deref.indices (deref.dims G) = true →
      off < sz → sz * (deref.dims G).prod < UINT32_RANGE →
      get_reg_for_deref_array_size G deref sz = some (sz * (deref.dims G).prod, deref.tail) ∧
      (get_deref_reg_src_walk G deref off ind).1
        = flat_offset off deref.indices (deref.dims G) ∧
      (get_deref_reg_src_walk G deref off none).2 = none := by
  induction deref with
  | last n =>
    intro off sz ind _ _ _ _
    simp [get_reg_for_deref_array_size, get_deref_reg_src_walk, nir_deref.dims,
      nir_deref.indices, nir_deref.tail, flat_offset]
  | link n child ih =>
    intro off sz ind hdir hin hlt hfit
    cases hc : child.node with
    | nir_deref_var t v =>
      have hty : child.node.deref_type ≠ .nir_deref_type_array := by
        rw [hc]; simp [deref_node.deref_type]
      simp only [nir_deref.direct_arrays, hc, Bool.true_and] at hdir
      simp only [nir_deref.dims, nir_deref.indices, hc, if_neg hty] at hin hfit ⊢
      simp only [get_reg_for_deref_array_size, get_deref_reg_src_walk, hc, if_neg hty,
        nir_deref.tail]
      exact ih off sz ind hdir hin hlt hfit
    | nir_deref_struct t i =>
      have hty : child.node.deref_type ≠ .nir_deref_type_array := by
        rw [hc]; simp [deref_node.deref_type]
      simp only [nir_deref.direct_arrays, hc, Bool.true_and] at hdir
      simp only [nir_deref.dims, nir_deref.indices, hc, if_neg hty] at hin hfit ⊢
      simp only [get_reg_for_deref_array_size, get_deref_reg_src_walk, hc, if_neg hty,
        nir_deref.tail]
      exact ih off sz ind hdir hin hlt hfit
    | nir_deref_array t dat base src =>
      have hty : child.node.deref_type = .nir_deref_type_array := by
        rw [hc]; simp [deref_node.deref_type]
      simp only [nir_deref.direct_arrays, hc, Bool.and_eq_true, decide_eq_true_eq,
        Bool.not_eq_true'] at hdir
      obtain ⟨⟨hdat, hmat⟩, hdir1⟩ := hdir
      have hdims : (nir_deref.link n child).dims G
          = G.glsl_get_length n.type :: child.dims G := by
        simp only [nir_deref.dims, if_pos hty]
      have hidx : (nir_deref.link n child).indices = base :: child.indices := by
        simp only [nir_deref.indices, hc]
      rw [hdims, hidx] at hin
      rw [hdims] at hfit
      rw [hdims, hidx]
      simp only [in_bounds, Bool.and_eq_true, decide_eq_true_eq, List.prod_cons] at hin hfit ⊢
      obtain ⟨hb, hin1⟩ := hin
      have hpos : 0 < (child.dims G).prod := in_bounds_prod_pos _ _ hin1
      have hlen : 0 < G.glsl_get_length n.type := by omega
      have h1 : off * G.glsl_get_length n.type + base < sz * G.glsl_get_length n.type := by
        have : (off + 1) * G.glsl_get_length n.type ≤ sz * G.glsl_get_length n.type :=
          Nat.mul_le_mul_right _ hlt
        rw [Nat.add_mul, Nat.one_mul] at this
        omega
      have h2 : sz * G.glsl_get_length n.type ≤
          sz * G.glsl_get_length n.type * (child.dims G).prod :=
        Nat.le_mul_of_pos_right _ hpos
      rw [← Nat.mul_assoc] at hfit
      have hsz : (sz * G.glsl_get_length n.type) % UINT32_RANGE
          = sz * G.glsl_get_length n.type := Nat.mod_eq_of_lt (by omega)
      have ho1 : (off * G.glsl_get_length n.type) % UINT32_RANGE
          = off * G.glsl_get_length n.type := Nat.mod_eq_of_lt (by omega)
      have ho2 : (off * G.glsl_get_length n.type + base) % UINT32_RANGE
          = off * G.glsl_get_length n.type + base := Nat.mod_eq_of_lt (by omega)
      have hih := ih (off * G.glsl_get_length n.type + base) (sz * G.glsl_get_length n.type)
      have hsize : get_reg_for_deref_array_size G (nir_deref.link n child) sz
          = get_reg_for_deref_array_size G child (sz * G.glsl_get_length n.type) := by
        simp only [get_reg_for_deref_array_size, if_pos hty, hmat, Bool.false_eq_true,
          if_false, if_pos hlen, hsz]
      have hwalk : ∀ i : Option indirect_src,
          (get_deref_reg_src_walk G (nir_deref.link n child) off i)
            = get_deref_reg_src_walk G child (off * G.glsl_get_length n.type + base)
                (i.map fun src =>
                  indirect_src.imul src (G.glsl_get_length n.type % UINT32_RANGE)) := by
        intro i
        simp only [get_deref_reg_src_walk, hc, ho1, ho2, hdat]
        simp
      rw [hsize, hwalk ind, hwalk none]
      simp only [nir_deref.tail, flat_offset, Option.map_none', ← Nat.mul_assoc]
      refine ⟨(hih none hdir1 hin1 h1 hfit).1, (hih _ hdir1 hin1 h1 hfit).2.1,
        (hih none hdir1 hin1 h1 hfit).2.2⟩

/-- C27 as stated fails in the `unsigned` arithmetic of the two functions.  For
`v[0][1]` in an array of 65536 by 65536 elements `array_size` wraps to 0, the
register gets `num_array_elems = 0`, and the offset 1 is neither below
`array_size` nor below `max(1, num_array_elems)`.  In an array of dimensions
65536, 65536, 2 the in-bounds index tuples `(32768, 0, 0)` and `(0, 0, 0)` both
get offset 0. -/
theorem flat_offset_counterexample :
    (demo_square 0 1).direct_arrays demo_glsl = true ∧
    in_bounds (demo_square 0 1).indices ((demo_square 0 1).dims demo_glsl) = true ∧
    get_reg_for_deref_array_size demo_glsl (demo_square 0 1) 1
      = some (0, .nir_deref_array 204 .nir_deref_array_type_direct 1 0) ∧
    get_deref_reg_src demo_glsl demo_hash_pointer demo_search (demo_square 0 1) ⟨[]⟩
      = some (⟨⟨1, 0⟩, 1, none⟩,
          ⟨[⟨hash_deref demo_hash_pointer (demo_square 0 1), demo_square 0 1, ⟨1, 0⟩⟩]⟩) ∧
    ¬ (1 < max 1 0) ∧
    in_bounds (demo_cube 32768 0 0).indices ((demo_cube 32768 0 0).dims demo_glsl) = true ∧
    in_bounds (demo_cube 0 0 0).indices ((demo_cube 0 0 0).dims demo_glsl) = true ∧
    (demo_cube 32768 0 0).indices ≠ (demo_cube 0 0 0).indices ∧
    (get_deref_reg_src_walk demo_glsl (demo_cube 32768 0 0) 0 none).1 = 0 ∧
    (get_deref_reg_src_walk demo_glsl (demo_cube 0 0 0) 0 none).1 = 0 := by
  decide

/-- C27, as amended: for a chain whose array derefs are all direct, index
types that are not matrices and have `base_offset` below the length of the
indexed type, and for which the product of those lengths is below `2 ^ 32`:
`get_reg_for_deref` computes `array_size` as that product, on a table miss
`get_deref_reg_src` returns a source without indirect part whose `base_offset`
is the row-major position of the indices, below `array_size` and below
`max(1, num_array_elems)` of the register it created.  Two chains with the same
such dimensions and different index tuples get different offsets. -/
theorem flat_offset_in_register (G : glsl_types) (_mesa_hash_pointer : Nat → Nat)
    (search : List hash_entry → Nat → nir_deref → Option nir_register) :
    (∀ (deref : nir_deref) (state : locals_to_regs_state),
      deref.direct_arrays G = true →
      in_bounds deref.indices (deref.dims G) = true →
      (deref.dims G).prod < UINT32_RANGE →
      get_reg_for_deref_array_size G deref 1 = some ((deref.dims G).prod, deref.tail) ∧
      (get_deref_reg_src_walk G deref 0 none).1 < (deref.dims G).prod ∧
      (search state.regs_table (hash_deref _mesa_hash_pointer deref) deref = none →
        (G.glsl_type_is_vector deref.tail.type || G.glsl_type_is_scalar deref.tail.type)
          = true →
        ∃ src state1,
          get_deref_reg_src G _mesa_hash_pointer search deref state = some (src, state1) ∧
          src.indirect = none ∧
          src.base_offset = flat_offset 0 deref.indices (deref.dims G) ∧
          src.reg.num_array_elems
            = (if (deref.dims G).prod > 1 then (deref.dims G).prod else 0) ∧
          src.base_offset < max 1 src.reg.num_array_elems)) ∧
    (∀ a b : nir_deref,
      a.direct_arrays G = true → b.direct_arrays G = true →
      a.dims G = b.dims G → (a.dims G).prod < UINT32_RANGE →
      in_bounds a.indices (a.dims G) = true → in_bounds b.indices (b.dims G) = true →
      a.indices ≠ b.indices →
      (get_deref_reg_src_walk G a 0 none).1 ≠ (get_deref_reg_src_walk G b 0 none).1) := by
  constructor
  · intro deref state hdir hin hfit
    have hw := walk_exact G deref 0 1 none hdir hin (by decide) (by rw [Nat.one_mul]; exact hfit)
    rw [Nat.one_mul] at hw
    have hlt := flat_offset_lt deref.indices (deref.dims G) 0 1 hin (by decide)
    rw [Nat.one_mul] at hlt
    refine ⟨hw.1, by rw [hw.2.1]; exact hlt, ?_⟩
    intro hmiss hvec
    have hget : get_deref_reg_src G _mesa_hash_pointer search deref state
        = some (⟨⟨G.glsl_get_vector_elements deref.tail.type,
                  if (deref.dims G).prod > 1 then (deref.dims G).prod else 0⟩,
                (get_deref_reg_src_walk G deref 0 none).1,
                (get_deref_reg_src_walk G deref 0 none).2⟩,
            ⟨⟨hash_deref _mesa_hash_pointer deref, deref,
                ⟨G.glsl_get_vector_elements deref.tail.type,
                  if (deref.dims G).prod > 1 then (deref.dims G).prod else 0⟩⟩
              :: state.regs_table⟩) := by
      unfold get_deref_reg_src get_reg_for_deref
      simp only [hmiss, hw.1, hvec, if_true]
    refine ⟨_, _, hget, hw.2.2, hw.2.1, rfl, ?_⟩
    show (get_deref_reg_src_walk G deref 0 none).1
      < max 1 (if (deref.dims G).prod > 1 then (deref.dims G).prod else 0)
    rw [hw.2.1]
    split <;> omega
  · intro a b hda hdb hdims hfit hia hib hne heq
    have hwa := walk_exact G a 0 1 none hda hia (by decide) (by rw [Nat.one_mul]; exact hfit)
    have hwb := walk_exact G b 0 1 none hdb hib (by decide)
      (by rw [Nat.one_mul, ← hdims]; exact hfit)
    rw [hwa.2.1, hwb.2.1, ← hdims] at heq
    rw [← hdims] at hib
    exact hne (flat_offset_inj (a.dims G) a.indices b.indices 0 0 hia hib heq).2

/-- C27 on `a[3][2]` and `a[2][2]` of a local `float a[4][3]`: the register
has 12 elements, the offsets 11 and 8 are inside it and differ. -/
theorem flat_offset_in_register_witness :
    (demo_small 3 2).direct_arrays demo_small_glsl = true ∧
    in_bounds (demo_small 3 2).indices ((demo_small 3 2).dims demo_small_glsl) = true ∧
    ((demo_small 3 2).dims demo_small_glsl).prod = 12 ∧
    (get_deref_reg_src_walk demo_small_glsl (demo_small 3 2) 0 none).1 = 11 ∧
    (get_deref_reg_src_walk demo_small_glsl (demo_small 3 2) 0 none).1
      < ((demo_small 3 2).dims demo_small_glsl).prod ∧
    (get_deref_reg_src_walk demo_small_glsl (demo_small 3 2) 0 none).1
      ≠ (get_deref_reg_src_walk demo_small_glsl (demo_small 2 2) 0 none).1 :=
  ⟨by decide, by decide, by decide, by decide,
    ((flat_offset_in_register demo_small_glsl demo_hash_pointer demo_search).1
      (demo_small 3 2) ⟨[]⟩ (by decide) (by decide) (by decide)).2.1,
    (flat_offset_in_register demo_small_glsl demo_hash_pointer demo_search).2
      (demo_small 3 2) (demo_small 2 2) (by decide) (by decide) (by decide) (by decide)
      (by decide) (by decide) (by decide)⟩

end LowerLocalsToRegs

namespace SwapChain9

/-! ## Rotation of the buffer queue -/

/-- C28 fails on the code: `newBufferCount` is computed with the swap effect
stored before the call.  A swap chain constructed with swap effect `COPY` and
one back buffer gets arrays of 2 entries where its parameters call for 1.
After a resize to `DISCARD` with two back buffers, which succeeds, the arrays
have 2 entries where the stored parameters call for 3; the next
`NineSwapChain9_Resize` would assume 3, and `NineSwapChain9_Present` indexes
entry 2, past the end of both arrays. -/
theorem resize_buffer_count_mismatch :
    demo_copy_chain.map (fun r =>
        (r.1, r.2.buffers.length, r.2.present_handles.length,
          r.2.params.BackBufferCount, r.2.params.SwapEffect, oldBufferCount r.2))
      = some (D3D_OK, 2, 2, 1, D3DSWAPEFFECT_COPY, 1) ∧
    demo_copy_resized.map (fun r =>
        (r.1, r.2.1.buffers.length, r.2.1.present_handles.length,
          r.2.1.params.BackBufferCount, r.2.1.params.SwapEffect, oldBufferCount r.2.1))
      = some (D3D_OK, 2, 2, 2, D3DSWAPEFFECT_DISCARD, 3) ∧
    demo_copy_resized.map (fun r => r.2.1.buffers[2]?) = some none ∧
    demo_copy_resized.map (fun r => r.2.1.present_handles[2]?) = some none ∧
    demo_copy_resized.map (fun r => rotatable r.2.1) = some false ∧
    (demo_copy_resized.bind fun r => NineSwapChain9_Present r.2.1 D3D_OK) = none :=
  ⟨by decide, by decide, by decide, by decide, by decide, by decide⟩

/-- A resize from `DISCARD` to `FLIP` with the same number of back buffers
leaves `present_buffers` `NULL` (the arrays are not reallocated) and then stores
a present resource through it: undefined behaviour. -/
theorem resize_null_present_buffers :
    demo_discard_chain.map (fun r => (r.1, r.2.present_buffers, r.2.buffers.length))
      = some (D3D_OK, false, 2) ∧
    (demo_discard_chain.bind fun r =>
      NineSwapChain9_Resize demo_calls r.2
        (some ⟨640, 480, 22, 1, D3DSWAPEFFECT_FLIP, true, false, 0⟩)) = none :=
  ⟨by decide, by decide⟩

end SwapChain9
